import Mathlib

/-!
# bank_mapper: the classification and assignment passes of `bank_test_file.c`

A shallow embedding of `init_entries`, `find_read_time_from_file`, `run_exp`
and `check_mapping`, followed by the properties proved about them.

Conventions of the embedding.

* The global array `entries[NUM_ENTRIES]` is a function from index to `entry`;
  a pointer to an entry is the index of that entry and `NULL` is `none`.
  The entry count is the parameter `n` (the C constant is `NUM_ENTRIES`).
* The time file is the list of its parsed lines; reading at the end of the
  file makes `assert (read > 0)` fail. A line that `sscanf` cannot parse
  leaves `a`, `b` and `c` indeterminate and has no counterpart here.
* A C `for` loop over `j = lo .. hi-1` is a recursion over the list of the
  values of `j`.
* `sum` is a sum of integers (each sample is an `int` converted to `double`,
  and the partial sums stay far below `2^53`, so the additions are exact).
  The two rounded `double` operations that turn `sum` into
  `running_threshold` are the parameter `thr`; `exact_threshold` is that
  computation in exact rational arithmetic.
* `dprintf` is compiled out (`DEBUG` is `0`) and the local
  `nearest_nonoutlier`, which only feeds a `dprintf`, is not represented.
-/

namespace BankMapper

/-! ## Constants -/

def PAGE_SHIFT : Nat := 12
def PAGE_SIZE : Nat := 1 <<< PAGE_SHIFT
def MEM_SIZE : Nat := 1 <<< 23
def NUM_CONTIGOUS_PAGES : Nat := MEM_SIZE / PAGE_SIZE
def OUTLIER_PERCENTAGE : Nat := 30
def MAX_BANKS : Nat := 128
def MIN_BANK_SIZE : Nat := PAGE_SIZE / 2
def NUM_ENTRIES : Nat := (NUM_CONTIGOUS_PAGES * PAGE_SIZE) / MIN_BANK_SIZE
def MAX_NUM_ENTRIES_IN_BANK : Nat := NUM_ENTRIES

/-! ## Data -/

/-- The C `entry_t`. `siblings` is the pointer array (slot to entry index). -/
structure entry where
  virt_addr : Nat
  phy_addr : Nat
  bank : Int
  siblings : Nat → Option Nat
  num_sibling : Nat
  associated : Bool

/-- The global `entries` array. -/
abbrev table := Nat → entry

/-- One parsed line of the time file: `0x<a> 0x<b> <c>`. -/
structure time_record where
  a : Nat
  b : Nat
  c : Int
deriving DecidableEq, Repr

/-- What is written to `stderr` through `eprint`. -/
inductive diag where
  | conflict (entry_phy prior_phy current_phy : Nat)
  | unassigned (entry_phy : Nat)
deriving DecidableEq, Repr

/-- What is written to `stdout`: `Bank <id>` or `0x<addr>`. -/
inductive out_line where
  | bank (id : Int)
  | addr (phy : Nat)
deriving DecidableEq, Repr

/-- How a function ends: it returns, an `assert` fails (with the state at
that moment), or a `NULL` pointer is dereferenced. -/
inductive outcome (σ : Type) where
  | done (s : σ)
  | assert_failed (s : σ)
  | null_deref

/-- State of `run_exp`: the table, the unread part of the time file, the
`avgs` buffer and `stderr`. -/
structure exp_state where
  entries : table
  time_fp : List time_record
  avgs : Nat → Int
  err : List diag

/-- State of `check_mapping`: the table, the `banks` array (slots at
`MAX_BANKS` and above lie outside the C array), `main_bank`, `stdout` and
`stderr`. -/
structure map_state where
  entries : table
  banks : Nat → Option Nat
  main_bank : Nat
  out : List out_line
  err : List diag

/-! ## init_banks, init_entries -/

def zero_entry : entry :=
  { virt_addr := 0, phy_addr := 0, bank := 0, siblings := fun _ => none,
    num_sibling := 0, associated := false }

def init_banks : Nat → Option Nat := fun _ => none

def init_entry (virt_start phy_start i : Nat) : entry :=
  { virt_addr := (virt_start + i * MIN_BANK_SIZE) % 2 ^ 64,
    phy_addr := (phy_start + i * MIN_BANK_SIZE) % 2 ^ 64,
    bank := -1,
    siblings := fun _ => none,
    num_sibling := 0,
    associated := false }

def init_entries_loop (virt_start phy_start : Nat) : List Nat → table → table
  | [], es => es
  | i :: is, es =>
    init_entries_loop virt_start phy_start is
      (Function.update es i (init_entry virt_start phy_start i))

def init_entries (n virt_start phy_start : Nat) : table :=
  init_entries_loop virt_start phy_start (List.range n) (fun _ => zero_entry)

/-! ## find_read_time_from_file -/

def find_read_time_from_file :
    List time_record → Option (time_record × List time_record)
  | [] => none
  | r :: rest => some (r, rest)

/-! ## run_exp -/

def running_avg (sum : Int) (sub_entries : Nat) : ℚ :=
  (sum : ℚ) / (sub_entries : ℚ)

def running_threshold (pct : Nat) (avg : ℚ) : ℚ :=
  (avg * (100 + (pct : ℚ))) / 100

/-- Lines 236-237 of `run_exp` in exact arithmetic, percentage `pct`. -/
def exact_threshold_pct (pct : Nat) (sum : Int) (sub_entries : Nat) : ℚ :=
  running_threshold pct (running_avg sum sub_entries)

/-- Lines 236-237 of `run_exp` in exact arithmetic. -/
def exact_threshold (sum : Int) (sub_entries : Nat) : ℚ :=
  exact_threshold_pct OUTLIER_PERCENTAGE sum sub_entries

/-- The first inner loop of `run_exp` (lines 227-234), over the values `js`
of `j`. -/
def read_times (i : Nat) : List Nat → exp_state → Int → outcome (exp_state × Int)
  | [], s, sum => .done (s, sum)
  | j :: js, s, sum =>
    match find_read_time_from_file s.time_fp with
    | none => .assert_failed (s, sum)
    | some (r, rest) =>
      let es1 := Function.update s.entries i { s.entries i with virt_addr := r.a }
      let es2 := Function.update es1 j { es1 j with virt_addr := r.b }
      read_times i js
        { s with entries := es2, time_fp := rest,
                 avgs := Function.update s.avgs j r.c }
        (sum + r.c)

/-- The second inner loop of `run_exp` (lines 240-261), over the values `js`
of `j`; the counter is `num_outlier`. -/
def classify (i : Nat) (thr : ℚ) : List Nat → exp_state → Nat → outcome (exp_state × Nat)
  | [], s, num_outlier => .done (s, num_outlier)
  | j :: js, s, num_outlier =>
    if thr ≤ (s.avgs j : ℚ) then
      if (s.entries j).associated then
        match (s.entries j).siblings 0 with
        | none => .null_deref
        | some prior =>
          classify i thr js
            { s with err := s.err ++ [diag.conflict (s.entries j).phy_addr
                        (s.entries prior).phy_addr (s.entries i).phy_addr] }
            num_outlier
      else
        let es1 := Function.update s.entries i
          { s.entries i with
            siblings := Function.update (s.entries i).siblings num_outlier (some j) }
        let es2 := Function.update es1 j
          { es1 j with
            associated := true,
            siblings := Function.update (es1 j).siblings 0 (some i),
            num_sibling := 1 }
        classify i thr js { s with entries := es2 } (num_outlier + 1)
    else
      classify i thr js s num_outlier

/-- The values of `j` in `for (j = i + 1; j < NUM_ENTRIES; j++)`. -/
def row_indices (n i : Nat) : List Nat := List.range' (i + 1) (n - (i + 1))

/-- The body of the outer loop of `run_exp` for an entry `i` that is not
associated (lines 225-276). -/
def master_pass (thr : Int → Nat → ℚ) (n i : Nat) (s : exp_state) : outcome exp_state :=
  let sub_entries := n - (i + 1)
  match read_times i (row_indices n i) s 0 with
  | .assert_failed p => .assert_failed p.1
  | .null_deref => .null_deref
  | .done (s1, sum) =>
    let s2 := { s1 with
      entries := Function.update s1.entries i { s1.entries i with associated := false } }
    match classify i (thr sum sub_entries) (row_indices n i) s2 0 with
    | .assert_failed p => .assert_failed p.1
    | .null_deref => .null_deref
    | .done (s3, num_outlier) =>
      if (s3.entries i).associated = false then
        .done { s3 with
          entries := Function.update s3.entries i
            { s3.entries i with num_sibling := num_outlier } }
      else
        .done s3

/-- The outer loop of `run_exp` (line 217), over the values `is` of `i`. -/
def run_loop (thr : Int → Nat → ℚ) (n : Nat) : List Nat → exp_state → outcome exp_state
  | [], s => .done s
  | i :: is, s =>
    if (s.entries i).associated then run_loop thr n is s
    else
      match master_pass thr n i s with
      | .done s1 => run_loop thr n is s1
      | .assert_failed s1 => .assert_failed s1
      | .null_deref => .null_deref

def run_exp (thr : Int → Nat → ℚ) (n : Nat) (s : exp_state) : outcome exp_state :=
  run_loop thr n (List.range n) s

/-! ## check_mapping -/

/-- The loop of lines 299-302: `sibling->bank = main_bank` for each slot. -/
def assign_siblings (i : Nat) (main_bank : Nat) : List Nat → table → Option table
  | [], es => some es
  | j :: js, es =>
    match (es i).siblings j with
    | none => none
    | some sib =>
      assign_siblings i main_bank js
        (Function.update es sib { es sib with bank := (main_bank : Int) })

/-- The first loop of `check_mapping` (lines 291-306). -/
def assign_loop : List Nat → map_state → outcome map_state
  | [], s => .done s
  | i :: is, s =>
    if (s.entries i).associated = true then assign_loop is s
    else
      let es1 := Function.update s.entries i
        { s.entries i with bank := (s.main_bank : Int) }
      match assign_siblings i s.main_bank (List.range (es1 i).num_sibling) es1 with
      | none => .null_deref
      | some es2 =>
        let s1 := { s with
          entries := es2,
          banks := Function.update s.banks s.main_bank (some i),
          main_bank := s.main_bank + 1 }
        if s1.main_bank ≤ MAX_BANKS then assign_loop is s1
        else .assert_failed s1

/-- The loop of lines 321-323: the addresses of the siblings. -/
def report_siblings (es : table) (i : Nat) : List Nat → Option (List out_line)
  | [] => some []
  | j :: js =>
    match (es i).siblings j with
    | none => none
    | some sib =>
      match report_siblings es i js with
      | none => none
      | some ls => some (out_line.addr (es sib).phy_addr :: ls)

/-- The second loop of `check_mapping` (lines 309-324). -/
def report_loop : List Nat → map_state → outcome map_state
  | [], s => .done s
  | i :: is, s =>
    let s1 := if (s.entries i).bank < 0
      then { s with err := s.err ++ [diag.unassigned (s.entries i).phy_addr] }
      else s
    if (s1.entries i).associated then report_loop is s1
    else
      match report_siblings s1.entries i (List.range (s1.entries i).num_sibling) with
      | none => .null_deref
      | some ls =>
        report_loop is
          { s1 with
            out := s1.out ++ (out_line.bank (s1.entries i).bank
                    :: out_line.addr (s1.entries i).phy_addr :: ls) }

def check_mapping (n : Nat) (s : map_state) : outcome map_state :=
  match assign_loop (List.range n) s with
  | .done s1 => report_loop (List.range n) s1
  | .assert_failed s1 => .assert_failed s1
  | .null_deref => .null_deref

/-! ## main -/

/-- The state `run_exp` starts from in `main`: `init_entries` with
`virt_start = 0`, the whole time file unread. -/
def start_state (n phy_start : Nat) (fp : List time_record) : exp_state :=
  { entries := init_entries n 0 phy_start, time_fp := fp, avgs := fun _ => 0, err := [] }

/-- The state `check_mapping` starts from in `main`. -/
def mapping_start (s : exp_state) : map_state :=
  { entries := s.entries, banks := init_banks, main_bank := 0, out := [], err := s.err }

/-- The calls of `main` after the file is opened: `init_banks`,
`init_entries`, `run_exp`, `check_mapping`. -/
def main (thr : Int → Nat → ℚ) (n phy_start : Nat) (fp : List time_record) :
    outcome map_state :=
  match run_exp thr n (start_state n phy_start fp) with
  | .done s => check_mapping n (mapping_start s)
  | .assert_failed s => .assert_failed (mapping_start s)
  | .null_deref => .null_deref

/-- An entry with its `virt_addr` field masked. -/
def core (e : entry) : entry := { e with virt_addr := 0 }

def row_sum (k : Nat) (fp : List time_record) : Int :=
  ((fp.take k).map time_record.c).sum

/-- The test `avgs[j] >= running_threshold`. -/
def flagged (thr : ℚ) (avgs : Nat → Int) (j : Nat) : Bool := decide (thr ≤ (avgs j : ℚ))

/-- The indices of `js` that a pass with threshold `thr` claims from state `s`. -/
def claimed (thr : ℚ) (s : exp_state) (js : List Nat) : List Nat :=
  js.filter (fun j => flagged thr s.avgs j && !(s.entries j).associated)

/-- The indices of `js` on which a pass with threshold `thr` reports a conflict. -/
def conflicting (thr : ℚ) (s : exp_state) (js : List Nat) : List Nat :=
  js.filter (fun j => flagged thr s.avgs j && (s.entries j).associated)

def is_conflict : diag → Bool
  | .conflict _ _ _ => true
  | .unassigned _ => false

/-- Every associated entry has a non-`NULL` `siblings[0]`. -/
def backrefs_set (es : table) : Prop :=
  ∀ j, (es j).associated = true → ∃ m, (es j).siblings 0 = some m

/-- The sample that pass `i` stores in `avgs[j]`: record `j - (i + 1)` of the
unread part `fp` of the file. -/
def row_sample (fp : List time_record) (i j : Nat) : Int :=
  (fp.getD (j - (i + 1)) ⟨0, 0, 0⟩).c

/-- The threshold of pass `i` on the unread part `fp` of the file. -/
def pass_threshold (thr : Int → Nat → ℚ) (n i : Nat) (fp : List time_record) : ℚ :=
  thr (row_sum (n - (i + 1)) fp) (n - (i + 1))

/-- The indices that pass `i` claims from state `s`: at or above the
threshold and not associated, in ascending order. -/
def pass_claimed (thr : Int → Nat → ℚ) (n i : Nat) (s : exp_state) : List Nat :=
  (row_indices n i).filter (fun j =>
    decide (pass_threshold thr n i s.time_fp ≤ (row_sample s.time_fp i j : ℚ))
      && !(s.entries j).associated)

/-- The indices on which pass `i` reports a conflict from state `s`. -/
def pass_conflicting (thr : Int → Nat → ℚ) (n i : Nat) (s : exp_state) : List Nat :=
  (row_indices n i).filter (fun j =>
    decide (pass_threshold thr n i s.time_fp ≤ (row_sample s.time_fp i j : ℚ))
      && (s.entries j).associated)

/-- Invariant of the table once the outer loop of `run_exp` has handled the
indices below `k`. -/
structure wf (n k : Nat) (es : table) : Prop where
  backref : ∀ j, (es j).associated = true →
    ∃ m, m < j ∧ m < k ∧ (es m).associated = false ∧ (es j).siblings 0 = some m
      ∧ (es j).num_sibling = 1 ∧ (∀ t, 0 < t → (es j).siblings t = none)
      ∧ ∃ t, t < (es m).num_sibling ∧ (es m).siblings t = some j
  slots : ∀ m, (es m).associated = false → ∀ t, t < (es m).num_sibling →
    ∃ j, (es m).siblings t = some j ∧ m < j ∧ j < n ∧ (es j).associated = true
      ∧ (es j).siblings 0 = some m
  ascending : ∀ m, (es m).associated = false → ∀ t1 t2 j1 j2, t1 < t2 →
    t2 < (es m).num_sibling → (es m).siblings t1 = some j1 →
    (es m).siblings t2 = some j2 → j1 < j2
  fresh : ∀ m, k ≤ m → (es m).associated = false →
    (es m).num_sibling = 0 ∧ ∀ t, (es m).siblings t = none

/-- The effect of the master pass of `i` on state `s`, giving `s1`. -/
structure pass_post (thr : Int → Nat → ℚ) (n i : Nat) (s s1 : exp_state) : Prop where
  enough : n - (i + 1) ≤ s.time_fp.length
  time_fp : s1.time_fp = s.time_fp.drop (n - (i + 1))
  avgs : ∀ j, i < j → j < n → s1.avgs j = row_sample s.time_fp i j
  err : ∃ l, s1.err = s.err ++ l ∧ l.length = (pass_conflicting thr n i s).length
    ∧ ∀ d ∈ l, is_conflict d = true
  below : ∀ x, x < i → s1.entries x = s.entries x
  others : ∀ x, x ≠ i → x ∉ pass_claimed thr n i s → core (s1.entries x) = core (s.entries x)
  claimed : ∀ x ∈ pass_claimed thr n i s, core (s1.entries x) = core
    { s.entries x with
      associated := true,
      siblings := Function.update (s.entries x).siblings 0 (some i),
      num_sibling := 1 }
  master : core (s1.entries i) = core
    { s.entries i with
      siblings := fun t =>
        if t < (pass_claimed thr n i s).length
        then (pass_claimed thr n i s)[t]? else (s.entries i).siblings t,
      num_sibling := (pass_claimed thr n i s).length }

/-- An entry with its `bank` field masked. -/
def unbank (e : entry) : entry := { e with bank := 0 }

/-- The number of entries below `i` that are not associated (masters). -/
def rank (es : table) (i : Nat) : Nat :=
  ((List.range i).filter (fun x => !(es x).associated)).length

/-- The master of the cluster of `x`: `x` itself when it is not associated,
else the entry its `siblings[0]` points to. -/
def master_of (es : table) (x : Nat) : Nat :=
  if (es x).associated then ((es x).siblings 0).getD 0 else x

/-- Invariant of the first loop of `check_mapping` once it has handled the
indices below `p`, from the start state `s0` whose table is `es0`. -/
structure assign_inv (es0 : table) (s0 : map_state) (p : Nat) (s : map_state) : Prop where
  frame : ∀ x, unbank (s.entries x) = unbank (es0 x)
  main_bank : s.main_bank = rank es0 p
  done_bank : ∀ x, master_of es0 x < p →
    (s.entries x).bank = (rank es0 (master_of es0 x) : Int)
  todo_bank : ∀ x, p ≤ master_of es0 x → (s.entries x).bank = (es0 x).bank
  banks_set : ∀ m, m < p → (es0 m).associated = false → s.banks (rank es0 m) = some m
  banks_rest : ∀ k, rank es0 p ≤ k → s.banks k = s0.banks k
  out : s.out = s0.out
  err : s.err = s0.err

/-- The lines `check_mapping` prints for the master `i`: `Bank <id>`, its
address, then the address of each sibling slot in order. -/
def report_block (es : table) (i : Nat) : List out_line :=
  out_line.bank (es i).bank :: out_line.addr (es i).phy_addr ::
    (List.range (es i).num_sibling).map
      (fun t => out_line.addr (es (((es i).siblings t).getD 0)).phy_addr)

/-- The expected `stdout` of the second loop of `check_mapping` over `is`. -/
def report_out (es : table) (is : List Nat) : List out_line :=
  ((is.filter (fun i => !(es i).associated)).map (report_block es)).flatten

/-- The expected `stderr` of the second loop of `check_mapping` over `is`. -/
def report_err (es : table) (is : List Nat) : List diag :=
  (is.filter (fun i => decide ((es i).bank < 0))).map
    (fun i => diag.unassigned (es i).phy_addr)

/-- Whether a function returned. -/
def is_done {σ : Type} : outcome σ → Bool
  | .done _ => true
  | _ => false

/-- Whether an `assert` failed. -/
def is_abort {σ : Type} : outcome σ → Bool
  | .assert_failed _ => true
  | _ => false

/-- The number of samples read for the indices below `k`: `n - (m + 1)` for
each `m < k` that is not associated. -/
def consumed (n : Nat) (es : table) (k : Nat) : Nat :=
  (((List.range k).filter (fun m => !(es m).associated)).map (fun m => n - (m + 1))).sum

/-- The number of pairs `(m, j)` with `m < k` and `m < j < n`. -/
def pairs_below (n k : Nat) : Nat :=
  ((List.range k).map (fun m => n - (m + 1))).sum

/-- The position of the pair `(i, j)` in a file that lists every pair in
nested order. -/
def pair_index (n i j : Nat) : Nat := pairs_below n i + (j - (i + 1))

/-- A time file for four entries at physical base `0`: one line for each of
the pairs (0,1), (0,2), (0,3), (1,2), (1,3), (2,3), in that order. -/
def example_file : List time_record :=
  [⟨0, 2048, 100⟩, ⟨0, 4096, 100⟩, ⟨0, 6144, 500⟩,
   ⟨2048, 4096, 50⟩, ⟨2048, 6144, 60⟩, ⟨4096, 6144, 7⟩]

/-- A time file for two entries: the single pair (0,1). -/
def small_file : List time_record := [⟨0, 2048, 10⟩]

/-- A time file of five lines for four entries: the rows of the indices 0
and 1 only, `(0,1) (0,2) (0,3) (1,2) (1,3)`. -/
def short_file : List time_record :=
  [⟨0, 2048, 1⟩, ⟨0, 4096, 100⟩, ⟨0, 6144, 1⟩, ⟨2048, 4096, 10⟩, ⟨2048, 6144, 10⟩]

/-- A time file for four entries that lists all six pairs in nested order;
the sample of the pair (0,1) is high. -/
def aligned_file : List time_record :=
  [⟨0, 2048, 100⟩, ⟨0, 4096, 1⟩, ⟨0, 6144, 1⟩,
   ⟨2048, 4096, 7⟩, ⟨2048, 6144, 8⟩, ⟨4096, 6144, 9⟩]

/-- A time file for four entries in which the pass of index 1 flags index 3
after the pass of index 0 has claimed it. -/
def conflict_file : List time_record :=
  [⟨0, 2048, 100⟩, ⟨0, 4096, 100⟩, ⟨0, 6144, 500⟩,
   ⟨2048, 4096, 50⟩, ⟨2048, 6144, 500⟩, ⟨4096, 6144, 7⟩]

/-- A time file for two entries at physical base `4096`: the single pair
(0,1), with the physical addresses of the two entries. -/
def moved_file : List time_record := [⟨4096, 6144, 10⟩]

/-- A time file for four entries, all six pairs in nested order, in which
index 3 is at or above the threshold of index 0 for the percentage 30 but
not for 40, and at or above the threshold of index 1 for both. -/
def mono_file : List time_record :=
  [⟨0, 2048, 100⟩, ⟨0, 4096, 100⟩, ⟨0, 6144, 160⟩,
   ⟨2048, 4096, 1⟩, ⟨2048, 6144, 100⟩, ⟨4096, 6144, 5⟩]

/-- A time file for three entries in which the sample of the pair (0,2)
equals the threshold of the pass of index 0: the row is 7, 13, its average
is 10 and the threshold is 13. -/
def boundary_file : List time_record :=
  [⟨0, 2048, 7⟩, ⟨0, 4096, 13⟩, ⟨2048, 4096, 5⟩]

/-- The time file of the worked example for four entries: the samples the
scenario fixes, and `x`, `y` for the two it leaves open, `t(1,3)` and
`t(2,3)`. -/
def scenario_file (x y : Int) : List time_record :=
  [⟨0, 2048, 100⟩, ⟨0, 4096, 100⟩, ⟨0, 6144, 500⟩,
   ⟨2048, 4096, 50⟩, ⟨2048, 6144, x⟩, ⟨4096, 6144, y⟩]

/-- A time file of `k` lines that all carry the sample `v`. -/
def flat_file (k : Nat) (v : Int) : List time_record := List.replicate k ⟨0, 0, v⟩

/-- A time file for three entries whose first row has a negative sum. -/
def negative_file : List time_record :=
  [⟨0, 2048, -10⟩, ⟨0, 4096, -12⟩, ⟨2048, 4096, 5⟩]


/-- The five lines of `short_file` followed by a line for the pair (2,3). -/
def padded_file : List time_record := short_file ++ [⟨4096, 6144, 1⟩]

/-- The samples of `example_file` with the addresses of four entries at
physical base `8192`. -/
def shifted_file : List time_record :=
  [⟨8192, 10240, 100⟩, ⟨8192, 12288, 100⟩, ⟨8192, 14336, 500⟩,
   ⟨10240, 12288, 50⟩, ⟨10240, 14336, 60⟩, ⟨12288, 14336, 7⟩]
/-- Whether the pass of index `m`, in the run from `s0`, finds the sample of
`j` at or above its threshold. -/
def pass_flags (thr : Int → Nat → ℚ) (n : Nat) (s0 : exp_state) (m j : Nat) : Bool :=
  match run_loop thr n (List.range m) s0 with
  | .done sm => decide (pass_threshold thr n m sm.time_fp ≤ (row_sample sm.time_fp m j : ℚ))
  | _ => false

/-- History invariant of the outer loop of `run_exp` after `k` turns: an
associated entry was flagged by the pass of its master and by no earlier
master; an entry that is not associated was flagged by no master below `k`. -/
structure hist (thr : Int → Nat → ℚ) (n : Nat) (s0 : exp_state) (k : Nat) (es : table) :
    Prop where
  claimed : ∀ j m, j < n → (es j).associated = true → (es j).siblings 0 = some m →
    pass_flags thr n s0 m j = true
      ∧ ∀ m1, m1 < m → (es m1).associated = false → pass_flags thr n s0 m1 j = false
  free : ∀ j m1, j < n → (es j).associated = false → m1 < k → m1 < j →
    (es m1).associated = false → pass_flags thr n s0 m1 j = false

/-- The average of C2 in the words of the specification: the sum of the
samples `s[j]` for `j` in `i+1 .. n-1`, divided by `n - i - 1`. -/
def spec_avg (n i : Nat) (sample : Nat → Int) : ℚ :=
  ((((row_indices n i).map sample).sum : Int) : ℚ) / ((n - i - 1 : Nat) : ℚ)

/-- The threshold of C2 in the words of the specification:
`avg * (1 + 30/100)`. -/
def spec_threshold (avg : ℚ) : ℚ := avg * (1 + 30 / 100)

/-- The entries of the block of master `i`: `i`, then the entries its
sibling slots point to, in slot order. -/
def block_indices (es : table) (i : Nat) : List Nat :=
  i :: (List.range (es i).num_sibling).map (fun t => ((es i).siblings t).getD 0)

/-- The entries whose address the second loop of `check_mapping` prints over
`is`, in the order of printing. -/
def report_indices (es : table) (is : List Nat) : List Nat :=
  ((is.filter (fun i => !(es i).associated)).map (block_indices es)).flatten

/-- The address on a line of `stdout`, when it is an address line. -/
def line_addr : out_line → Option Nat
  | .addr a => some a
  | .bank _ => none

/-- The bank id on a line of `stdout`, when it is a `Bank` line. -/
def line_bank : out_line → Option Int
  | .bank b => some b
  | .addr _ => none

theorem core_set_virt (e : entry) (v : Nat) : core { e with virt_addr := v } = core e := rfl

theorem read_times_fail (i : Nat) : ∀ (len a : Nat) (s : exp_state) (sum : Int),
    s.time_fp.length < len →
    ∃ p, read_times i (List.range' a len) s sum = .assert_failed p := by
  intro len
  induction len with
  | zero => intro a s sum h; simp at h
  | succ len ih =>
    intro a s sum h
    rw [List.range'_succ]
    cases hfp : s.time_fp with
    | nil => exact ⟨(s, sum), by simp [read_times, find_read_time_from_file, hfp]⟩
    | cons r rest =>
      simp only [read_times, find_read_time_from_file, hfp]
      apply ih
      simp [hfp] at h
      simpa using h

theorem read_times_done (i : Nat) : ∀ (len a : Nat) (s : exp_state) (sum : Int),
    len ≤ s.time_fp.length →
    ∃ s1, read_times i (List.range' a len) s sum = .done (s1, sum + row_sum len s.time_fp)
      ∧ s1.time_fp = s.time_fp.drop len
      ∧ s1.err = s.err
      ∧ (∀ x, core (s1.entries x) = core (s.entries x))
      ∧ (∀ x, x ≠ i → (x < a ∨ a + len ≤ x) → s1.entries x = s.entries x)
      ∧ (∀ t, t < len → ∃ r, s.time_fp[t]? = some r ∧ s1.avgs (a + t) = r.c)
      ∧ (∀ x, (x < a ∨ a + len ≤ x) → s1.avgs x = s.avgs x) := by
  intro len
  induction len with
  | zero =>
    intro a s sum _
    exact ⟨s, by simp [read_times, row_sum]⟩
  | succ len ih =>
    intro a s sum h
    rw [List.range'_succ]
    cases hfp : s.time_fp with
    | nil => simp [hfp] at h
    | cons r rest =>
      simp only [read_times, find_read_time_from_file, hfp]
      have hlen : len ≤ rest.length := by simpa [hfp] using h
      obtain ⟨s1, h1, h2, h3, h4, h5, h6, h7⟩ := ih (a + 1)
        { s with
          entries := Function.update
            (Function.update s.entries i { s.entries i with virt_addr := r.a }) a
            { (Function.update s.entries i { s.entries i with virt_addr := r.a }) a with
              virt_addr := r.b },
          time_fp := rest, avgs := Function.update s.avgs a r.c } (sum + r.c) hlen
      dsimp only at h1 h2 h3 h4 h5 h6 h7
      refine ⟨s1, ?_, ?_, ?_, ?_, ?_, ?_, ?_⟩
      · rw [h1]; simp [row_sum, add_assoc]
      · simpa using h2
      · simpa using h3
      · intro x
        rw [h4 x]
        by_cases hxa : x = a
        · subst hxa
          by_cases hxi : x = i
          · subst hxi; simp [core]
          · simp [core, Function.update_noteq hxi]
        · by_cases hxi : x = i
          · subst hxi; simp [core, Function.update_noteq hxa]
          · simp [Function.update_noteq hxa, Function.update_noteq hxi]
      · intro x hxi hx
        rw [h5 x hxi (by omega)]
        have hxa : x ≠ a := by omega
        simp [Function.update_noteq hxa, Function.update_noteq hxi]
      · intro t ht
        cases t with
        | zero =>
          refine ⟨r, by simp, ?_⟩
          show s1.avgs a = r.c
          rw [h7 a (Or.inl (by omega))]
          simp
        | succ t =>
          obtain ⟨r1, hr1, hr2⟩ := h6 t (by omega)
          refine ⟨r1, by simpa using hr1, ?_⟩
          rw [← hr2]; congr 1; omega
      · intro x hx
        rw [h7 x (by omega)]
        have hxa : x ≠ a := by omega
        simp [Function.update_noteq hxa]

theorem entry_eq {e e1 : entry} (h1 : e.virt_addr = e1.virt_addr)
    (h2 : e.phy_addr = e1.phy_addr) (h3 : e.bank = e1.bank)
    (h4 : e.siblings = e1.siblings) (h5 : e.num_sibling = e1.num_sibling)
    (h6 : e.associated = e1.associated) : e = e1 := by
  cases e; cases e1; simp_all

theorem claimed_congr (thr : ℚ) (s s1 : exp_state) (js : List Nat)
    (havg : s1.avgs = s.avgs) (h : ∀ j ∈ js, s1.entries j = s.entries j) :
    claimed thr s1 js = claimed thr s js := by
  unfold claimed
  apply List.filter_congr
  intro j hj
  rw [havg, h j hj]

theorem conflicting_congr (thr : ℚ) (s s1 : exp_state) (js : List Nat)
    (havg : s1.avgs = s.avgs) (h : ∀ j ∈ js, s1.entries j = s.entries j) :
    conflicting thr s1 js = conflicting thr s js := by
  unfold conflicting
  apply List.filter_congr
  intro j hj
  rw [havg, h j hj]

theorem classify_spec (i : Nat) (thr : ℚ) : ∀ (js : List Nat) (s : exp_state) (k : Nat),
    i ∉ js → js.Nodup → backrefs_set s.entries →
    ∃ s1, classify i thr js s k = .done (s1, k + (claimed thr s js).length)
      ∧ s1.time_fp = s.time_fp ∧ s1.avgs = s.avgs
      ∧ (∃ l, s1.err = s.err ++ l ∧ l.length = (conflicting thr s js).length
            ∧ ∀ d ∈ l, is_conflict d = true)
      ∧ (∀ x, x ≠ i → x ∉ claimed thr s js → s1.entries x = s.entries x)
      ∧ (∀ x ∈ claimed thr s js, s1.entries x =
            { s.entries x with
              associated := true,
              siblings := Function.update (s.entries x).siblings 0 (some i),
              num_sibling := 1 })
      ∧ s1.entries i =
          { s.entries i with
            siblings := fun t =>
              if k ≤ t ∧ t < k + (claimed thr s js).length
              then (claimed thr s js)[t - k]? else (s.entries i).siblings t } := by
  intro js
  induction js with
  | nil =>
    intro s k _ _ _
    refine ⟨s, by simp [classify, claimed], rfl, rfl, ⟨[], by simp [conflicting]⟩, ?_, ?_, ?_⟩
    · intro x _ _; rfl
    · intro x hx; simp [claimed] at hx
    · apply entry_eq <;> try rfl
      funext t
      have : ¬ (k ≤ t ∧ t < k) := by omega
      simp [claimed, this]
  | cons a js ih =>
    intro s k hi hnd hb
    have hia : i ≠ a := fun h => hi (by simp [h])
    have hijs : i ∉ js := fun h => hi (by simp [h])
    have hajs : a ∉ js := (List.nodup_cons.mp hnd).1
    have hnd1 : js.Nodup := (List.nodup_cons.mp hnd).2
    by_cases hf : thr ≤ (s.avgs a : ℚ)
    · by_cases has : (s.entries a).associated = true
      · -- conflict
        obtain ⟨prior, hprior⟩ := hb a has
        have hcl : claimed thr s (a :: js) = claimed thr s js := by
          simp [claimed, List.filter_cons, has]
        have hco : conflicting thr s (a :: js) = a :: conflicting thr s js := by
          simp [conflicting, List.filter_cons, has, flagged, hf]
        obtain ⟨s1, h1, h2, h3, ⟨l, h4, h4l, h4c⟩, h5, h6, h7⟩ := ih
          { s with err := s.err ++ [diag.conflict (s.entries a).phy_addr
                        (s.entries prior).phy_addr (s.entries i).phy_addr] } k hijs hnd1 hb
        have e1 : claimed thr { s with err := s.err ++ [diag.conflict (s.entries a).phy_addr
                        (s.entries prior).phy_addr (s.entries i).phy_addr] } js
            = claimed thr s js := rfl
        have e2 : conflicting thr { s with err := s.err ++ [diag.conflict (s.entries a).phy_addr
                        (s.entries prior).phy_addr (s.entries i).phy_addr] } js
            = conflicting thr s js := rfl
        rw [e1] at h1 h5 h6 h7
        rw [e2] at h4l
        dsimp only at h2 h3 h4 h5 h6 h7
        refine ⟨s1, ?_, h2, h3, ?_, ?_, ?_, ?_⟩
        · simp only [classify, hf, has, hprior, if_true]
          rw [hcl]; exact h1
        · refine ⟨diag.conflict (s.entries a).phy_addr
                        (s.entries prior).phy_addr (s.entries i).phy_addr :: l, ?_, ?_, ?_⟩
          · rw [h4]; simp
          · rw [hco]; simp [h4l]
          · intro d hd
            rcases List.mem_cons.mp hd with hd | hd
            · subst hd; rfl
            · exact h4c d hd
        · rw [hcl]; exact h5
        · rw [hcl]; exact h6
        · rw [hcl]; exact h7
      · -- claim
        have has1 : (s.entries a).associated = false := by simpa using has
        have hco : conflicting thr s (a :: js) = conflicting thr s js := by
          simp [conflicting, List.filter_cons, has1]
        have hb1 : backrefs_set (Function.update
            (Function.update s.entries i
              { s.entries i with
                siblings := Function.update (s.entries i).siblings k (some a) }) a
            { s.entries a with
              associated := true,
              siblings := Function.update (s.entries a).siblings 0 (some i),
              num_sibling := 1 }) := by
          intro j hj
          by_cases hja : j = a
          · subst hja; exact ⟨i, by simp⟩
          · rw [Function.update_noteq hja] at hj ⊢
            by_cases hji : j = i
            · subst hji
              simp only [Function.update_same] at hj ⊢
              obtain ⟨m, hm⟩ := hb j hj
              by_cases hk : k = 0
              · subst hk; exact ⟨a, by simp⟩
              · exact ⟨m, by rw [Function.update_noteq (Ne.symm hk)]; exact hm⟩
            · rw [Function.update_noteq hji] at hj ⊢
              exact hb j hj
        let s2 : exp_state := { s with entries := (Function.update
            (Function.update s.entries i
              { s.entries i with
                siblings := Function.update (s.entries i).siblings k (some a) }) a
            { s.entries a with
              associated := true,
              siblings := Function.update (s.entries a).siblings 0 (some i),
              num_sibling := 1 }) }
        have hsame : ∀ j ∈ js, s2.entries j = s.entries j := by
          intro j hj
          have hja : j ≠ a := fun h => hajs (h ▸ hj)
          have hji : j ≠ i := fun h => hijs (h ▸ hj)
          show Function.update (Function.update s.entries i _) a _ j = _
          rw [Function.update_noteq hja, Function.update_noteq hji]
        obtain ⟨s1, h1, h2, h3, ⟨l, h4, h4l, h4c⟩, h5, h6, h7⟩ := ih s2 (k + 1) hijs hnd1 hb1
        rw [claimed_congr thr s s2 js rfl hsame] at h1 h5 h6 h7
        rw [conflicting_congr thr s s2 js rfl hsame] at h4l
        dsimp only at h2 h3 h4 h5 h6 h7
        have hcl : claimed thr s (a :: js) = a :: claimed thr s js := by
          simp [claimed, List.filter_cons, has1, flagged, hf]
        have hacl : a ∉ claimed thr s js := fun h => hajs (List.mem_of_mem_filter h)
        have hicl : i ∉ claimed thr s js := fun h => hijs (List.mem_of_mem_filter h)
        refine ⟨s1, ?_, h2, h3, ⟨l, h4, by rw [hco]; exact h4l, h4c⟩, ?_, ?_, ?_⟩
        · simp only [classify, hf, has1, if_true, Function.update_noteq (Ne.symm hia)]
          rw [hcl, List.length_cons]
          simp only [Bool.false_eq_true, if_false]
          rw [h1]; congr 2; omega
        · intro x hxi hx
          rw [hcl] at hx
          have hxa : x ≠ a := fun h => hx (by simp [h])
          have hxc : x ∉ claimed thr s js := fun h => hx (by simp [h])
          rw [h5 x hxi hxc, Function.update_noteq hxa, Function.update_noteq hxi]
        · intro x hx
          rw [hcl] at hx
          rcases List.mem_cons.mp hx with hx | hx
          · subst hx
            rw [h5 x (Ne.symm hia) hacl, Function.update_same]
          · have hxa : x ≠ a := fun h => hacl (h ▸ hx)
            have hxi : x ≠ i := fun h => hicl (h ▸ hx)
            rw [h6 x hx, Function.update_noteq hxa, Function.update_noteq hxi]
        · rw [h7, Function.update_noteq hia, Function.update_same, hcl]
          apply entry_eq <;> try rfl
          funext t
          show (if k + 1 ≤ t ∧ t < k + 1 + (claimed thr s js).length
              then (claimed thr s js)[t - (k + 1)]?
              else Function.update (s.entries i).siblings k (some a) t) =
            (if k ≤ t ∧ t < k + (a :: claimed thr s js).length
              then (a :: claimed thr s js)[t - k]? else (s.entries i).siblings t)
          by_cases c1 : k + 1 ≤ t ∧ t < k + 1 + (claimed thr s js).length
          · have c2 : k ≤ t ∧ t < k + (a :: claimed thr s js).length := by
              simp only [List.length_cons]; omega
            rw [if_pos c1, if_pos c2]
            have : t - k = (t - (k + 1)) + 1 := by omega
            rw [this, List.getElem?_cons_succ]
          · rw [if_neg c1]
            by_cases c3 : t = k
            · subst c3
              simp
            · have c2 : ¬ (k ≤ t ∧ t < k + (a :: claimed thr s js).length) := by
                simp only [List.length_cons]; omega
              rw [if_neg c2, Function.update_noteq c3]
    · -- below the threshold
      have hcl : claimed thr s (a :: js) = claimed thr s js := by
        simp [claimed, List.filter_cons, flagged, hf]
      have hco : conflicting thr s (a :: js) = conflicting thr s js := by
        simp [conflicting, List.filter_cons, flagged, hf]
      obtain ⟨s1, h1, h2, h3, h4, h5, h6, h7⟩ := ih s k hijs hnd1 hb
      refine ⟨s1, ?_, h2, h3, ?_, ?_, ?_, ?_⟩
      · simp only [classify, hf, if_false]
        rw [hcl]; exact h1
      · rw [hco]; exact h4
      · rw [hcl]; exact h5
      · rw [hcl]; exact h6
      · rw [hcl]; exact h7

theorem mem_row_indices {n i j : Nat} : j ∈ row_indices n i ↔ i < j ∧ j < n := by
  unfold row_indices
  rw [List.mem_range']
  constructor
  · rintro ⟨t, ht, rfl⟩; omega
  · rintro ⟨h1, h2⟩; exact ⟨j - (i + 1), by omega, by omega⟩

theorem master_pass_fail (thr : Int → Nat → ℚ) (n i : Nat) (s : exp_state)
    (h : s.time_fp.length < n - (i + 1)) :
    ∃ s1, master_pass thr n i s = .assert_failed s1 := by
  obtain ⟨p, hp⟩ := read_times_fail i (n - (i + 1)) (i + 1) s 0 h
  exact ⟨p.1, by simp only [master_pass, row_indices, hp]⟩

theorem core_assoc {e e1 : entry} (h : core e = core e1) : e.associated = e1.associated :=
  by
  have h1 := congrArg entry.associated h
  exact h1

theorem core_siblings {e e1 : entry} (h : core e = core e1) : e.siblings = e1.siblings :=
  by
  have h1 := congrArg entry.siblings h
  exact h1

theorem core_num {e e1 : entry} (h : core e = core e1) : e.num_sibling = e1.num_sibling :=
  by
  have h1 := congrArg entry.num_sibling h
  exact h1

theorem core_bank {e e1 : entry} (h : core e = core e1) : e.bank = e1.bank :=
  by
  have h1 := congrArg entry.bank h
  exact h1

theorem core_phy {e e1 : entry} (h : core e = core e1) : e.phy_addr = e1.phy_addr :=
  by
  have h1 := congrArg entry.phy_addr h
  exact h1

theorem core_eq {e e1 : entry}
    (h2 : e.phy_addr = e1.phy_addr) (h3 : e.bank = e1.bank)
    (h4 : e.siblings = e1.siblings) (h5 : e.num_sibling = e1.num_sibling)
    (h6 : e.associated = e1.associated) : core e = core e1 := by
  cases e; cases e1; simp_all [core]

theorem master_pass_spec (thr : Int → Nat → ℚ) (n i : Nat) (s : exp_state)
    (hna : (s.entries i).associated = false)
    (hlen : n - (i + 1) ≤ s.time_fp.length)
    (hb : backrefs_set s.entries) :
    ∃ s1, master_pass thr n i s = .done s1
      ∧ s1.time_fp = s.time_fp.drop (n - (i + 1))
      ∧ (∀ j, i < j → j < n → s1.avgs j = row_sample s.time_fp i j)
      ∧ (∃ l, s1.err = s.err ++ l ∧ l.length = (pass_conflicting thr n i s).length
            ∧ ∀ d ∈ l, is_conflict d = true)
      ∧ (∀ x, x < i → s1.entries x = s.entries x)
      ∧ (∀ x, x ≠ i → x ∉ pass_claimed thr n i s → core (s1.entries x) = core (s.entries x))
      ∧ (∀ x ∈ pass_claimed thr n i s, core (s1.entries x) = core
            { s.entries x with
              associated := true,
              siblings := Function.update (s.entries x).siblings 0 (some i),
              num_sibling := 1 })
      ∧ core (s1.entries i) = core
          { s.entries i with
            siblings := fun t =>
              if t < (pass_claimed thr n i s).length
              then (pass_claimed thr n i s)[t]? else (s.entries i).siblings t,
            num_sibling := (pass_claimed thr n i s).length } := by
  obtain ⟨r1, hr, hfp1, herr1, hcore1, hsame1, havg1, _⟩ :=
    read_times_done i (n - (i + 1)) (i + 1) s 0 hlen
  have hr1 : read_times i (row_indices n i) s 0
      = .done (r1, row_sum (n - (i + 1)) s.time_fp) := by
    rw [row_indices, hr, zero_add]
  let s2 : exp_state := { r1 with
      entries := Function.update r1.entries i { r1.entries i with associated := false } }
  have hs2i : ∀ x, x ≠ i → s2.entries x = r1.entries x := by
    intro x hx
    show Function.update r1.entries i _ x = _
    rw [Function.update_noteq hx]
  have hs2core : ∀ x, core (s2.entries x) = core (s.entries x) := by
    intro x
    by_cases hx : x = i
    · subst hx
      show core (Function.update r1.entries x _ x) = _
      rw [Function.update_same]
      have := hcore1 x
      apply core_eq
      · have h0 := core_phy this; exact h0
      · have h0 := core_bank this; exact h0
      · have h0 := core_siblings this; exact h0
      · have h0 := core_num this; exact h0
      · exact hna.symm
    · rw [hs2i x hx]; exact hcore1 x
  have hb2 : backrefs_set s2.entries := by
    intro j hj
    rw [core_assoc (hs2core j)] at hj
    rw [core_siblings (hs2core j)]
    exact hb j hj
  have hnotin : i ∉ row_indices n i := by
    intro h; have := (mem_row_indices.mp h).1; omega
  have hnd : (row_indices n i).Nodup := List.nodup_range' _ _
  have havg2 : ∀ j, i < j → j < n → s2.avgs j = row_sample s.time_fp i j := by
    intro j h1 h2
    obtain ⟨r, hr1, hr2⟩ := havg1 (j - (i + 1)) (by omega)
    have : i + 1 + (j - (i + 1)) = j := by omega
    rw [this] at hr2
    show r1.avgs j = _
    rw [hr2, row_sample, List.getD_eq_getElem?_getD, hr1]
    rfl
  have hcl : claimed (thr (row_sum (n - (i + 1)) s.time_fp) (n - (i + 1))) s2 (row_indices n i)
      = pass_claimed thr n i s := by
    unfold claimed pass_claimed
    apply List.filter_congr
    intro j hj
    obtain ⟨h1, h2⟩ := mem_row_indices.mp hj
    rw [flagged, havg2 j h1 h2, core_assoc (hs2core j)]
    rfl
  have hco : conflicting (thr (row_sum (n - (i + 1)) s.time_fp) (n - (i + 1))) s2
      (row_indices n i) = pass_conflicting thr n i s := by
    unfold conflicting pass_conflicting
    apply List.filter_congr
    intro j hj
    obtain ⟨h1, h2⟩ := mem_row_indices.mp hj
    rw [flagged, havg2 j h1 h2, core_assoc (hs2core j)]
    rfl
  obtain ⟨s3, hc, hfp3, havg3, herr3, hoth3, hcl3, hi3⟩ :=
    classify_spec i (thr (row_sum (n - (i + 1)) s.time_fp) (n - (i + 1)))
      (row_indices n i) s2 0 hnotin hnd hb2
  rw [hcl] at hc hoth3 hcl3 hi3
  rw [hco] at herr3
  rw [zero_add] at hc
  have hassoc3 : (s3.entries i).associated = false := by
    rw [hi3]
    show (s2.entries i).associated = false
    rw [core_assoc (hs2core i)]; exact hna
  refine ⟨{ s3 with entries := (Function.update s3.entries i
      { s3.entries i with num_sibling := (pass_claimed thr n i s).length }) },
    ?_, ?_, ?_, ?_, ?_, ?_, ?_, ?_⟩
  · simp only [master_pass, hr1]
    rw [hc]
    simp only [hassoc3, if_true]
  · show s3.time_fp = _
    rw [hfp3]; exact hfp1
  · intro j h1 h2
    show s3.avgs j = _
    rw [havg3]; exact havg2 j h1 h2
  · show ∃ l, s3.err = _ ∧ _
    obtain ⟨l, hl1, hl2, hl3⟩ := herr3
    exact ⟨l, by rw [hl1]; show r1.err ++ l = _; rw [herr1], hl2, hl3⟩
  · intro x hx
    have hxi : x ≠ i := by omega
    have hxc : x ∉ pass_claimed thr n i s := by
      intro h
      have := (mem_row_indices.mp (List.mem_of_mem_filter h)).1
      omega
    show Function.update s3.entries i _ x = _
    rw [Function.update_noteq hxi, hoth3 x hxi hxc, hs2i x hxi]
    exact hsame1 x hxi (Or.inl (by omega))
  · intro x hxi hxc
    show core (Function.update s3.entries i _ x) = _
    rw [Function.update_noteq hxi, hoth3 x hxi hxc]
    exact hs2core x
  · intro x hx
    have hxi : x ≠ i := by
      intro h
      have := (mem_row_indices.mp (List.mem_of_mem_filter hx)).1
      omega
    show core (Function.update s3.entries i _ x) = _
    rw [Function.update_noteq hxi, hcl3 x hx]
    have := hs2core x
    apply core_eq
    · have h0 := core_phy this; exact h0
    · have h0 := core_bank this; exact h0
    · show Function.update (s2.entries x).siblings 0 (some i) = _
      rw [core_siblings this]
    · rfl
    · rfl
  · show core (Function.update s3.entries i _ i) = _
    rw [Function.update_same, hi3]
    have := hs2core i
    apply core_eq
    · have h0 := core_phy this; exact h0
    · have h0 := core_bank this; exact h0
    · show (fun t => if 0 ≤ t ∧ t < 0 + (pass_claimed thr n i s).length
          then (pass_claimed thr n i s)[t - 0]? else (s2.entries i).siblings t) = _
      funext t
      rw [core_siblings this]
      simp
    · rfl
    · have h0 := core_assoc this; exact h0

theorem init_entries_loop_apply (v p : Nat) : ∀ (l : List Nat) (es : table) (x : Nat),
    init_entries_loop v p l es x = if x ∈ l then init_entry v p x else es x := by
  intro l
  induction l with
  | nil => intro es x; simp [init_entries_loop]
  | cons i is ih =>
    intro es x
    rw [init_entries_loop, ih]
    by_cases h1 : x ∈ is
    · simp [h1]
    · by_cases h2 : x = i
      · subst h2; simp [h1]
      · simp [h1, h2, Function.update_noteq h2]

theorem init_entries_apply (n v p x : Nat) :
    init_entries n v p x = if x < n then init_entry v p x else zero_entry := by
  rw [init_entries, init_entries_loop_apply]
  simp [List.mem_range]

theorem init_entries_fresh (n v p x : Nat) :
    (init_entries n v p x).associated = false ∧ (init_entries n v p x).num_sibling = 0
      ∧ ∀ t, (init_entries n v p x).siblings t = none := by
  rw [init_entries_apply]
  by_cases h : x < n
  · simp [h, init_entry]
  · simp [h, zero_entry]

theorem wf_init (n v p : Nat) : wf n 0 (init_entries n v p) := by
  refine ⟨?_, ?_, ?_, ?_⟩
  · intro j hj
    rw [(init_entries_fresh n v p j).1] at hj
    exact absurd hj (by simp)
  · intro m _ t ht
    rw [(init_entries_fresh n v p m).2.1] at ht
    omega
  · intro m _ t1 t2 j1 j2 _ ht
    rw [(init_entries_fresh n v p m).2.1] at ht
    omega
  · intro m _ _
    exact (init_entries_fresh n v p m).2

theorem wf_backrefs_set {n k : Nat} {es : table} (h : wf n k es) : backrefs_set es := by
  intro j hj
  obtain ⟨m, _, _, _, hm, _⟩ := h.backref j hj
  exact ⟨m, hm⟩

theorem wf_skip {n k : Nat} {es : table} (h : wf n k es) : wf n (k + 1) es := by
  refine ⟨?_, h.slots, h.ascending, ?_⟩
  · intro j hj
    obtain ⟨m, h1, h2, h3⟩ := h.backref j hj
    exact ⟨m, h1, by omega, h3⟩
  · intro m hm
    exact h.fresh m (by omega)

theorem pass_claimed_mem {thr : Int → Nat → ℚ} {n i : Nat} {s : exp_state} {j : Nat}
    (h : j ∈ pass_claimed thr n i s) :
    i < j ∧ j < n ∧ (s.entries j).associated = false := by
  unfold pass_claimed at h
  rw [List.mem_filter] at h
  obtain ⟨h1, h2⟩ := h
  have := mem_row_indices.mp h1
  simp only [Bool.and_eq_true, Bool.not_eq_true'] at h2
  exact ⟨this.1, this.2, h2.2⟩

theorem pass_claimed_sorted (thr : Int → Nat → ℚ) (n i : Nat) (s : exp_state) :
    (pass_claimed thr n i s).Pairwise (· < ·) := by
  unfold pass_claimed row_indices
  exact List.Pairwise.filter _ (List.pairwise_lt_range' _ _)

/-- What `master_pass_spec` gives on the three classification fields. -/
theorem pass_fields {thr : Int → Nat → ℚ} {n i : Nat} {s s1 : exp_state}
    (hoth : ∀ x, x ≠ i → x ∉ pass_claimed thr n i s → core (s1.entries x) = core (s.entries x))
    (hcl : ∀ x ∈ pass_claimed thr n i s, core (s1.entries x) = core
            { s.entries x with
              associated := true,
              siblings := Function.update (s.entries x).siblings 0 (some i),
              num_sibling := 1 })
    (hi : core (s1.entries i) = core
          { s.entries i with
            siblings := fun t =>
              if t < (pass_claimed thr n i s).length
              then (pass_claimed thr n i s)[t]? else (s.entries i).siblings t,
            num_sibling := (pass_claimed thr n i s).length }) :
    (∀ x, x ≠ i → x ∉ pass_claimed thr n i s →
        (s1.entries x).associated = (s.entries x).associated
        ∧ (s1.entries x).siblings = (s.entries x).siblings
        ∧ (s1.entries x).num_sibling = (s.entries x).num_sibling)
    ∧ (∀ x ∈ pass_claimed thr n i s,
        (s1.entries x).associated = true
        ∧ (s1.entries x).siblings = Function.update (s.entries x).siblings 0 (some i)
        ∧ (s1.entries x).num_sibling = 1)
    ∧ ((s1.entries i).associated = (s.entries i).associated
        ∧ (s1.entries i).num_sibling = (pass_claimed thr n i s).length
        ∧ ∀ t, t < (pass_claimed thr n i s).length →
            (s1.entries i).siblings t = (pass_claimed thr n i s)[t]?) := by
  refine ⟨?_, ?_, ?_, ?_, ?_⟩
  · intro x h1 h2
    have h := hoth x h1 h2
    exact ⟨core_assoc h, core_siblings h, core_num h⟩
  · intro x hx
    have h := hcl x hx
    have h1 := core_assoc h
    have h2 := core_siblings h
    have h3 := core_num h
    exact ⟨h1, h2, h3⟩
  · have h1 := core_assoc hi
    exact h1
  · have h1 := core_num hi
    exact h1
  · intro t ht
    have h1 := core_siblings hi
    rw [h1]
    simp [ht]

theorem wf_pass {thr : Int → Nat → ℚ} {n i : Nat} {s s1 : exp_state}
    (hw : wf n i s.entries) (hna : (s.entries i).associated = false)
    (hoth : ∀ x, x ≠ i → x ∉ pass_claimed thr n i s → core (s1.entries x) = core (s.entries x))
    (hcl : ∀ x ∈ pass_claimed thr n i s, core (s1.entries x) = core
            { s.entries x with
              associated := true,
              siblings := Function.update (s.entries x).siblings 0 (some i),
              num_sibling := 1 })
    (hi : core (s1.entries i) = core
          { s.entries i with
            siblings := fun t =>
              if t < (pass_claimed thr n i s).length
              then (pass_claimed thr n i s)[t]? else (s.entries i).siblings t,
            num_sibling := (pass_claimed thr n i s).length }) :
    wf n (i + 1) s1.entries := by
  obtain ⟨fo, fc, fia, fin, fis⟩ := pass_fields hoth hcl hi
  rw [hna] at fia
  -- a claimed entry after the pass
  have claimed_after : ∀ x ∈ pass_claimed thr n i s,
      (s1.entries x).associated = true ∧ (s1.entries x).siblings 0 = some i
        ∧ (s1.entries x).num_sibling = 1 ∧ (∀ t, 0 < t → (s1.entries x).siblings t = none) := by
    intro x hx
    obtain ⟨h1, h2, h3⟩ := fc x hx
    obtain ⟨g1, g2, g3⟩ := pass_claimed_mem hx
    refine ⟨h1, by rw [h2]; simp, h3, ?_⟩
    intro t ht
    rw [h2, Function.update_noteq (by omega)]
    exact (hw.fresh x (by omega) g3).2 t
  have slot_of_mem : ∀ x ∈ pass_claimed thr n i s,
      ∃ t, t < (s1.entries i).num_sibling ∧ (s1.entries i).siblings t = some x := by
    intro x hx
    obtain ⟨t, ht, hxt⟩ := List.getElem_of_mem hx
    refine ⟨t, by rw [fin]; exact ht, ?_⟩
    rw [fis t ht, List.getElem?_eq_getElem ht, hxt]
  have not_claimed_of_assoc : ∀ x, (s.entries x).associated = true →
      x ≠ i ∧ x ∉ pass_claimed thr n i s := by
    intro x hx
    refine ⟨?_, ?_⟩
    · intro h; rw [h, hna] at hx; exact absurd hx (by simp)
    · intro h; rw [(pass_claimed_mem h).2.2] at hx; exact absurd hx (by simp)
  have below : ∀ m, m < i → m ≠ i ∧ m ∉ pass_claimed thr n i s := by
    intro m hm
    refine ⟨by omega, ?_⟩
    intro h; have := (pass_claimed_mem h).1; omega
  refine ⟨?_, ?_, ?_, ?_⟩
  · -- backref
    intro j hj
    by_cases hji : j = i
    · rw [hji, fia] at hj; exact absurd hj (by simp)
    · by_cases hjc : j ∈ pass_claimed thr n i s
      · obtain ⟨h1, h2, h3, h4⟩ := claimed_after j hjc
        exact ⟨i, (pass_claimed_mem hjc).1, by omega, fia, h2, h3, h4, slot_of_mem j hjc⟩
      · obtain ⟨e1, e2, e3⟩ := fo j hji hjc
        rw [e1] at hj
        obtain ⟨m, g1, g2, g3, g4, g5, g6, t, g7, g8⟩ := hw.backref j hj
        obtain ⟨b1, b2⟩ := below m g2
        obtain ⟨m1, m2, m3⟩ := fo m b1 b2
        refine ⟨m, g1, by omega, by rw [m1]; exact g3, by rw [e2]; exact g4,
          by rw [e3]; exact g5, ?_, t, by rw [m3]; exact g7, by rw [m2]; exact g8⟩
        intro t ht; rw [e2]; exact g6 t ht
  · -- slots
    intro m hm t ht
    by_cases hmi : m = i
    · subst hmi
      rw [fin] at ht
      have hmem : (pass_claimed thr n m s)[t] ∈ pass_claimed thr n m s := List.getElem_mem ht
      obtain ⟨h1, h2, h3, h4⟩ := claimed_after _ hmem
      obtain ⟨g1, g2, g3⟩ := pass_claimed_mem hmem
      exact ⟨(pass_claimed thr n m s)[t], by rw [fis t ht, List.getElem?_eq_getElem ht],
        g1, g2, h1, h2⟩
    · by_cases hmc : m ∈ pass_claimed thr n i s
      · rw [(claimed_after m hmc).1] at hm; exact absurd hm (by simp)
      · obtain ⟨e1, e2, e3⟩ := fo m hmi hmc
        rw [e1] at hm
        rw [e3] at ht
        obtain ⟨j, g1, g2, g3, g4, g5⟩ := hw.slots m hm t ht
        obtain ⟨b1, b2⟩ := not_claimed_of_assoc j g4
        obtain ⟨j1, j2, j3⟩ := fo j b1 b2
        exact ⟨j, by rw [e2]; exact g1, g2, g3, by rw [j1]; exact g4, by rw [j2]; exact g5⟩
  · -- ascending
    intro m hm t1 t2 j1 j2 h12 ht2 hs1 hs2
    by_cases hmi : m = i
    · subst hmi
      rw [fin] at ht2
      have ht1 : t1 < (pass_claimed thr n m s).length := by omega
      rw [fis t1 ht1, List.getElem?_eq_getElem ht1] at hs1
      rw [fis t2 ht2, List.getElem?_eq_getElem ht2] at hs2
      have hp := List.pairwise_iff_getElem.mp (pass_claimed_sorted thr n m s) t1 t2 ht1 ht2 h12
      simp only [Option.some.injEq] at hs1 hs2
      rw [← hs1, ← hs2]; exact hp
    · by_cases hmc : m ∈ pass_claimed thr n i s
      · rw [(claimed_after m hmc).1] at hm; exact absurd hm (by simp)
      · obtain ⟨e1, e2, e3⟩ := fo m hmi hmc
        rw [e1] at hm
        rw [e3] at ht2
        rw [e2] at hs1 hs2
        exact hw.ascending m hm t1 t2 j1 j2 h12 ht2 hs1 hs2
  · -- fresh
    intro m hk hm
    have hmi : m ≠ i := by omega
    by_cases hmc : m ∈ pass_claimed thr n i s
    · rw [(claimed_after m hmc).1] at hm; exact absurd hm (by simp)
    · obtain ⟨e1, e2, e3⟩ := fo m hmi hmc
      rw [e1] at hm
      rw [e2, e3]
      exact hw.fresh m (by omega) hm

theorem master_pass_post (thr : Int → Nat → ℚ) (n i : Nat) (s : exp_state)
    (hna : (s.entries i).associated = false)
    (hlen : n - (i + 1) ≤ s.time_fp.length)
    (hb : backrefs_set s.entries) :
    ∃ s1, master_pass thr n i s = .done s1 ∧ pass_post thr n i s s1 := by
  obtain ⟨s1, h0, h1, h2, h3, h4, h5, h6, h7⟩ := master_pass_spec thr n i s hna hlen hb
  exact ⟨s1, h0, ⟨hlen, h1, h2, h3, h4, h5, h6, h7⟩⟩

theorem master_pass_done {thr : Int → Nat → ℚ} {n i : Nat} {s s1 : exp_state}
    (hna : (s.entries i).associated = false) (hb : backrefs_set s.entries)
    (h : master_pass thr n i s = .done s1) : pass_post thr n i s s1 := by
  by_cases hlen : n - (i + 1) ≤ s.time_fp.length
  · obtain ⟨s2, h2, hp⟩ := master_pass_post thr n i s hna hlen hb
    rw [h] at h2
    cases h2
    exact hp
  · obtain ⟨s2, h2⟩ := master_pass_fail thr n i s (by omega)
    rw [h] at h2
    cases h2

theorem master_pass_not_null {thr : Int → Nat → ℚ} {n i : Nat} {s : exp_state}
    (hna : (s.entries i).associated = false) (hb : backrefs_set s.entries) :
    master_pass thr n i s ≠ .null_deref := by
  intro h
  by_cases hlen : n - (i + 1) ≤ s.time_fp.length
  · obtain ⟨s2, h2, _⟩ := master_pass_post thr n i s hna hlen hb
    rw [h] at h2
    cases h2
  · obtain ⟨s2, h2⟩ := master_pass_fail thr n i s (by omega)
    rw [h] at h2
    cases h2

theorem wf_pass_post {thr : Int → Nat → ℚ} {n i : Nat} {s s1 : exp_state}
    (hw : wf n i s.entries) (hna : (s.entries i).associated = false)
    (hp : pass_post thr n i s s1) : wf n (i + 1) s1.entries :=
  wf_pass hw hna hp.others hp.claimed hp.master

theorem run_loop_append (thr : Int → Nat → ℚ) (n : Nat) : ∀ (l1 l2 : List Nat) (s : exp_state),
    run_loop thr n (l1 ++ l2) s =
      match run_loop thr n l1 s with
      | .done s1 => run_loop thr n l2 s1
      | .assert_failed s1 => .assert_failed s1
      | .null_deref => .null_deref := by
  intro l1
  induction l1 with
  | nil => intro l2 s; simp [run_loop]
  | cons i is ih =>
    intro l2 s
    simp only [List.cons_append, run_loop]
    by_cases ha : (s.entries i).associated = true
    · simp only [ha, if_true]; exact ih l2 s
    · simp only [ha, if_false]
      cases hm : master_pass thr n i s with
      | done s1 => simp only []; exact ih l2 s1
      | assert_failed s1 => rfl
      | null_deref => rfl

/-- One turn of the outer loop from a well-formed state. -/
theorem turn_done {thr : Int → Nat → ℚ} {n i : Nat} {s s1 : exp_state}
    (hw : wf n i s.entries) (h : run_loop thr n [i] s = .done s1) :
    ((s.entries i).associated = true ∧ s1 = s)
      ∨ ((s.entries i).associated = false ∧ pass_post thr n i s s1) := by
  simp only [run_loop] at h
  by_cases ha : (s.entries i).associated = true
  · simp only [ha, if_true] at h
    cases h
    exact Or.inl ⟨ha, rfl⟩
  · simp only [ha, if_false] at h
    have hna : (s.entries i).associated = false := by simpa using ha
    cases hm : master_pass thr n i s with
    | done s2 =>
      rw [hm] at h
      cases h
      exact Or.inr ⟨hna, master_pass_done hna (wf_backrefs_set hw) hm⟩
    | assert_failed s2 => rw [hm] at h; cases h
    | null_deref => rw [hm] at h; cases h

theorem turn_wf {thr : Int → Nat → ℚ} {n i : Nat} {s s1 : exp_state}
    (hw : wf n i s.entries) (h : run_loop thr n [i] s = .done s1) :
    wf n (i + 1) s1.entries := by
  rcases turn_done hw h with ⟨_, rfl⟩ | ⟨hna, hp⟩
  · exact wf_skip hw
  · exact wf_pass_post hw hna hp

theorem turn_below {thr : Int → Nat → ℚ} {n i : Nat} {s s1 : exp_state}
    (hw : wf n i s.entries) (h : run_loop thr n [i] s = .done s1) :
    ∀ x, x < i → s1.entries x = s.entries x := by
  rcases turn_done hw h with ⟨_, rfl⟩ | ⟨_, hp⟩
  · intro x _; rfl
  · exact hp.below

/-- A run over `k, k+1, ..` from a well-formed state keeps the entries below
`k` and ends well-formed. -/
theorem run_range'_wf (thr : Int → Nat → ℚ) (n : Nat) : ∀ (len k : Nat) (s s1 : exp_state),
    wf n k s.entries → run_loop thr n (List.range' k len) s = .done s1 →
    wf n (k + len) s1.entries ∧ ∀ x, x < k → s1.entries x = s.entries x := by
  intro len
  induction len with
  | zero =>
    intro k s s1 hw h
    simp only [List.range'_zero, run_loop] at h
    cases h
    exact ⟨hw, fun _ _ => rfl⟩
  | succ len ih =>
    intro k s s1 hw h
    rw [List.range'_succ] at h
    have happ := run_loop_append thr n [k] (List.range' (k + 1) len) s
    rw [List.singleton_append, h] at happ
    cases ht : run_loop thr n [k] s with
    | done s2 =>
      rw [ht] at happ
      simp only [] at happ
      obtain ⟨h1, h2⟩ := ih (k + 1) s2 s1 (turn_wf hw ht) happ.symm
      refine ⟨by rw [show k + (len + 1) = k + 1 + len by omega]; exact h1, ?_⟩
      intro x hx
      rw [h2 x (by omega), turn_below hw ht x hx]
    | assert_failed s2 => rw [ht] at happ; cases happ
    | null_deref => rw [ht] at happ; cases happ

theorem range_split (k n : Nat) (h : k ≤ n) :
    List.range n = List.range k ++ List.range' k (n - k) := by
  rw [List.range_eq_range', List.range_eq_range']
  have := List.range'_append 0 k (n - k) 1
  simp only [Nat.one_mul, Nat.zero_add] at this
  rw [this]
  congr 1; omega

/-- A completed run passes through a state after every number `k` of turns. -/
theorem run_split {thr : Int → Nat → ℚ} {n : Nat} {s0 s : exp_state}
    (h : run_exp thr n s0 = .done s) (k : Nat) (hk : k ≤ n) :
    ∃ sk, run_loop thr n (List.range k) s0 = .done sk
      ∧ run_loop thr n (List.range' k (n - k)) sk = .done s := by
  unfold run_exp at h
  rw [range_split k n hk, run_loop_append] at h
  cases hp : run_loop thr n (List.range k) s0 with
  | done sk => rw [hp] at h; exact ⟨sk, rfl, h⟩
  | assert_failed s2 => rw [hp] at h; cases h
  | null_deref => rw [hp] at h; cases h

theorem run_prefix_wf {thr : Int → Nat → ℚ} {n : Nat} {s0 : exp_state}
    (hw : wf n 0 s0.entries) (k : Nat) {sk : exp_state}
    (h : run_loop thr n (List.range k) s0 = .done sk) : wf n k sk.entries := by
  rw [List.range_eq_range'] at h
  have := (run_range'_wf thr n k 0 s0 sk hw h).1
  simpa using this

theorem run_succ {thr : Int → Nat → ℚ} {n : Nat} {s0 : exp_state} (k : Nat) :
    run_loop thr n (List.range (k + 1)) s0 =
      match run_loop thr n (List.range k) s0 with
      | .done s1 => run_loop thr n [k] s1
      | .assert_failed s1 => .assert_failed s1
      | .null_deref => .null_deref := by
  rw [List.range_succ, run_loop_append]

theorem unbank_eq {e e1 : entry} (h1 : e.virt_addr = e1.virt_addr)
    (h2 : e.phy_addr = e1.phy_addr)
    (h4 : e.siblings = e1.siblings) (h5 : e.num_sibling = e1.num_sibling)
    (h6 : e.associated = e1.associated) : unbank e = unbank e1 := by
  cases e; cases e1; simp_all [unbank]

theorem unbank_set_bank (e : entry) (b : Int) : unbank { e with bank := b } = unbank e := rfl

theorem unbank_assoc {e e1 : entry} (h : unbank e = unbank e1) :
    e.associated = e1.associated := by
  have h1 := congrArg entry.associated h
  exact h1

theorem unbank_siblings {e e1 : entry} (h : unbank e = unbank e1) :
    e.siblings = e1.siblings := by
  have h1 := congrArg entry.siblings h
  exact h1

theorem unbank_num {e e1 : entry} (h : unbank e = unbank e1) :
    e.num_sibling = e1.num_sibling := by
  have h1 := congrArg entry.num_sibling h
  exact h1

theorem unbank_phy {e e1 : entry} (h : unbank e = unbank e1) :
    e.phy_addr = e1.phy_addr := by
  have h1 := congrArg entry.phy_addr h
  exact h1

theorem unbank_update_bank (es : table) (x y : Nat) (b : Int) :
    unbank (Function.update es x { es x with bank := b } y) = unbank (es y) := by
  by_cases h : y = x
  · subst h; rw [Function.update_same]; rfl
  · rw [Function.update_noteq h]

theorem assign_siblings_spec (i mb : Nat) : ∀ (ts : List Nat) (es : table),
    (∀ t ∈ ts, ∃ j, (es i).siblings t = some j) →
    ∃ es2, assign_siblings i mb ts es = some es2
      ∧ (∀ x, unbank (es2 x) = unbank (es x))
      ∧ (∀ x, (∃ t ∈ ts, (es i).siblings t = some x) → (es2 x).bank = (mb : Int))
      ∧ (∀ x, (¬ ∃ t ∈ ts, (es i).siblings t = some x) → (es2 x).bank = (es x).bank) := by
  intro ts
  induction ts with
  | nil =>
    intro es _
    exact ⟨es, rfl, fun _ => rfl, by simp, fun _ _ => rfl⟩
  | cons t ts ih =>
    intro es h
    obtain ⟨sib, hsib⟩ := h t (by simp)
    have hsame : ∀ y, unbank (Function.update es sib { es sib with bank := (mb : Int) } y)
        = unbank (es y) := fun y => unbank_update_bank es sib y _
    have hsibs : (Function.update es sib { es sib with bank := (mb : Int) } i).siblings
        = (es i).siblings := unbank_siblings (hsame i)
    obtain ⟨es2, h1, h2, h3, h4⟩ := ih (Function.update es sib { es sib with bank := (mb : Int) })
      (by intro t1 ht1; rw [hsibs]; exact h t1 (by simp [ht1]))
    rw [hsibs] at h3 h4
    refine ⟨es2, ?_, ?_, ?_, ?_⟩
    · simp only [assign_siblings, hsib]; exact h1
    · intro x; rw [h2 x]; exact hsame x
    · intro x hx
      by_cases hx1 : ∃ t1 ∈ ts, (es i).siblings t1 = some x
      · exact h3 x hx1
      · rw [h4 x hx1]
        obtain ⟨t1, ht1, hxt⟩ := hx
        rcases List.mem_cons.mp ht1 with ht1 | ht1
        · subst ht1
          rw [hsib] at hxt
          cases hxt
          rw [Function.update_same]
        · exact absurd ⟨t1, ht1, hxt⟩ hx1
    · intro x hx
      have hx1 : ¬ ∃ t1 ∈ ts, (es i).siblings t1 = some x := by
        rintro ⟨t1, ht1, hxt⟩
        exact hx ⟨t1, by simp [ht1], hxt⟩
      have hxs : x ≠ sib := by
        rintro rfl
        exact hx ⟨t, by simp, hsib⟩
      rw [h4 x hx1, Function.update_noteq hxs]

theorem assign_loop_append : ∀ (l1 l2 : List Nat) (s : map_state),
    assign_loop (l1 ++ l2) s =
      match assign_loop l1 s with
      | .done s1 => assign_loop l2 s1
      | .assert_failed s1 => .assert_failed s1
      | .null_deref => .null_deref := by
  intro l1
  induction l1 with
  | nil => intro l2 s; simp [assign_loop]
  | cons i is ih =>
    intro l2 s
    simp only [List.cons_append, assign_loop]
    by_cases ha : (s.entries i).associated = true
    · rw [if_pos ha, if_pos ha]; exact ih l2 s
    · rw [if_neg ha, if_neg ha]
      generalize assign_siblings i s.main_bank _ _ = r
      cases r with
      | none => rfl
      | some es2 =>
        simp only []
        by_cases hle : s.main_bank + 1 ≤ MAX_BANKS
        · rw [if_pos hle, if_pos hle]; exact ih l2 _
        · rw [if_neg hle, if_neg hle]

theorem rank_succ (es : table) (p : Nat) :
    rank es (p + 1) = rank es p + (if (es p).associated then 0 else 1) := by
  unfold rank
  rw [List.range_succ, List.filter_append, List.length_append]
  by_cases h : (es p).associated = true
  · simp [h]
  · simp [h]

theorem rank_mono (es : table) {p q : Nat} (h : p ≤ q) : rank es p ≤ rank es q := by
  induction q with
  | zero => simp at h; subst h; exact le_refl _
  | succ q ih =>
    by_cases hpq : p = q + 1
    · subst hpq; exact le_refl _
    · have := ih (by omega)
      rw [rank_succ]; omega

theorem rank_lt_of_master (es : table) {p q : Nat} (h : p < q)
    (hp : (es p).associated = false) : rank es p < rank es q := by
  have h1 : rank es (p + 1) ≤ rank es q := rank_mono es (by omega)
  rw [rank_succ, hp] at h1
  simp at h1
  omega

theorem master_of_master {es : table} {x : Nat} (h : (es x).associated = false) :
    master_of es x = x := by
  simp [master_of, h]

theorem master_of_assoc {n k : Nat} {es : table} (hw : wf n k es) {x : Nat}
    (h : (es x).associated = true) :
    master_of es x < x ∧ (es (master_of es x)).associated = false
      ∧ (es x).siblings 0 = some (master_of es x)
      ∧ ∃ t, t < (es (master_of es x)).num_sibling
          ∧ (es (master_of es x)).siblings t = some x := by
  obtain ⟨m, h1, _, h3, h4, _, _, h7⟩ := hw.backref x h
  have : master_of es x = m := by simp [master_of, h, h4]
  rw [this]
  exact ⟨h1, h3, h4, h7⟩

theorem master_of_slot {n k : Nat} {es : table} (hw : wf n k es) {m t x : Nat}
    (hm : (es m).associated = false) (ht : t < (es m).num_sibling)
    (hx : (es m).siblings t = some x) :
    (es x).associated = true ∧ master_of es x = m ∧ m < x ∧ x < n := by
  obtain ⟨j, h1, h2, h3, h4, h5⟩ := hw.slots m hm t ht
  rw [hx] at h1
  cases h1
  exact ⟨h4, by simp [master_of, h4, h5], h2, h3⟩

theorem assign_inv_start (s0 : map_state) (h0 : s0.main_bank = 0) :
    assign_inv s0.entries s0 0 s0 := by
  refine ⟨fun _ => rfl, by simp [h0, rank], ?_, fun _ _ => rfl, ?_, fun _ _ => rfl, rfl, rfl⟩
  · intro x hx; omega
  · intro m hm; omega

theorem assign_turn_skip {es0 : table} {s0 s : map_state} {p : Nat}
    (hi : assign_inv es0 s0 p s) (ha : (es0 p).associated = true) {n k : Nat}
    (hw : wf n k es0) :
    assign_loop [p] s = .done s ∧ assign_inv es0 s0 (p + 1) s := by
  have has : (s.entries p).associated = true := by rw [unbank_assoc (hi.frame p)]; exact ha
  have hr : rank es0 (p + 1) = rank es0 p := by rw [rank_succ, ha]; simp
  have hne : ∀ x, master_of es0 x ≠ p := by
    intro x hx
    by_cases hxa : (es0 x).associated = true
    · have := (master_of_assoc hw hxa).2.1
      rw [hx, ha] at this
      exact absurd this (by simp)
    · have hxa1 : (es0 x).associated = false := by simpa using hxa
      rw [master_of_master hxa1] at hx
      rw [hx, ha] at hxa1
      exact absurd hxa1 (by simp)
  refine ⟨by simp [assign_loop, has], ⟨hi.frame, by rw [hr]; exact hi.main_bank, ?_, ?_, ?_, ?_,
    hi.out, hi.err⟩⟩
  · intro x hx
    have := hne x
    exact hi.done_bank x (by omega)
  · intro x hx
    exact hi.todo_bank x (by omega)
  · intro m hm hma
    have : m ≠ p := by
      rintro rfl
      rw [ha] at hma
      exact absurd hma (by simp)
    exact hi.banks_set m (by omega) hma
  · intro k hk
    rw [hr] at hk
    exact hi.banks_rest k hk

theorem assign_turn_master {es0 : table} {s0 s : map_state} {p : Nat}
    (hi : assign_inv es0 s0 p s) (ha : (es0 p).associated = false) {n k : Nat}
    (hw : wf n k es0) :
    ∃ s1, assign_inv es0 s0 (p + 1) s1 ∧
      assign_loop [p] s = (if rank es0 (p + 1) ≤ MAX_BANKS then .done s1 else .assert_failed s1) := by
  have has : ¬ (s.entries p).associated = true := by
    rw [unbank_assoc (hi.frame p), ha]; simp
  have hr : rank es0 (p + 1) = rank es0 p + 1 := by rw [rank_succ, ha]; simp
  have hf1 : ∀ y, unbank (Function.update s.entries p
      { s.entries p with bank := (s.main_bank : Int) } y) = unbank (es0 y) := by
    intro y
    rw [unbank_update_bank]; exact hi.frame y
  have hsibs : (Function.update s.entries p
      { s.entries p with bank := (s.main_bank : Int) } p).siblings = (es0 p).siblings :=
    unbank_siblings (hf1 p)
  have hnum : (Function.update s.entries p
      { s.entries p with bank := (s.main_bank : Int) } p).num_sibling = (es0 p).num_sibling :=
    unbank_num (hf1 p)
  obtain ⟨es2, h1, h2, h3, h4⟩ := assign_siblings_spec p s.main_bank
    (List.range (es0 p).num_sibling)
    (Function.update s.entries p { s.entries p with bank := (s.main_bank : Int) })
    (by
      intro t ht
      rw [hsibs]
      obtain ⟨j, hj, _⟩ := hw.slots p ha t (List.mem_range.mp ht)
      exact ⟨j, hj⟩)
  rw [hsibs] at h3 h4
  have inslot : ∀ x, (∃ t ∈ List.range (es0 p).num_sibling, (es0 p).siblings t = some x) ↔
      ((es0 x).associated = true ∧ master_of es0 x = p) := by
    intro x
    constructor
    · rintro ⟨t, ht, hx⟩
      have := master_of_slot hw ha (List.mem_range.mp ht) hx
      exact ⟨this.1, this.2.1⟩
    · rintro ⟨hxa, hxm⟩
      obtain ⟨_, _, _, t, ht, hx⟩ := master_of_assoc hw hxa
      rw [hxm] at ht hx
      exact ⟨t, List.mem_range.mpr ht, hx⟩
  refine ⟨{ s with entries := es2, banks := Function.update s.banks s.main_bank (some p),
                   main_bank := s.main_bank + 1 }, ?_, ?_⟩
  · refine ⟨?_, ?_, ?_, ?_, ?_, ?_, hi.out, hi.err⟩
    · intro x; rw [h2 x]; exact hf1 x
    · show s.main_bank + 1 = _
      rw [hr, hi.main_bank]
    · intro x hx
      show (es2 x).bank = _
      by_cases hxp : master_of es0 x = p
      · rw [hxp]
        by_cases hxa : (es0 x).associated = true
        · rw [h3 x ((inslot x).mpr ⟨hxa, hxp⟩), hi.main_bank]
        · have hxa1 : (es0 x).associated = false := by simpa using hxa
          rw [master_of_master hxa1] at hxp
          subst hxp
          rw [h4 x (by rw [inslot]; simp [hxa1]), Function.update_same]
          show (s.main_bank : Int) = _
          rw [hi.main_bank]
      · have hxne : x ≠ p := by
          rintro rfl
          exact hxp (master_of_master ha)
        rw [h4 x (by rw [inslot]; simp [hxp]), Function.update_noteq hxne]
        exact hi.done_bank x (by omega)
    · intro x hx
      show (es2 x).bank = _
      have hxp : master_of es0 x ≠ p := by omega
      have hxne : x ≠ p := by
        rintro rfl
        exact hxp (master_of_master ha)
      rw [h4 x (by rw [inslot]; simp [hxp]), Function.update_noteq hxne]
      exact hi.todo_bank x (by omega)
    · intro m hm hma
      show Function.update s.banks s.main_bank (some p) (rank es0 m) = some m
      by_cases hmp : m = p
      · subst hmp
        rw [hi.main_bank, Function.update_same]
      · have hlt : rank es0 m < rank es0 p := rank_lt_of_master es0 (by omega) hma
        rw [Function.update_noteq (by rw [hi.main_bank]; omega)]
        exact hi.banks_set m (by omega) hma
    · intro k hk
      show Function.update s.banks s.main_bank (some p) k = _
      rw [hr] at hk
      rw [Function.update_noteq (by rw [hi.main_bank]; omega)]
      exact hi.banks_rest k (by omega)
  · simp only [assign_loop]
    rw [if_neg has, hnum, h1]
    simp only []
    rw [hr, hi.main_bank]

theorem assign_prefix_done {n k : Nat} (s0 : map_state) (hw : wf n k s0.entries)
    (h0 : s0.main_bank = 0) : ∀ p, rank s0.entries p ≤ MAX_BANKS →
    ∃ sp, assign_loop (List.range p) s0 = .done sp ∧ assign_inv s0.entries s0 p sp := by
  intro p
  induction p with
  | zero =>
    intro _
    exact ⟨s0, rfl, assign_inv_start s0 h0⟩
  | succ p ih =>
    intro hr
    obtain ⟨sp, h1, h2⟩ := ih (le_trans (rank_mono _ (Nat.le_succ p)) hr)
    rw [List.range_succ, assign_loop_append, h1]
    simp only []
    by_cases ha : (s0.entries p).associated = true
    · obtain ⟨h3, h4⟩ := assign_turn_skip h2 ha hw
      exact ⟨sp, h3, h4⟩
    · have ha1 : (s0.entries p).associated = false := by simpa using ha
      obtain ⟨s1, h3, h4⟩ := assign_turn_master h2 ha1 hw
      rw [if_pos hr] at h4
      exact ⟨s1, h4, h3⟩

theorem assign_prefix_abort {n k : Nat} (s0 : map_state) (hw : wf n k s0.entries)
    (h0 : s0.main_bank = 0) : ∀ p, MAX_BANKS < rank s0.entries p →
    ∃ sp q, assign_loop (List.range p) s0 = .assert_failed sp ∧ q < p
      ∧ (s0.entries q).associated = false ∧ rank s0.entries q = MAX_BANKS
      ∧ assign_inv s0.entries s0 (q + 1) sp := by
  intro p
  induction p with
  | zero => intro h; simp [rank] at h
  | succ p ih =>
    intro hr
    rw [List.range_succ, assign_loop_append]
    by_cases hp : MAX_BANKS < rank s0.entries p
    · obtain ⟨sp, q, h1, h2, h3⟩ := ih hp
      rw [h1]
      exact ⟨sp, q, rfl, by omega, h3⟩
    · obtain ⟨sp, h1, h2⟩ := assign_prefix_done s0 hw h0 p (by omega)
      rw [h1]
      simp only []
      have hrs := rank_succ s0.entries p
      by_cases ha : (s0.entries p).associated = true
      · rw [ha] at hrs
        simp at hrs
        omega
      · have ha1 : (s0.entries p).associated = false := by simpa using ha
        rw [ha1] at hrs
        simp at hrs
        obtain ⟨s1, h3, h4⟩ := assign_turn_master h2 ha1 hw
        rw [if_neg (by omega)] at h4
        exact ⟨s1, p, h4, by omega, ha1, by omega, h3⟩

theorem report_siblings_spec (es : table) (i : Nat) : ∀ (ts : List Nat),
    (∀ t ∈ ts, ∃ j, (es i).siblings t = some j) →
    report_siblings es i ts
      = some (ts.map (fun t => out_line.addr (es (((es i).siblings t).getD 0)).phy_addr)) := by
  intro ts
  induction ts with
  | nil => intro _; rfl
  | cons t ts ih =>
    intro h
    obtain ⟨j, hj⟩ := h t (by simp)
    simp only [report_siblings, hj, ih (fun t1 ht1 => h t1 (by simp [ht1])), List.map_cons,
      Option.getD_some]

theorem report_loop_spec : ∀ (is : List Nat) (s : map_state),
    (∀ i ∈ is, (s.entries i).associated = false → ∀ t, t < (s.entries i).num_sibling →
      ∃ j, (s.entries i).siblings t = some j) →
    ∃ s1, report_loop is s = .done s1 ∧ s1.entries = s.entries ∧ s1.banks = s.banks
      ∧ s1.main_bank = s.main_bank
      ∧ s1.out = s.out ++ report_out s.entries is
      ∧ s1.err = s.err ++ report_err s.entries is := by
  intro is
  induction is with
  | nil =>
    intro s _
    exact ⟨s, rfl, rfl, rfl, rfl, by simp [report_out], by simp [report_err]⟩
  | cons i is ih =>
    intro s h
    have hrest : ∀ (s2 : map_state), s2.entries = s.entries →
        ∀ i1 ∈ is, (s2.entries i1).associated = false → ∀ t, t < (s2.entries i1).num_sibling →
          ∃ j, (s2.entries i1).siblings t = some j := by
      intro s2 h2 i1 hi1
      rw [h2]
      exact h i1 (by simp [hi1])
    by_cases hb : (s.entries i).bank < 0
    · by_cases ha : (s.entries i).associated = true
      · obtain ⟨s1, g1, g2, g3, g4, g5, g6⟩ := ih
          { s with err := s.err ++ [diag.unassigned (s.entries i).phy_addr] } (hrest _ rfl)
        refine ⟨s1, ?_, g2, g3, g4, ?_, ?_⟩
        · simp only [report_loop, hb, if_true, ha]; exact g1
        · rw [g5]; simp [report_out, List.filter_cons, ha]
        · rw [g6]; simp [report_err, List.filter_cons, hb]
      · have ha1 : (s.entries i).associated = false := by simpa using ha
        have hs := report_siblings_spec s.entries i (List.range (s.entries i).num_sibling)
          (fun t ht => h i (by simp) ha1 t (List.mem_range.mp ht))
        obtain ⟨s1, g1, g2, g3, g4, g5, g6⟩ := ih
          { s with err := s.err ++ [diag.unassigned (s.entries i).phy_addr],
                   out := s.out ++ report_block s.entries i } (hrest _ rfl)
        refine ⟨s1, ?_, g2, g3, g4, ?_, ?_⟩
        · simp only [report_loop, hb, if_true, ha1, hs]; exact g1
        · rw [g5]; simp [report_out, List.filter_cons, ha1]
        · rw [g6]; simp [report_err, List.filter_cons, hb]
    · by_cases ha : (s.entries i).associated = true
      · obtain ⟨s1, g1, g2, g3, g4, g5, g6⟩ := ih s (hrest _ rfl)
        refine ⟨s1, ?_, g2, g3, g4, ?_, ?_⟩
        · simp only [report_loop, hb, if_false, ha, if_true]; exact g1
        · rw [g5]; simp [report_out, List.filter_cons, ha]
        · rw [g6]; simp [report_err, List.filter_cons, hb]
      · have ha1 : (s.entries i).associated = false := by simpa using ha
        have hs := report_siblings_spec s.entries i (List.range (s.entries i).num_sibling)
          (fun t ht => h i (by simp) ha1 t (List.mem_range.mp ht))
        obtain ⟨s1, g1, g2, g3, g4, g5, g6⟩ := ih
          { s with out := s.out ++ report_block s.entries i } (hrest _ rfl)
        refine ⟨s1, ?_, g2, g3, g4, ?_, ?_⟩
        · simp only [report_loop, hb, if_false, ha1, hs]; exact g1
        · rw [g5]; simp [report_out, List.filter_cons, ha1]
        · rw [g6]; simp [report_err, List.filter_cons, hb]

theorem check_mapping_done {n k : Nat} {s : exp_state} (hw : wf n k s.entries)
    (hr : rank s.entries n ≤ MAX_BANKS) :
    ∃ ms, check_mapping n (mapping_start s) = .done ms
      ∧ assign_inv s.entries (mapping_start s) n
          { ms with out := [], err := s.err }
      ∧ ms.out = report_out ms.entries (List.range n)
      ∧ ms.err = s.err ++ report_err ms.entries (List.range n) := by
  obtain ⟨sp, h1, h2⟩ := assign_prefix_done (mapping_start s) hw rfl n hr
  have hslots : ∀ i ∈ List.range n, (sp.entries i).associated = false →
      ∀ t, t < (sp.entries i).num_sibling → ∃ j, (sp.entries i).siblings t = some j := by
    intro i _ hi t ht
    rw [unbank_assoc (h2.frame i)] at hi
    rw [unbank_num (h2.frame i)] at ht
    rw [unbank_siblings (h2.frame i)]
    obtain ⟨j, hj, _⟩ := hw.slots i hi t ht
    exact ⟨j, hj⟩
  obtain ⟨s1, g1, g2, g3, g4, g5, g6⟩ := report_loop_spec (List.range n) sp hslots
  refine ⟨s1, ?_, ?_, ?_, ?_⟩
  · simp only [check_mapping, h1]; exact g1
  · refine ⟨?_, ?_, ?_, ?_, ?_, ?_, rfl, rfl⟩
    · intro x; show unbank (s1.entries x) = _; rw [g2]; exact h2.frame x
    · show s1.main_bank = _; rw [g4]; exact h2.main_bank
    · intro x hx; show (s1.entries x).bank = _; rw [g2]; exact h2.done_bank x hx
    · intro x hx; show (s1.entries x).bank = _; rw [g2]; exact h2.todo_bank x hx
    · intro m hm hma; show s1.banks _ = _; rw [g3]; exact h2.banks_set m hm hma
    · intro q hq; show s1.banks _ = _; rw [g3]; exact h2.banks_rest q hq
  · rw [g5, g2, h2.out]; rfl
  · rw [g6, g2, h2.err]; rfl

theorem check_mapping_abort {n k : Nat} {s : exp_state} (hw : wf n k s.entries)
    (hr : MAX_BANKS < rank s.entries n) :
    ∃ ms q, check_mapping n (mapping_start s) = .assert_failed ms ∧ q < n
      ∧ (s.entries q).associated = false ∧ rank s.entries q = MAX_BANKS
      ∧ assign_inv s.entries (mapping_start s) (q + 1) ms := by
  obtain ⟨sp, q, h1, h2⟩ := assign_prefix_abort (mapping_start s) hw rfl n hr
  exact ⟨sp, q, by simp only [check_mapping, h1], h2⟩

theorem master_of_le {n k : Nat} {es : table} (hw : wf n k es) (x : Nat) :
    master_of es x ≤ x := by
  by_cases h : (es x).associated = true
  · exact le_of_lt (master_of_assoc hw h).1
  · rw [master_of_master (by simpa using h)]

theorem master_of_is_master {n k : Nat} {es : table} (hw : wf n k es) (x : Nat) :
    (es (master_of es x)).associated = false := by
  by_cases h : (es x).associated = true
  · exact (master_of_assoc hw h).2.1
  · rw [master_of_master (by simpa using h)]; simpa using h

theorem rank_le (es : table) (p : Nat) : rank es p ≤ p := by
  unfold rank
  calc ((List.range p).filter _).length ≤ (List.range p).length := List.length_filter_le _ _
    _ = p := List.length_range p

theorem consumed_succ (n : Nat) (es : table) (k : Nat) :
    consumed n es (k + 1)
      = consumed n es k + (if (es k).associated then 0 else n - (k + 1)) := by
  unfold consumed
  rw [List.range_succ, List.filter_append, List.map_append, List.sum_append]
  by_cases h : (es k).associated = true
  · simp [h]
  · simp [h]

theorem consumed_congr (n : Nat) (es es1 : table) (k : Nat)
    (h : ∀ x, x < k → es1 x = es x) : consumed n es1 k = consumed n es k := by
  unfold consumed
  congr 2
  apply List.filter_congr
  intro x hx
  rw [h x (List.mem_range.mp hx)]

theorem pairs_below_succ (n k : Nat) :
    pairs_below n (k + 1) = pairs_below n k + (n - (k + 1)) := by
  unfold pairs_below
  rw [List.range_succ, List.map_append, List.sum_append]
  simp

theorem consumed_le_pairs (n : Nat) (es : table) (k : Nat) :
    consumed n es k ≤ pairs_below n k := by
  induction k with
  | zero => simp [consumed, pairs_below]
  | succ k ih =>
    rw [consumed_succ, pairs_below_succ]
    by_cases h : (es k).associated = true
    · simp [h]; omega
    · simp [h]; omega

theorem pairs_below_mono (n : Nat) {k q : Nat} (h : k ≤ q) :
    pairs_below n k ≤ pairs_below n q := by
  induction q with
  | zero => simp at h; subst h; exact le_refl _
  | succ q ih =>
    by_cases hkq : k = q + 1
    · subst hkq; exact le_refl _
    · have := ih (by omega)
      rw [pairs_below_succ]; omega

theorem pairs_below_formula (n : Nat) : ∀ k, k ≤ n →
    2 * pairs_below n k = k * (2 * n - k - 1) := by
  intro k
  induction k with
  | zero => intro _; simp [pairs_below]
  | succ k ih =>
    intro hk
    rw [pairs_below_succ, Nat.mul_add, ih (by omega)]
    obtain ⟨d, rfl⟩ : ∃ d, n = k + 1 + d := ⟨n - (k + 1), by omega⟩
    have e1 : 2 * (k + 1 + d) - k - 1 = k + 1 + 2 * d := by omega
    have e2 : k + 1 + d - (k + 1) = d := by omega
    have e3 : 2 * (k + 1 + d) - (k + 1) - 1 = k + 2 * d := by omega
    rw [e1, e2, e3]
    ring

theorem pairs_below_all (n : Nat) : pairs_below n n = n * (n - 1) / 2 := by
  have h := pairs_below_formula n n (le_refl n)
  have e : 2 * n - n - 1 = n - 1 := by omega
  rw [e] at h
  omega

theorem turn_total (thr : Int → Nat → ℚ) {n i : Nat} {s : exp_state}
    (hw : wf n i s.entries) :
    (∃ s1, run_loop thr n [i] s = .done s1)
      ∨ ((s.entries i).associated = false ∧ s.time_fp.length < n - (i + 1)
          ∧ ∃ sa, run_loop thr n [i] s = .assert_failed sa) := by
  by_cases ha : (s.entries i).associated = true
  · exact Or.inl ⟨s, by simp [run_loop, ha]⟩
  · have hna : (s.entries i).associated = false := by simpa using ha
    by_cases hlen : n - (i + 1) ≤ s.time_fp.length
    · obtain ⟨s1, h1, _⟩ := master_pass_post thr n i s hna hlen (wf_backrefs_set hw)
      exact Or.inl ⟨s1, by simp [run_loop, hna, h1]⟩
    · obtain ⟨sa, h1⟩ := master_pass_fail thr n i s (by omega)
      exact Or.inr ⟨hna, by omega, sa, by simp [run_loop, hna, h1]⟩

theorem run_prefix_fp {thr : Int → Nat → ℚ} {n : Nat} {s0 : exp_state}
    (hw : wf n 0 s0.entries) : ∀ (k : Nat) (sk : exp_state),
    run_loop thr n (List.range k) s0 = .done sk →
    sk.time_fp = s0.time_fp.drop (consumed n sk.entries k)
      ∧ consumed n sk.entries k ≤ s0.time_fp.length := by
  intro k
  induction k with
  | zero =>
    intro sk h
    simp only [List.range_zero, run_loop] at h
    cases h
    simp [consumed]
  | succ k ih =>
    intro sk h
    rw [run_succ] at h
    cases hp : run_loop thr n (List.range k) s0 with
    | done s1 =>
      rw [hp] at h
      simp only [] at h
      obtain ⟨h1, h2⟩ := ih s1 hp
      have hwk := run_prefix_wf hw k hp
      have hbelow := turn_below hwk h
      rw [consumed_succ, consumed_congr n s1.entries sk.entries k hbelow]
      rcases turn_done hwk h with ⟨ha, rfl⟩ | ⟨hna, hpost⟩
      · simp only [ha, if_true, Nat.add_zero]
        exact ⟨h1, h2⟩
      · have hk : (sk.entries k).associated = false := by
          have h3 := core_assoc hpost.master
          rw [h3]; exact hna
        simp only [hk, Bool.false_eq_true, if_false]
        have hen := hpost.enough
        rw [h1, List.length_drop] at hen
        refine ⟨?_, by omega⟩
        rw [hpost.time_fp, h1, List.drop_drop]
    | assert_failed s1 => rw [hp] at h; cases h
    | null_deref => rw [hp] at h; cases h

theorem run_prefix_completes (thr : Int → Nat → ℚ) {n : Nat} (s0 : exp_state)
    (hw : wf n 0 s0.entries) (hlen : pairs_below n n ≤ s0.time_fp.length) :
    ∀ k, k ≤ n → ∃ sk, run_loop thr n (List.range k) s0 = .done sk := by
  intro k
  induction k with
  | zero => intro _; exact ⟨s0, rfl⟩
  | succ k ih =>
    intro hk
    obtain ⟨s1, hp⟩ := ih (by omega)
    rw [run_succ, hp]
    simp only []
    have hwk := run_prefix_wf hw k hp
    rcases turn_total thr hwk with h | ⟨_, hshort, _⟩
    · exact h
    · exfalso
      obtain ⟨h1, h2⟩ := run_prefix_fp hw k s1 hp
      rw [h1, List.length_drop] at hshort
      have h3 := consumed_le_pairs n s1.entries k
      have h4 : pairs_below n (k + 1) ≤ pairs_below n n := pairs_below_mono n hk
      rw [pairs_below_succ] at h4
      omega

theorem run_completes (thr : Int → Nat → ℚ) (n phy : Nat) (fp : List time_record)
    (hlen : n * (n - 1) / 2 ≤ fp.length) :
    ∃ s, run_exp thr n (start_state n phy fp) = .done s := by
  have hw : wf n 0 (start_state n phy fp).entries := wf_init n 0 phy
  exact run_prefix_completes thr _ hw (by rw [pairs_below_all]; exact hlen) n (le_refl n)

theorem run_done_wf {thr : Int → Nat → ℚ} {n phy : Nat} {fp : List time_record}
    {s : exp_state} (h : run_exp thr n (start_state n phy fp) = .done s) :
    wf n n s.entries :=
  run_prefix_wf (wf_init n 0 phy) n h

theorem run_prefix_final {thr : Int → Nat → ℚ} {n : Nat} {s0 s : exp_state}
    (hw : wf n 0 s0.entries) (h : run_exp thr n s0 = .done s) (k : Nat) (hk : k ≤ n) :
    ∃ sk, run_loop thr n (List.range k) s0 = .done sk ∧ wf n k sk.entries
      ∧ ∀ x, x < k → s.entries x = sk.entries x := by
  obtain ⟨sk, h1, h2⟩ := run_split h k hk
  have hwk := run_prefix_wf hw k h1
  exact ⟨sk, h1, hwk, (run_range'_wf thr n (n - k) k sk s hwk h2).2⟩

theorem slot_injective {n k : Nat} {es : table} (hw : wf n k es) {m : Nat}
    (hm : (es m).associated = false) {t1 t2 j : Nat}
    (h1 : t1 < (es m).num_sibling) (h2 : t2 < (es m).num_sibling)
    (e1 : (es m).siblings t1 = some j) (e2 : (es m).siblings t2 = some j) : t1 = t2 := by
  rcases Nat.lt_trichotomy t1 t2 with h | h | h
  · have := hw.ascending m hm t1 t2 j j h h2 e1 e2; omega
  · exact h
  · have := hw.ascending m hm t2 t1 j j h h1 e2 e1; omega

theorem fiber_card {n k : Nat} {es : table} (hw : wf n k es) {m : Nat}
    (hm : (es m).associated = false) :
    (((Finset.range n).filter (fun x => (es x).associated = true)).filter
      (fun x => master_of es x = m)).card = (es m).num_sibling := by
  have himg : ((Finset.range n).filter (fun x => (es x).associated = true)).filter
      (fun x => master_of es x = m)
      = (Finset.range (es m).num_sibling).image (fun t => ((es m).siblings t).getD 0) := by
    ext x
    simp only [Finset.mem_filter, Finset.mem_range, Finset.mem_image]
    constructor
    · rintro ⟨⟨_, hxa⟩, hxm⟩
      obtain ⟨_, _, _, t, ht, hx⟩ := master_of_assoc hw hxa
      rw [hxm] at ht hx
      exact ⟨t, ht, by rw [hx]; rfl⟩
    · rintro ⟨t, ht, hx⟩
      obtain ⟨j, hj, _⟩ := hw.slots m hm t ht
      rw [hj] at hx
      simp only [Option.getD_some] at hx
      subst hx
      obtain ⟨g1, g2, _, g4⟩ := master_of_slot hw hm ht hj
      exact ⟨⟨g4, g1⟩, g2⟩
  rw [himg, Finset.card_image_of_injOn, Finset.card_range]
  intro t1 ht1 t2 ht2 heq
  simp only [Finset.coe_range, Set.mem_Iio] at ht1 ht2
  obtain ⟨j1, hj1, _⟩ := hw.slots m hm t1 ht1
  obtain ⟨j2, hj2, _⟩ := hw.slots m hm t2 ht2
  simp only [hj1, hj2, Option.getD_some] at heq
  subst heq
  exact slot_injective hw hm ht1 ht2 hj1 hj2

theorem wf_partition {n k : Nat} {es : table} (hw : wf n k es) :
    ∑ m in (Finset.range n).filter (fun m => (es m).associated = false),
      (1 + (es m).num_sibling) = n := by
  have hsplit := Finset.filter_card_add_filter_neg_card_eq_card (s := Finset.range n)
    (fun x => (es x).associated = true)
  have hneg : (Finset.range n).filter (fun x => ¬ (es x).associated = true)
      = (Finset.range n).filter (fun m => (es m).associated = false) := by
    apply Finset.filter_congr
    intro x _
    simp
  rw [hneg, Finset.card_range] at hsplit
  have hfib := Finset.card_eq_sum_card_fiberwise
    (s := (Finset.range n).filter (fun x => (es x).associated = true))
    (t := (Finset.range n).filter (fun m => (es m).associated = false))
    (f := master_of es)
    (by
      intro x hx
      simp only [Finset.mem_filter, Finset.mem_range] at hx ⊢
      have h1 := master_of_le hw x
      exact ⟨by omega, master_of_is_master hw x⟩)
  have hsum : ∑ m in (Finset.range n).filter (fun m => (es m).associated = false),
      (((Finset.range n).filter (fun x => (es x).associated = true)).filter
        (fun x => master_of es x = m)).card
      = ∑ m in (Finset.range n).filter (fun m => (es m).associated = false),
          (es m).num_sibling := by
    apply Finset.sum_congr rfl
    intro m hm
    simp only [Finset.mem_filter, Finset.mem_range] at hm
    exact fiber_card hw hm.2
  rw [Finset.sum_add_distrib, Finset.sum_const, smul_eq_mul, mul_one, ← hsum, ← hfib]
  omega

theorem run_prefix_err {thr : Int → Nat → ℚ} {n : Nat} {s0 : exp_state}
    (hw : wf n 0 s0.entries) (h0 : ∀ d ∈ s0.err, is_conflict d = true) :
    ∀ (k : Nat) (sk : exp_state), run_loop thr n (List.range k) s0 = .done sk →
    ∀ d ∈ sk.err, is_conflict d = true := by
  intro k
  induction k with
  | zero =>
    intro sk h
    simp only [List.range_zero, run_loop] at h
    cases h
    exact h0
  | succ k ih =>
    intro sk h
    rw [run_succ] at h
    cases hp : run_loop thr n (List.range k) s0 with
    | done s1 =>
      rw [hp] at h
      simp only [] at h
      rcases turn_done (run_prefix_wf hw k hp) h with ⟨_, rfl⟩ | ⟨_, hpost⟩
      · exact ih sk hp
      · obtain ⟨l, hl1, _, hl3⟩ := hpost.err
        intro d hd
        rw [hl1, List.mem_append] at hd
        rcases hd with hd | hd
        · exact ih s1 hp d hd
        · exact hl3 d hd
    | assert_failed s1 => rw [hp] at h; cases h
    | null_deref => rw [hp] at h; cases h

theorem run_done_err {thr : Int → Nat → ℚ} {n phy : Nat} {fp : List time_record}
    {s : exp_state} (h : run_exp thr n (start_state n phy fp) = .done s) :
    ∀ d ∈ s.err, is_conflict d = true :=
  run_prefix_err (wf_init n 0 phy) (by intro d hd; simp [start_state] at hd) n s h

theorem rank_congr (es es1 : table) (h : ∀ x, (es1 x).associated = (es x).associated)
    (p : Nat) : rank es1 p = rank es p := by
  unfold rank
  congr 1
  apply List.filter_congr
  intro x _
  rw [h x]

theorem master_of_congr (es es1 : table) (x : Nat)
    (h1 : (es1 x).associated = (es x).associated)
    (h2 : (es1 x).siblings = (es x).siblings) : master_of es1 x = master_of es x := by
  unfold master_of
  rw [h1, h2]

theorem rank_exists (es : table) (q : Nat) : ∀ p, q < rank es p →
    ∃ m, m < p ∧ (es m).associated = false ∧ rank es m = q := by
  intro p
  induction p with
  | zero => intro h; simp [rank] at h
  | succ p ih =>
    intro h
    by_cases hq : q < rank es p
    · obtain ⟨m, h1, h2⟩ := ih hq
      exact ⟨m, by omega, h2⟩
    · rw [rank_succ] at h
      by_cases ha : (es p).associated = true
      · simp [ha] at h; omega
      · have ha1 : (es p).associated = false := by simpa using ha
        simp [ha1] at h
        exact ⟨p, by omega, ha1, by omega⟩

theorem rank_inj_masters (es : table) {p q : Nat} (hp : (es p).associated = false)
    (hq : (es q).associated = false) (h : rank es p = rank es q) : p = q := by
  rcases Nat.lt_trichotomy p q with h1 | h1 | h1
  · have := rank_lt_of_master es h1 hp; omega
  · exact h1
  · have := rank_lt_of_master es h1 hq; omega

/-- What `check_mapping` leaves when it returns, for a table that
`run_exp` produced. -/
theorem check_mapping_result {n k : Nat} {s : exp_state} {ms : map_state}
    (hw : wf n k s.entries) (h : check_mapping n (mapping_start s) = .done ms) :
    rank s.entries n ≤ MAX_BANKS
      ∧ (∀ x, unbank (ms.entries x) = unbank (s.entries x))
      ∧ (∀ x, x < n → (ms.entries x).bank = (rank s.entries (master_of s.entries x) : Int))
      ∧ (∀ m, m < n → (s.entries m).associated = false →
            ms.banks (rank s.entries m) = some m)
      ∧ (∀ q, rank s.entries n ≤ q → ms.banks q = none)
      ∧ ms.main_bank = rank s.entries n
      ∧ ms.err = s.err := by
  by_cases hr : rank s.entries n ≤ MAX_BANKS
  · obtain ⟨ms1, h1, h2, _, h4⟩ := check_mapping_done hw hr
    rw [h] at h1
    cases h1
    have hbank : ∀ x, x < n →
        (ms.entries x).bank = (rank s.entries (master_of s.entries x) : Int) := by
      intro x hx
      exact h2.done_bank x (lt_of_le_of_lt (master_of_le hw x) hx)
    refine ⟨hr, h2.frame, hbank, h2.banks_set, ?_, h2.main_bank, ?_⟩
    · intro q hq
      have := h2.banks_rest q hq
      exact this
    · rw [h4]
      have : report_err ms.entries (List.range n) = [] := by
        unfold report_err
        rw [List.map_eq_nil_iff, List.filter_eq_nil_iff]
        intro x hx
        have := hbank x (List.mem_range.mp hx)
        simp only [decide_eq_true_eq, not_lt]
        rw [this]
        exact Int.natCast_nonneg _
      rw [this, List.append_nil]
  · obtain ⟨ms1, q, h1, _⟩ := check_mapping_abort hw (by omega)
    rw [h] at h1
    cases h1

theorem read_times_stream (i : Nat) : ∀ (len a : Nat) (s : exp_state) (sum : Int)
    (fp2 : List time_record) (s1 : exp_state) (sum1 : Int),
    len ≤ s.time_fp.length → fp2.take len = s.time_fp.take len →
    read_times i (List.range' a len) s sum = .done (s1, sum1) →
    read_times i (List.range' a len) { s with time_fp := fp2 } sum
      = .done ({ s1 with time_fp := fp2.drop len }, sum1) := by
  intro len
  induction len with
  | zero =>
    intro a s sum fp2 s1 sum1 _ _ h
    simp only [List.range'_zero, read_times] at h ⊢
    cases h
    rfl
  | succ len ih =>
    intro a s sum fp2 s1 sum1 hlen htake h
    rw [List.range'_succ] at h ⊢
    cases hfp : s.time_fp with
    | nil => rw [hfp] at hlen; simp at hlen
    | cons r rest =>
      rw [hfp] at htake hlen
      cases hfp2 : fp2 with
      | nil => rw [hfp2] at htake; simp at htake
      | cons r2 rest2 =>
        rw [hfp2] at htake
        simp only [List.take_succ_cons, List.cons.injEq] at htake
        obtain ⟨hr, hrest⟩ := htake
        subst hr
        simp only [read_times, find_read_time_from_file, hfp] at h
        simp only [read_times, find_read_time_from_file, List.drop_succ_cons]
        exact ih (a + 1) _ (sum + r2.c) rest2 s1 sum1 (by simpa using hlen) hrest h

theorem classify_stream (i : Nat) (thr : ℚ) (fp2 : List time_record) :
    ∀ (js : List Nat) (s : exp_state) (k : Nat) (s1 : exp_state) (k1 : Nat),
    classify i thr js s k = .done (s1, k1) →
    classify i thr js { s with time_fp := fp2 } k = .done ({ s1 with time_fp := fp2 }, k1) := by
  intro js
  induction js with
  | nil =>
    intro s k s1 k1 h
    simp only [classify] at h ⊢
    cases h
    rfl
  | cons a js ih =>
    intro s k s1 k1 h
    simp only [classify] at h ⊢
    by_cases hf : thr ≤ (s.avgs a : ℚ)
    · rw [if_pos hf] at h ⊢
      by_cases ha : (s.entries a).associated = true
      · rw [if_pos ha] at h ⊢
        cases hs : (s.entries a).siblings 0 with
        | none => rw [hs] at h; cases h
        | some prior =>
          rw [hs] at h
          simp only [] at h ⊢
          exact ih _ k s1 k1 h
      · rw [if_neg ha] at h ⊢
        exact ih _ (k + 1) s1 k1 h
    · rw [if_neg hf] at h ⊢
      exact ih s k s1 k1 h

theorem master_pass_stream {thr : Int → Nat → ℚ} {n i : Nat} {s s1 : exp_state}
    (fp2 : List time_record)
    (hlen : n - (i + 1) ≤ s.time_fp.length)
    (htake : fp2.take (n - (i + 1)) = s.time_fp.take (n - (i + 1)))
    (h : master_pass thr n i s = .done s1) :
    master_pass thr n i { s with time_fp := fp2 }
      = .done { s1 with time_fp := fp2.drop (n - (i + 1)) } := by
  unfold master_pass at h ⊢
  cases hr : read_times i (row_indices n i) s 0 with
  | assert_failed p => rw [hr] at h; cases h
  | null_deref => rw [hr] at h; cases h
  | done p =>
    obtain ⟨r1, sum⟩ := p
    have hr2 := read_times_stream i (n - (i + 1)) (i + 1) s 0 fp2 r1 sum hlen htake hr
    rw [hr] at h
    simp only [] at h
    rw [show row_indices n i = List.range' (i + 1) (n - (i + 1)) from rfl, hr2]
    simp only []
    cases hc : classify i (thr sum (n - (i + 1))) (row_indices n i)
        { r1 with entries := (Function.update r1.entries i
            { r1.entries i with associated := false }) } 0 with
    | assert_failed p => rw [hc] at h; cases h
    | null_deref => rw [hc] at h; cases h
    | done p =>
      obtain ⟨s3, k3⟩ := p
      have hc2 := classify_stream i (thr sum (n - (i + 1))) (fp2.drop (n - (i + 1)))
        (row_indices n i) _ 0 s3 k3 hc
      rw [hc] at h
      simp only [] at h
      rw [show List.range' (i + 1) (n - (i + 1)) = row_indices n i from rfl]
      rw [hc2]
      simp only []
      by_cases ha : (s3.entries i).associated = false
      · rw [if_pos ha] at h ⊢
        cases h
        rfl
      · rw [if_neg ha] at h ⊢
        cases h
        rfl

/-- A run that consumed samples aborts on every shorter initial part of
what it consumed. -/
theorem run_take (thr : Int → Nat → ℚ) (n : Nat) : ∀ (len k : Nat) (s s1 : exp_state),
    wf n k s.entries → run_loop thr n (List.range' k len) s = .done s1 →
    ∀ q, q < s.time_fp.length - s1.time_fp.length →
    is_abort (run_loop thr n (List.range' k len) { s with time_fp := s.time_fp.take q })
      = true := by
  intro len
  induction len with
  | zero =>
    intro k s s1 _ h q hq
    simp only [List.range'_zero, run_loop] at h
    cases h
    omega
  | succ len ih =>
    intro k s s1 hw h q hq
    rw [List.range'_succ] at h ⊢
    have happ := run_loop_append thr n [k] (List.range' (k + 1) len) s
    rw [List.singleton_append, h] at happ
    cases ht : run_loop thr n [k] s with
    | assert_failed s2 => rw [ht] at happ; cases happ
    | null_deref => rw [ht] at happ; cases happ
    | done s2 =>
      rw [ht] at happ
      simp only [] at happ
      have hw2 := turn_wf hw ht
      rcases turn_done hw ht with ⟨ha, rfl⟩ | ⟨hna, hpost⟩
      · simp only [run_loop]
        rw [if_pos ha]
        exact ih (k + 1) s2 s1 hw2 happ.symm q hq
      · have hmp : master_pass thr n k s = .done s2 := by
          simp only [run_loop] at ht
          rw [if_neg (by rw [hna]; simp)] at ht
          cases hm : master_pass thr n k s with
          | done s3 => rw [hm] at ht; simp only [] at ht; exact ht
          | assert_failed s3 => rw [hm] at ht; cases ht
          | null_deref => rw [hm] at ht; cases ht
        simp only [run_loop]
        rw [if_neg (by rw [hna]; simp)]
        by_cases hqr : q < n - (k + 1)
        · obtain ⟨sa, hsa⟩ := master_pass_fail thr n k { s with time_fp := s.time_fp.take q }
            (by
              show (s.time_fp.take q).length < _
              rw [List.length_take]
              omega)
          rw [hsa]
          rfl
        · have hst := master_pass_stream (s.time_fp.take q) hpost.enough
            (by rw [List.take_take, Nat.min_eq_left (by omega)]) hmp
          rw [hst]
          simp only []
          have hfp2 : (s.time_fp.take q).drop (n - (k + 1))
              = s2.time_fp.take (q - (n - (k + 1))) := by
            rw [hpost.time_fp, List.drop_take]
          rw [hfp2]
          have hlen2 : s2.time_fp.length = s.time_fp.length - (n - (k + 1)) := by
            rw [hpost.time_fp, List.length_drop]
          exact ih (k + 1) s2 s1 hw2 happ.symm (q - (n - (k + 1))) (by omega)

theorem run_exp_take {thr : Int → Nat → ℚ} {n phy : Nat} {fp : List time_record}
    {s : exp_state} (h : run_exp thr n (start_state n phy fp) = .done s)
    (q : Nat) (hq : q < fp.length - s.time_fp.length) :
    is_abort (run_exp thr n (start_state n phy (fp.take q))) = true := by
  unfold run_exp at h ⊢
  rw [List.range_eq_range'] at h ⊢
  exact run_take thr n n 0 (start_state n phy fp) s (wf_init n 0 phy) h q hq

theorem run_exp_short {thr : Int → Nat → ℚ} {n phy : Nat} {fp : List time_record}
    (h : fp.length < n - 1) :
    is_abort (run_exp thr n (start_state n phy fp)) = true := by
  obtain ⟨d, rfl⟩ : ∃ d, n = d + 1 := ⟨n - 1, by omega⟩
  unfold run_exp
  rw [List.range_eq_range', List.range'_succ]
  simp only [run_loop]
  have hna : ((start_state (d + 1) phy fp).entries 0).associated = false :=
    (init_entries_fresh (d + 1) 0 phy 0).1
  rw [if_neg (by rw [hna]; simp)]
  obtain ⟨sa, hsa⟩ := master_pass_fail thr (d + 1) 0 (start_state (d + 1) phy fp)
    (by show fp.length < _; omega)
  rw [hsa]
  rfl

theorem run_done_consumed {thr : Int → Nat → ℚ} {n phy : Nat} {fp : List time_record}
    {s : exp_state} (h : run_exp thr n (start_state n phy fp) = .done s) :
    s.time_fp = fp.drop (consumed n s.entries n) ∧ consumed n s.entries n ≤ fp.length :=
  run_prefix_fp (wf_init n 0 phy) n s h

theorem row_sample_drop (fp : List time_record) (c i j : Nat) :
    row_sample (fp.drop c) i j = (fp.getD (c + (j - (i + 1))) ⟨0, 0, 0⟩).c := by
  unfold row_sample
  rw [List.getD_eq_getElem?_getD, List.getD_eq_getElem?_getD, List.getElem?_drop]

theorem consumed_all_masters (n : Nat) (es : table) : ∀ k,
    (∀ m, m < k → (es m).associated = false) → consumed n es k = pairs_below n k := by
  intro k
  induction k with
  | zero => intro _; simp [consumed, pairs_below]
  | succ k ih =>
    intro h
    rw [consumed_succ, pairs_below_succ, ih (fun m hm => h m (by omega)), h k (by omega)]
    simp

/-- After its pass, the sibling list of `i` holds exactly the claimed
indices. -/
theorem pass_sibling_iff {thr : Int → Nat → ℚ} {n i : Nat} {s s1 : exp_state}
    (hp : pass_post thr n i s s1) (j : Nat) :
    (∃ t, t < (s1.entries i).num_sibling ∧ (s1.entries i).siblings t = some j)
      ↔ j ∈ pass_claimed thr n i s := by
  have hnum : (s1.entries i).num_sibling = (pass_claimed thr n i s).length := by
    have h := core_num hp.master
    exact h
  have hsib : ∀ t, t < (pass_claimed thr n i s).length →
      (s1.entries i).siblings t = (pass_claimed thr n i s)[t]? := by
    intro t ht
    have h := core_siblings hp.master
    rw [h]
    simp [ht]
  constructor
  · rintro ⟨t, ht, hj⟩
    rw [hnum] at ht
    rw [hsib t ht, List.getElem?_eq_getElem ht] at hj
    simp only [Option.some.injEq] at hj
    rw [← hj]
    exact List.getElem_mem ht
  · intro hj
    obtain ⟨t, ht, hjt⟩ := List.getElem_of_mem hj
    exact ⟨t, by rw [hnum]; exact ht, by rw [hsib t ht, List.getElem?_eq_getElem ht, hjt]⟩

theorem mem_pass_claimed {thr : Int → Nat → ℚ} {n i : Nat} {s : exp_state} {j : Nat} :
    j ∈ pass_claimed thr n i s ↔
      (i < j ∧ j < n) ∧ pass_threshold thr n i s.time_fp ≤ (row_sample s.time_fp i j : ℚ)
        ∧ (s.entries j).associated = false := by
  unfold pass_claimed
  rw [List.mem_filter, mem_row_indices]
  simp only [Bool.and_eq_true, decide_eq_true_eq, Bool.not_eq_true']

theorem mem_pass_conflicting {thr : Int → Nat → ℚ} {n i : Nat} {s : exp_state} {j : Nat} :
    j ∈ pass_conflicting thr n i s ↔
      (i < j ∧ j < n) ∧ pass_threshold thr n i s.time_fp ≤ (row_sample s.time_fp i j : ℚ)
        ∧ (s.entries j).associated = true := by
  unfold pass_conflicting
  rw [List.mem_filter, mem_row_indices]
  simp only [Bool.and_eq_true, decide_eq_true_eq]

/-- The states after `k` and after `k1 >= k` turns agree on the entries
below `k`. -/
theorem run_prefix_below {thr : Int → Nat → ℚ} {n : Nat} {s0 sk s1 : exp_state}
    (hw : wf n 0 s0.entries) {k k1 : Nat} (hk : k ≤ k1)
    (h : run_loop thr n (List.range k) s0 = .done sk)
    (h1 : run_loop thr n (List.range k1) s0 = .done s1) :
    ∀ x, x < k → s1.entries x = sk.entries x := by
  rw [range_split k k1 hk, run_loop_append, h] at h1
  simp only [] at h1
  exact (run_range'_wf thr n (k1 - k) k sk s1 (run_prefix_wf hw k h) h1).2

theorem pass_flags_eq {thr : Int → Nat → ℚ} {n : Nat} {s0 sm : exp_state} {m : Nat}
    (h : run_loop thr n (List.range m) s0 = .done sm) (j : Nat) :
    pass_flags thr n s0 m j
      = decide (pass_threshold thr n m sm.time_fp ≤ (row_sample sm.time_fp m j : ℚ)) := by
  simp only [pass_flags, h]

theorem hist_pass {thr : Int → Nat → ℚ} {n : Nat} {s0 sk s1 : exp_state} {k : Nat}
    (hpre : run_loop thr n (List.range k) s0 = .done sk)
    (hw : wf n k sk.entries) (hh : hist thr n s0 k sk.entries)
    (hna : (sk.entries k).associated = false) (hp : pass_post thr n k sk s1) :
    hist thr n s0 (k + 1) s1.entries := by
  obtain ⟨fo, fc, fia, _, _⟩ := pass_fields hp.others hp.claimed hp.master
  rw [hna] at fia
  have hbelow : ∀ x, x < k → (s1.entries x).associated = (sk.entries x).associated := by
    intro x hx; rw [hp.below x hx]
  refine ⟨?_, ?_⟩
  · intro j m hj hja hjm
    by_cases hjk : j = k
    · rw [hjk, fia] at hja; exact absurd hja (by simp)
    · by_cases hjc : j ∈ pass_claimed thr n k sk
      · obtain ⟨_, c2, _⟩ := fc j hjc
        rw [c2, Function.update_same] at hjm
        cases hjm
        obtain ⟨⟨g1, _⟩, g2, g3⟩ := mem_pass_claimed.mp hjc
        refine ⟨by rw [pass_flags_eq hpre]; simpa using g2, ?_⟩
        intro m1 hm1 hm1a
        rw [hbelow m1 hm1] at hm1a
        exact hh.free j m1 hj g3 hm1 (by omega) hm1a
      · obtain ⟨e1, e2, _⟩ := fo j hjk hjc
        rw [e1] at hja
        rw [e2] at hjm
        obtain ⟨h1, h2⟩ := hh.claimed j m hj hja hjm
        refine ⟨h1, ?_⟩
        intro m1 hm1 hm1a
        obtain ⟨m0, _, b2, _, b4, _⟩ := hw.backref j hja
        rw [hjm] at b4
        cases b4
        rw [hbelow m1 (by omega)] at hm1a
        exact h2 m1 hm1 hm1a
  · intro j m1 hj hja hm1 hm1j hm1a
    have hjc : j ∉ pass_claimed thr n k sk := by
      intro hc
      rw [(fc j hc).1] at hja
      exact absurd hja (by simp)
    have hjsk : (sk.entries j).associated = false := by
      by_cases hjk : j = k
      · rw [hjk]; exact hna
      · rw [← (fo j hjk hjc).1]; exact hja
    by_cases hmk : m1 = k
    · subst hmk
      rw [pass_flags_eq hpre]
      by_contra hflag
      have hflag1 : pass_threshold thr n m1 sk.time_fp ≤ (row_sample sk.time_fp m1 j : ℚ) := by
        simpa using hflag
      exact hjc (mem_pass_claimed.mpr ⟨⟨hm1j, hj⟩, hflag1, hjsk⟩)
    · have hlt : m1 < k := by omega
      rw [hbelow m1 hlt] at hm1a
      exact hh.free j m1 hj hjsk hlt hm1j hm1a

theorem run_prefix_hist {thr : Int → Nat → ℚ} {n : Nat} {s0 : exp_state}
    (hw : wf n 0 s0.entries) (h0 : ∀ j, (s0.entries j).associated = false) :
    ∀ (k : Nat) (sk : exp_state), run_loop thr n (List.range k) s0 = .done sk →
    hist thr n s0 k sk.entries := by
  intro k
  induction k with
  | zero =>
    intro sk h
    simp only [List.range_zero, run_loop] at h
    cases h
    refine ⟨?_, ?_⟩
    · intro j m _ hja
      rw [h0 j] at hja
      exact absurd hja (by simp)
    · intro j m1 _ _ hm1
      omega
  | succ k ih =>
    intro sk h
    rw [run_succ] at h
    cases hp : run_loop thr n (List.range k) s0 with
    | done s1 =>
      rw [hp] at h
      simp only [] at h
      have hwk := run_prefix_wf hw k hp
      rcases turn_done hwk h with ⟨ha, rfl⟩ | ⟨hna, hpost⟩
      · have hh := ih sk hp
        refine ⟨hh.claimed, ?_⟩
        intro j m1 hj hja hm1 hm1j hm1a
        have : m1 ≠ k := by
          rintro rfl
          rw [ha] at hm1a
          exact absurd hm1a (by simp)
        exact hh.free j m1 hj hja (by omega) hm1j hm1a
      · exact hist_pass hp hwk (ih s1 hp) hna hpost
    | assert_failed s1 => rw [hp] at h; cases h
    | null_deref => rw [hp] at h; cases h

theorem row_sum_eq (fp : List time_record) (i : Nat) : ∀ (len : Nat), len ≤ fp.length →
    row_sum len fp = ((List.range' (i + 1) len).map (row_sample fp i)).sum := by
  intro len hlen
  unfold row_sum
  congr 1
  apply List.ext_getElem
  · simp [List.length_take, hlen]
  · intro t h1 h2
    simp only [List.getElem_map, List.getElem_take, List.getElem_range']
    have ht : t < fp.length := by
      simp only [List.length_map, List.length_take] at h1
      omega
    unfold row_sample
    rw [List.getD_eq_getElem?_getD]
    have e : i + 1 + 1 * t - (i + 1) = t := by omega
    rw [e, List.getElem?_eq_getElem ht]
    rfl

theorem exact_threshold_spec (sum : Int) (k : Nat) :
    exact_threshold sum k = spec_threshold ((sum : ℚ) / (k : ℚ)) := by
  unfold exact_threshold exact_threshold_pct running_threshold running_avg spec_threshold
    OUTLIER_PERCENTAGE
  push_cast
  ring

theorem pass_post_frame {thr : Int → Nat → ℚ} {n i : Nat} {s s1 : exp_state}
    (hp : pass_post thr n i s s1) (x : Nat) :
    (s1.entries x).phy_addr = (s.entries x).phy_addr
      ∧ (s1.entries x).bank = (s.entries x).bank := by
  by_cases hxi : x = i
  · subst hxi
    have h1 := core_phy hp.master
    have h2 := core_bank hp.master
    exact ⟨h1, h2⟩
  · by_cases hxc : x ∈ pass_claimed thr n i s
    · have h1 := core_phy (hp.claimed x hxc)
      have h2 := core_bank (hp.claimed x hxc)
      exact ⟨h1, h2⟩
    · have h := hp.others x hxi hxc
      exact ⟨core_phy h, core_bank h⟩

theorem run_prefix_frame {thr : Int → Nat → ℚ} {n : Nat} {s0 : exp_state}
    (hw : wf n 0 s0.entries) : ∀ (k : Nat) (sk : exp_state),
    run_loop thr n (List.range k) s0 = .done sk →
    ∀ x, (sk.entries x).phy_addr = (s0.entries x).phy_addr
      ∧ (sk.entries x).bank = (s0.entries x).bank := by
  intro k
  induction k with
  | zero =>
    intro sk h
    simp only [List.range_zero, run_loop] at h
    cases h
    exact fun _ => ⟨rfl, rfl⟩
  | succ k ih =>
    intro sk h
    rw [run_succ] at h
    cases hp : run_loop thr n (List.range k) s0 with
    | done s1 =>
      rw [hp] at h
      simp only [] at h
      rcases turn_done (run_prefix_wf hw k hp) h with ⟨_, rfl⟩ | ⟨_, hpost⟩
      · exact ih sk hp
      · intro x
        obtain ⟨h1, h2⟩ := pass_post_frame hpost x
        obtain ⟨g1, g2⟩ := ih s1 hp x
        exact ⟨by rw [h1, g1], by rw [h2, g2]⟩
    | assert_failed s1 => rw [hp] at h; cases h
    | null_deref => rw [hp] at h; cases h

/-- In every state of the run, the slots of a sibling array at or beyond
`num_sibling` are still `NULL`. -/
theorem run_prefix_nulls {thr : Int → Nat → ℚ} {n : Nat} {s0 : exp_state}
    (hw : wf n 0 s0.entries) (h0 : ∀ x t, (s0.entries x).siblings t = none) :
    ∀ (k : Nat) (sk : exp_state), run_loop thr n (List.range k) s0 = .done sk →
    ∀ x t, (sk.entries x).num_sibling ≤ t → (sk.entries x).siblings t = none := by
  intro k
  induction k with
  | zero =>
    intro sk h
    simp only [List.range_zero, run_loop] at h
    cases h
    exact fun x t _ => h0 x t
  | succ k ih =>
    intro sk h
    rw [run_succ] at h
    cases hp : run_loop thr n (List.range k) s0 with
    | done s1 =>
      rw [hp] at h
      simp only [] at h
      have hwk := run_prefix_wf hw k hp
      rcases turn_done hwk h with ⟨_, rfl⟩ | ⟨hna, hpost⟩
      · exact ih sk hp
      · obtain ⟨fo, fc, _, fin, _⟩ := pass_fields hpost.others hpost.claimed hpost.master
        intro x t ht
        by_cases hxi : x = k
        · subst hxi
          rw [fin] at ht
          have h1 := core_siblings hpost.master
          rw [h1]
          simp only []
          rw [if_neg (by omega)]
          exact (hwk.fresh x (le_refl x) hna).2 t
        · by_cases hxc : x ∈ pass_claimed thr n k s1
          · obtain ⟨_, c2, c3⟩ := fc x hxc
            rw [c3] at ht
            obtain ⟨g1, _, g3⟩ := pass_claimed_mem hxc
            rw [c2, Function.update_noteq (by omega)]
            exact (hwk.fresh x (by omega) g3).2 t
          · obtain ⟨_, e2, e3⟩ := fo x hxi hxc
            rw [e3] at ht
            rw [e2]
            exact ih s1 hp x t ht
    | assert_failed s1 => rw [hp] at h; cases h
    | null_deref => rw [hp] at h; cases h

/-- A strictly ascending sibling list that starts above `m` and stays below
`n` has at most `n - m - 1` slots. -/
theorem wf_slot_lower {n k : Nat} {es : table} (hw : wf n k es) {m : Nat}
    (hm : (es m).associated = false) : ∀ t, t < (es m).num_sibling →
    ∃ j, (es m).siblings t = some j ∧ m + 1 + t ≤ j := by
  intro t
  induction t with
  | zero =>
    intro ht
    obtain ⟨j, h1, h2, _⟩ := hw.slots m hm 0 ht
    exact ⟨j, h1, by omega⟩
  | succ t ih =>
    intro ht
    obtain ⟨j0, g1, g2⟩ := ih (by omega)
    obtain ⟨j, h1, _⟩ := hw.slots m hm (t + 1) ht
    have := hw.ascending m hm t (t + 1) j0 j (by omega) ht g1 h1
    exact ⟨j, h1, by omega⟩

theorem wf_num_le {n k : Nat} {es : table} (hw : wf n k es) {m : Nat}
    (hm : (es m).associated = false) : (es m).num_sibling ≤ n - m - 1 := by
  by_contra hgt
  have hpos : 0 < (es m).num_sibling := by omega
  obtain ⟨j, h1, h2⟩ := wf_slot_lower hw hm ((es m).num_sibling - 1) (by omega)
  obtain ⟨j1, g1, _, g3, _⟩ := hw.slots m hm ((es m).num_sibling - 1) (by omega)
  rw [h1] at g1
  cases g1
  omega

theorem run_done_frame {thr : Int → Nat → ℚ} {n phy : Nat} {fp : List time_record}
    {s : exp_state} (h : run_exp thr n (start_state n phy fp) = .done s) (x : Nat) :
    (s.entries x).phy_addr = (init_entries n 0 phy x).phy_addr
      ∧ (s.entries x).bank = (init_entries n 0 phy x).bank :=
  run_prefix_frame (wf_init n 0 phy) n s h x

/-- The association flag of `i` at its turn is its flag at the end. -/
theorem turn_flag_final {thr : Int → Nat → ℚ} {n : Nat} {s0 sk s : exp_state}
    (hw : wf n 0 s0.entries) {i : Nat} (hi : i < n)
    (hpre : run_loop thr n (List.range i) s0 = .done sk)
    (hrun : run_exp thr n s0 = .done s) :
    (sk.entries i).associated = (s.entries i).associated := by
  obtain ⟨s1, h1, _⟩ := run_split hrun (i + 1) (by omega)
  have hbelow := run_prefix_below hw (by omega : i + 1 ≤ n) h1 hrun i (by omega)
  rw [hbelow]
  have h2 := h1
  rw [run_succ, hpre] at h2
  simp only [] at h2
  rcases turn_done (run_prefix_wf hw i hpre) h2 with ⟨_, rfl⟩ | ⟨hna, hpost⟩
  · rfl
  · have h3 := core_assoc hpost.master
    rw [h3]

theorem pass_threshold_spec {n i : Nat} {s s1 : exp_state}
    (hp : pass_post exact_threshold n i s s1) :
    pass_threshold exact_threshold n i s.time_fp = spec_threshold (spec_avg n i s1.avgs) := by
  have hsum : row_sum (n - (i + 1)) s.time_fp = ((row_indices n i).map s1.avgs).sum := by
    rw [row_sum_eq s.time_fp i _ hp.enough]
    congr 1
    apply List.map_congr_left
    intro j hj
    obtain ⟨g1, g2⟩ := mem_row_indices.mp hj
    exact (hp.avgs j g1 g2).symm
  unfold pass_threshold spec_avg
  rw [exact_threshold_spec, hsum, Nat.sub_sub]

theorem pass_claims {thr : Int → Nat → ℚ} {n i : Nat} {s s1 : exp_state}
    (hp : pass_post thr n i s s1) {j : Nat} (hj : j ∈ pass_claimed thr n i s) :
    (∃ t, t < (s1.entries i).num_sibling ∧ (s1.entries i).siblings t = some j)
      ∧ (s1.entries j).associated = true ∧ (s1.entries j).siblings 0 = some i := by
  obtain ⟨_, fc, _⟩ := pass_fields hp.others hp.claimed hp.master
  obtain ⟨c1, c2, _⟩ := fc j hj
  exact ⟨(pass_sibling_iff hp j).mpr hj, c1, by rw [c2]; simp⟩

theorem exact_threshold_pct_mono {p1 p2 : Nat} (hp : p1 ≤ p2) {sum : Int} (hs : 0 ≤ sum)
    (k : Nat) : exact_threshold_pct p1 sum k ≤ exact_threshold_pct p2 sum k := by
  unfold exact_threshold_pct running_threshold running_avg
  have h1 : (0 : ℚ) ≤ (sum : ℚ) / (k : ℚ) :=
    div_nonneg (by exact_mod_cast hs) (by positivity)
  have h2 : (p1 : ℚ) ≤ (p2 : ℚ) := by exact_mod_cast hp
  apply div_le_div_of_nonneg_right _ (by norm_num)
  apply mul_le_mul_of_nonneg_left _ h1
  linarith

theorem pass_claimed_mono {p1 p2 : Nat} (hp : p1 ≤ p2) (n i : Nat) (s : exp_state)
    (hs : 0 ≤ row_sum (n - (i + 1)) s.time_fp) :
    (pass_claimed (exact_threshold_pct p2) n i s).Sublist
      (pass_claimed (exact_threshold_pct p1) n i s) := by
  unfold pass_claimed
  apply List.monotone_filter_right
  intro j hj
  simp only [Bool.and_eq_true, decide_eq_true_eq, Bool.not_eq_true'] at hj ⊢
  refine ⟨le_trans ?_ hj.1, hj.2⟩
  exact exact_threshold_pct_mono hp hs _

theorem list_sum_ge (f : Nat → Int) (v : Int) : ∀ (l : List Nat),
    (∀ j ∈ l, v ≤ f j) → (l.length : Int) * v ≤ (l.map f).sum := by
  intro l
  induction l with
  | nil => intro _; simp
  | cons a l ih =>
    intro h
    have h1 := h a (by simp)
    have h2 := ih (fun j hj => h j (by simp [hj]))
    simp only [List.length_cons, List.map_cons, List.sum_cons]
    push_cast
    linarith

theorem row_indices_length (n i : Nat) : (row_indices n i).length = n - i - 1 := by
  unfold row_indices
  rw [List.length_range']
  omega

/-- In exact arithmetic a sample that is smallest in its row lies below the
threshold when the row average is positive. -/
theorem min_below_threshold (n i : Nat) (sample : Nat → Int) (j0 : Nat)
    (h0 : i < j0 ∧ j0 < n) (hmin : ∀ j, i < j → j < n → sample j0 ≤ sample j)
    (hpos : 0 < spec_avg n i sample) :
    (sample j0 : ℚ) < spec_threshold (spec_avg n i sample) := by
  have hlen : 0 < n - i - 1 := by omega
  have hsum := list_sum_ge sample (sample j0) (row_indices n i)
    (fun j hj => hmin j (mem_row_indices.mp hj).1 (mem_row_indices.mp hj).2)
  rw [row_indices_length] at hsum
  have hq : ((n - i - 1 : Nat) : ℚ) * (sample j0 : ℚ)
      ≤ ((((row_indices n i).map sample).sum : Int) : ℚ) := by exact_mod_cast hsum
  have hlenq : (0 : ℚ) < ((n - i - 1 : Nat) : ℚ) := by exact_mod_cast hlen
  have hle : (sample j0 : ℚ) ≤ spec_avg n i sample := by
    unfold spec_avg
    rw [le_div_iff₀ hlenq]
    linarith
  unfold spec_threshold
  nlinarith

theorem exists_row_min (n i : Nat) (sample : Nat → Int) (h : i + 1 < n) :
    ∃ j0, i < j0 ∧ j0 < n ∧ ∀ j, i < j → j < n → sample j0 ≤ sample j := by
  obtain ⟨j0, hj0, hmin⟩ := Finset.exists_min_image (Finset.Ioo i n) sample
    ⟨i + 1, by simp; omega⟩
  simp only [Finset.mem_Ioo] at hj0 hmin
  exact ⟨j0, hj0.1, hj0.2, fun j h1 h2 => hmin j ⟨h1, h2⟩⟩

theorem list_sum_pos (f : Nat → Int) : ∀ (l : List Nat), l ≠ [] →
    (∀ j ∈ l, 0 < f j) → 0 < (l.map f).sum := by
  intro l
  induction l with
  | nil => intro h; exact absurd rfl h
  | cons a l ih =>
    intro _ h
    have h1 := h a (by simp)
    simp only [List.map_cons, List.sum_cons]
    by_cases hl : l = []
    · subst hl; simpa using h1
    · have := ih hl (fun j hj => h j (by simp [hj]))
      omega

theorem row_sample_pos {fp : List time_record} (hpos : ∀ r ∈ fp, 0 < r.c) {i j : Nat}
    (h : j - (i + 1) < fp.length) : 0 < row_sample fp i j := by
  unfold row_sample
  rw [List.getD_eq_getElem?_getD, List.getElem?_eq_getElem h]
  exact hpos _ (List.getElem_mem h)

theorem scenario_threshold (x y : Int) :
    pass_threshold exact_threshold 4 0 (start_state 4 0 (scenario_file x y)).time_fp
      = 910 / 3 := by
  have hsum : row_sum (4 - (0 + 1)) (start_state 4 0 (scenario_file x y)).time_fp = 700 := rfl
  unfold pass_threshold
  rw [hsum]
  norm_num [exact_threshold, exact_threshold_pct, running_threshold, running_avg,
    OUTLIER_PERCENTAGE]

theorem scenario_claimed (x y : Int) :
    pass_claimed exact_threshold 4 0 (start_state 4 0 (scenario_file x y)) = [3] := by
  have hna : ∀ j, ((start_state 4 0 (scenario_file x y)).entries j).associated = false :=
    fun j => (init_entries_fresh 4 0 0 j).1
  have e1 : row_sample (start_state 4 0 (scenario_file x y)).time_fp 0 1 = 100 := rfl
  have e2 : row_sample (start_state 4 0 (scenario_file x y)).time_fp 0 2 = 100 := rfl
  have e3 : row_sample (start_state 4 0 (scenario_file x y)).time_fp 0 3 = 500 := rfl
  unfold pass_claimed
  rw [scenario_threshold]
  show List.filter _ [1, 2, 3] = [3]
  rw [List.filter_cons_of_neg (by rw [e1, hna]; norm_num),
    List.filter_cons_of_neg (by rw [e2, hna]; norm_num),
    List.filter_cons_of_pos (by rw [e3, hna]; norm_num), List.filter_nil]

/-- The final table of `run_exp` on the worked example when `t(1,3)` is at
least 27. -/
theorem scenario_final (x y : Int) (hx : 27 ≤ x) (s : exp_state)
    (h : run_exp exact_threshold 4 (start_state 4 0 (scenario_file x y)) = .done s) :
    (s.entries 0).associated = false ∧ (s.entries 1).associated = false
      ∧ (s.entries 2).associated = false ∧ (s.entries 3).associated = true
      ∧ (s.entries 3).siblings 0 = some 0
      ∧ (s.entries 0).num_sibling = 1 ∧ (s.entries 0).siblings 0 = some 3
      ∧ (s.entries 1).num_sibling = 0 ∧ (s.entries 2).num_sibling = 0 := by
  have hw0 : wf 4 0 (start_state 4 0 (scenario_file x y)).entries := wf_init 4 0 0
  have hinit : ∀ j, ((start_state 4 0 (scenario_file x y)).entries j).associated = false :=
    fun j => (init_entries_fresh 4 0 0 j).1
  have hw := run_done_wf h
  obtain ⟨s1, g1, w1, b1⟩ := run_prefix_final hw0 h 1 (by decide)
  obtain ⟨s2, g2, w2, b2⟩ := run_prefix_final hw0 h 2 (by decide)
  obtain ⟨s3, g3, w3, b3⟩ := run_prefix_final hw0 h 3 (by decide)
  -- turn of index 0
  have p0 : pass_post exact_threshold 4 0 (start_state 4 0 (scenario_file x y)) s1 := by
    rcases turn_done hw0 g1 with ⟨ha, _⟩ | ⟨_, q⟩
    · rw [hinit 0] at ha; exact absurd ha (by simp)
    · exact q
  obtain ⟨fo0, fc0, fa0, fn0, fs0⟩ := pass_fields p0.others p0.claimed p0.master
  rw [scenario_claimed] at fo0 fc0 fn0 fs0
  have a1_1 : (s1.entries 1).associated = false := by
    rw [(fo0 1 (by decide) (by simp)).1]; exact hinit 1
  have a1_2 : (s1.entries 2).associated = false := by
    rw [(fo0 2 (by decide) (by simp)).1]; exact hinit 2
  have a1_3 : (s1.entries 3).associated = true := (fc0 3 (by simp)).1
  have fp1 : s1.time_fp = [⟨2048, 4096, 50⟩, ⟨2048, 6144, x⟩, ⟨4096, 6144, y⟩] := by
    rw [p0.time_fp]; rfl
  -- turn of index 1
  have t1 : run_loop exact_threshold 4 [1] s1 = .done s2 := by
    have h2 := g2
    rw [run_succ, g1] at h2
    exact h2
  have p1 : pass_post exact_threshold 4 1 s1 s2 := by
    rcases turn_done w1 t1 with ⟨ha, _⟩ | ⟨_, q⟩
    · rw [a1_1] at ha; exact absurd ha (by simp)
    · exact q
  have cl1 : pass_claimed exact_threshold 4 1 s1 = [] := by
    rw [List.eq_nil_iff_forall_not_mem]
    intro j hj
    obtain ⟨⟨j1, j2⟩, hflag, hja⟩ := mem_pass_claimed.mp hj
    have hj23 : j = 2 ∨ j = 3 := by omega
    rcases hj23 with rfl | rfl
    · rw [fp1] at hflag
      have hs : row_sample [(⟨2048, 4096, 50⟩ : time_record), ⟨2048, 6144, x⟩,
          ⟨4096, 6144, y⟩] 1 2 = 50 := rfl
      have hsum : row_sum (4 - (1 + 1)) [(⟨2048, 4096, 50⟩ : time_record), ⟨2048, 6144, x⟩,
          ⟨4096, 6144, y⟩] = 50 + x := by
        simp [row_sum]
      unfold pass_threshold at hflag
      rw [hsum, hs] at hflag
      norm_num [exact_threshold, exact_threshold_pct, running_threshold, running_avg,
        OUTLIER_PERCENTAGE] at hflag
      have hxq : (27 : ℚ) ≤ (x : ℚ) := by exact_mod_cast hx
      linarith
    · rw [a1_3] at hja; exact absurd hja (by simp)
  obtain ⟨fo1, _, fa1, fn1, _⟩ := pass_fields p1.others p1.claimed p1.master
  rw [cl1] at fo1 fn1
  have a2_2 : (s2.entries 2).associated = false := by
    rw [(fo1 2 (by decide) (by simp)).1]; exact a1_2
  have a2_3 : (s2.entries 3).associated = true := by
    rw [(fo1 3 (by decide) (by simp)).1]; exact a1_3
  -- turn of index 2
  have t2 : run_loop exact_threshold 4 [2] s2 = .done s3 := by
    have h3 := g3
    rw [run_succ, g2] at h3
    exact h3
  have p2 : pass_post exact_threshold 4 2 s2 s3 := by
    rcases turn_done w2 t2 with ⟨ha, _⟩ | ⟨_, q⟩
    · rw [a2_2] at ha; exact absurd ha (by simp)
    · exact q
  have cl2 : pass_claimed exact_threshold 4 2 s2 = [] := by
    rw [List.eq_nil_iff_forall_not_mem]
    intro j hj
    obtain ⟨⟨j1, j2⟩, _, hja⟩ := mem_pass_claimed.mp hj
    have hj3 : j = 3 := by omega
    subst hj3
    rw [a2_3] at hja; exact absurd hja (by simp)
  obtain ⟨_, _, fa2, fn2, _⟩ := pass_fields p2.others p2.claimed p2.master
  rw [cl2] at fn2
  -- the final entries
  have e0 : s.entries 0 = s1.entries 0 := b1 0 (by decide)
  have e1 : s.entries 1 = s2.entries 1 := b2 1 (by decide)
  have e2 : s.entries 2 = s3.entries 2 := b3 2 (by decide)
  have f0 : (s.entries 0).associated = false := by rw [e0, fa0]; exact hinit 0
  have n0 : (s.entries 0).num_sibling = 1 := by rw [e0, fn0]; rfl
  have s0 : (s.entries 0).siblings 0 = some 3 := by
    rw [e0, fs0 0 (by decide)]; rfl
  obtain ⟨j, hj, _, _, hja, hjb⟩ := hw.slots 0 f0 0 (by rw [n0]; decide)
  rw [s0] at hj
  cases hj
  refine ⟨f0, by rw [e1, fa1]; exact a1_1, by rw [e2, fa2]; exact a2_2, hja, hjb, n0, s0,
    by rw [e1, fn1]; rfl, by rw [e2, fn2]; rfl⟩

/-- The final table of `run_exp` on the worked example with `t(1,3) = 10`
and `t(2,3) = 7`. -/
theorem scenario_low (s : exp_state)
    (h : run_exp exact_threshold 4 (start_state 4 0 (scenario_file 10 7)) = .done s) :
    (s.entries 0).associated = false ∧ (s.entries 1).associated = false
      ∧ (s.entries 2).associated = true ∧ (s.entries 2).siblings 0 = some 1
      ∧ (s.entries 1).num_sibling = 1 ∧ (s.entries 1).siblings 0 = some 2 := by
  simp [run_exp, run_loop, List.range_succ, start_state, init_entries_apply, init_entry,
    master_pass, row_indices, read_times, find_read_time_from_file, scenario_file, classify,
    zero_entry, List.range', Function.update_apply] at h
  norm_num [exact_threshold, exact_threshold_pct, running_threshold, running_avg,
    OUTLIER_PERCENTAGE] at h
  rw [← h]
  simp

theorem row_sum_const (v : Int) : ∀ (len : Nat) (fp : List time_record),
    (∀ r ∈ fp, r.c = v) → len ≤ fp.length → row_sum len fp = (len : Int) * v := by
  intro len
  induction len with
  | zero => intro fp _ _; simp [row_sum]
  | succ len ih =>
    intro fp h hlen
    cases fp with
    | nil => simp at hlen
    | cons r rest =>
      have h1 := h r (by simp)
      have h2 := ih rest (fun r1 hr1 => h r1 (by simp [hr1])) (by simpa using hlen)
      unfold row_sum at h2 ⊢
      simp only [List.take_succ_cons, List.map_cons, List.sum_cons, h1, h2]
      push_cast
      ring

/-- On a row of equal positive samples no candidate is claimed. -/
theorem flat_no_claim (n i : Nat) (s : exp_state) (v : Int) (hv : 0 < v)
    (hall : ∀ r ∈ s.time_fp, r.c = v) (hlen : n - (i + 1) ≤ s.time_fp.length) :
    pass_claimed exact_threshold n i s = [] := by
  unfold pass_claimed
  rw [List.filter_eq_nil_iff]
  intro j hj
  obtain ⟨h1, h2⟩ := mem_row_indices.mp hj
  have hidx : j - (i + 1) < s.time_fp.length := by omega
  have hsample : row_sample s.time_fp i j = v := by
    unfold row_sample
    rw [List.getD_eq_getElem?_getD, List.getElem?_eq_getElem hidx]
    exact hall _ (List.getElem_mem hidx)
  have hthr : (v : ℚ) < pass_threshold exact_threshold n i s.time_fp := by
    unfold pass_threshold
    rw [row_sum_const v _ _ hall hlen, exact_threshold_spec]
    have hk : (0 : ℚ) < ((n - (i + 1) : Nat) : ℚ) := by
      have : 0 < n - (i + 1) := by omega
      exact_mod_cast this
    have hvq : (0 : ℚ) < (v : ℚ) := by exact_mod_cast hv
    push_cast
    rw [mul_div_cancel_left₀ _ (ne_of_gt hk)]
    unfold spec_threshold
    linarith
  rw [hsample]
  simp only [Bool.and_eq_true, decide_eq_true_eq, Bool.not_eq_true', not_and]
  intro hc
  exact absurd hthr (not_lt.mpr hc)

theorem run_flat {n : Nat} {s0 : exp_state} (v : Int) (hv : 0 < v)
    (hw : wf n 0 s0.entries) (h0 : ∀ x, (s0.entries x).associated = false)
    (hall : ∀ r ∈ s0.time_fp, r.c = v) :
    ∀ (k : Nat) (sk : exp_state), run_loop exact_threshold n (List.range k) s0 = .done sk →
    ∀ x, (sk.entries x).associated = false := by
  intro k
  induction k with
  | zero =>
    intro sk h
    simp only [List.range_zero, run_loop] at h
    cases h
    exact h0
  | succ k ih =>
    intro sk h
    rw [run_succ] at h
    cases hp : run_loop exact_threshold n (List.range k) s0 with
    | done s1 =>
      rw [hp] at h
      simp only [] at h
      have hwk := run_prefix_wf hw k hp
      rcases turn_done hwk h with ⟨_, rfl⟩ | ⟨hna, hpost⟩
      · exact ih sk hp
      · have hfp := (run_prefix_fp hw k s1 hp).1
        have hall1 : ∀ r ∈ s1.time_fp, r.c = v := by
          intro r hr
          rw [hfp] at hr
          exact hall r (List.mem_of_mem_drop hr)
        have hcl := flat_no_claim n k s1 v hv hall1 hpost.enough
        intro x
        by_cases hxk : x = k
        · subst hxk
          have h1 := core_assoc hpost.master
          rw [h1]; exact hna
        · have h1 := core_assoc (hpost.others x hxk (by rw [hcl]; simp))
          rw [h1]
          exact ih s1 hp x
    | assert_failed s1 => rw [hp] at h; cases h
    | null_deref => rw [hp] at h; cases h

theorem rank_all_masters (es : table) (h : ∀ x, (es x).associated = false) :
    ∀ p, rank es p = p := by
  intro p
  induction p with
  | zero => simp [rank]
  | succ p ih => rw [rank_succ, ih, h p]; simp

theorem num_entries_eq : NUM_ENTRIES = 4096 := by
  simp [NUM_ENTRIES, NUM_CONTIGOUS_PAGES, MEM_SIZE, PAGE_SIZE, PAGE_SHIFT, MIN_BANK_SIZE]

theorem max_banks_lt_num_entries : MAX_BANKS < NUM_ENTRIES := by
  rw [num_entries_eq]
  decide

/-- With more than `MAX_BANKS` entries and a file of equal positive samples,
`check_mapping` stores into `banks[MAX_BANKS]` before its `assert` fails. -/
theorem overflow_on_flat (n phy : Nat) (hn : MAX_BANKS < n) (fp : List time_record)
    (v : Int) (hv : 0 < v) (hall : ∀ r ∈ fp, r.c = v) (hlen : n * (n - 1) / 2 ≤ fp.length) :
    ∃ s ms, run_exp exact_threshold n (start_state n phy fp) = .done s
      ∧ check_mapping n (mapping_start s) = .assert_failed ms
      ∧ (mapping_start s).banks MAX_BANKS = none
      ∧ ms.banks MAX_BANKS = some MAX_BANKS
      ∧ ms.main_bank = MAX_BANKS + 1 := by
  obtain ⟨s, hs⟩ := run_completes exact_threshold n phy fp hlen
  have hw := run_done_wf hs
  have hmasters : ∀ x, (s.entries x).associated = false :=
    run_flat v hv (wf_init n 0 phy) (fun x => (init_entries_fresh n 0 phy x).1) hall n s hs
  have hrank := rank_all_masters s.entries hmasters
  obtain ⟨ms, q, h1, _, _, h4, h5⟩ := check_mapping_abort hw
    (by rw [hrank]; exact hn)
  rw [hrank] at h4
  subst h4
  refine ⟨s, ms, hs, h1, rfl, ?_, ?_⟩
  · have := h5.banks_set MAX_BANKS (by omega) (hmasters MAX_BANKS)
    rw [hrank] at this
    exact this
  · rw [h5.main_bank, hrank]

theorem flat_file_all (k : Nat) (v : Int) : ∀ r ∈ flat_file k v, r.c = v := by
  intro r hr
  have h1 : r = ⟨0, 0, v⟩ := List.eq_of_mem_replicate hr
  rw [h1]

theorem flat_file_length (k : Nat) (v : Int) : (flat_file k v).length = k := by
  simp [flat_file]

theorem block_bank_lines (es : table) (i : Nat) :
    (report_block es i).filterMap line_bank = [(es i).bank] := by
  unfold report_block
  simp only [List.filterMap_cons, line_bank]
  rw [List.filterMap_eq_nil_iff.mpr]
  intro l hl
  obtain ⟨t, _, rfl⟩ := List.mem_map.mp hl
  rfl

theorem block_addr_lines (es : table) (i : Nat) :
    (report_block es i).filterMap line_addr
      = (block_indices es i).map (fun x => (es x).phy_addr) := by
  unfold report_block block_indices
  simp only [List.filterMap_cons, line_addr, List.map_cons, List.map_map]
  congr 1
  rw [List.filterMap_map]
  induction (List.range (es i).num_sibling) with
  | nil => rfl
  | cons t ts ih => simp [List.filterMap_cons, line_addr, ih]

theorem report_bank_lines (es : table) (is : List Nat) :
    (report_out es is).filterMap line_bank
      = (is.filter (fun i => !(es i).associated)).map (fun i => (es i).bank) := by
  unfold report_out
  rw [List.filterMap_flatten, List.map_map]
  induction (is.filter (fun i => !(es i).associated)) with
  | nil => rfl
  | cons a l ih =>
    simp only [List.map_cons, List.flatten_cons, Function.comp_apply, block_bank_lines, ih]
    rfl

theorem report_addr_lines (es : table) (is : List Nat) :
    (report_out es is).filterMap line_addr
      = (report_indices es is).map (fun x => (es x).phy_addr) := by
  unfold report_out report_indices
  rw [List.filterMap_flatten, List.map_map]
  induction (is.filter (fun i => !(es i).associated)) with
  | nil => rfl
  | cons a l ih =>
    simp only [List.map_cons, List.flatten_cons, Function.comp_apply, block_addr_lines, ih,
      List.map_append]

theorem masters_rank (es : table) : ∀ n,
    ((List.range n).filter (fun i => !(es i).associated)).map (rank es)
      = List.range (rank es n) := by
  intro n
  induction n with
  | zero => simp [rank]
  | succ n ih =>
    rw [List.range_succ, List.filter_append, List.map_append, ih, rank_succ]
    by_cases h : (es n).associated = true
    · simp [h]
    · simp [h, List.range_succ]

theorem mem_block_indices {n k : Nat} {es : table} (hw : wf n k es) {m : Nat}
    (hm : (es m).associated = false) (x : Nat) :
    x ∈ block_indices es m ↔ master_of es x = m ∧ (x = m ∨ (es x).associated = true) := by
  unfold block_indices
  rw [List.mem_cons, List.mem_map]
  constructor
  · rintro (rfl | ⟨t, ht, hx⟩)
    · exact ⟨master_of_master hm, Or.inl rfl⟩
    · have ht1 := List.mem_range.mp ht
      obtain ⟨j, hj, _⟩ := hw.slots m hm t ht1
      rw [hj] at hx
      simp only [Option.getD_some] at hx
      subst hx
      obtain ⟨g1, g2, _⟩ := master_of_slot hw hm ht1 hj
      exact ⟨g2, Or.inr g1⟩
  · rintro ⟨h1, h2⟩
    rcases h2 with rfl | hxa
    · exact Or.inl rfl
    · obtain ⟨_, _, _, t, ht, hx⟩ := master_of_assoc hw hxa
      rw [h1] at ht hx
      exact Or.inr ⟨t, List.mem_range.mpr ht, by rw [hx]; rfl⟩

theorem block_indices_nodup {n k : Nat} {es : table} (hw : wf n k es) {m : Nat}
    (hm : (es m).associated = false) : (block_indices es m).Nodup := by
  unfold block_indices
  rw [List.nodup_cons]
  constructor
  · intro hmem
    obtain ⟨t, ht, hx⟩ := List.mem_map.mp hmem
    have ht1 := List.mem_range.mp ht
    obtain ⟨j, hj, hlt, _⟩ := hw.slots m hm t ht1
    rw [hj] at hx
    simp only [Option.getD_some] at hx
    omega
  · apply List.Nodup.map_on _ (List.nodup_range _)
    intro t1 h1 t2 h2 heq
    have g1 := List.mem_range.mp h1
    have g2 := List.mem_range.mp h2
    obtain ⟨j1, hj1, _⟩ := hw.slots m hm t1 g1
    obtain ⟨j2, hj2, _⟩ := hw.slots m hm t2 g2
    rw [hj1, hj2] at heq
    simp only [Option.getD_some] at heq
    subst heq
    exact slot_injective hw hm g1 g2 hj1 hj2

theorem report_indices_perm {n k : Nat} {es : table} (hw : wf n k es) :
    (report_indices es (List.range n)).Perm (List.range n) := by
  have hmasters : ∀ m, m ∈ (List.range n).filter (fun i => !(es i).associated) ↔
      m < n ∧ (es m).associated = false := by
    intro m
    rw [List.mem_filter, List.mem_range]
    simp
  have hnd : (report_indices es (List.range n)).Nodup := by
    unfold report_indices
    rw [List.nodup_flatten]
    constructor
    · intro l hl
      obtain ⟨m, hm, rfl⟩ := List.mem_map.mp hl
      exact block_indices_nodup hw ((hmasters m).mp hm).2
    · rw [List.pairwise_map]
      apply List.Nodup.pairwise_of_forall_ne ((List.nodup_range n).filter _)
      intro a ha b hb hab
      rw [List.disjoint_left]
      intro x hxa hxb
      have e1 := ((mem_block_indices hw ((hmasters a).mp ha).2 x).mp hxa).1
      have e2 := ((mem_block_indices hw ((hmasters b).mp hb).2 x).mp hxb).1
      exact hab (by rw [← e1, ← e2])
  rw [List.perm_ext_iff_of_nodup hnd (List.nodup_range n)]
  intro x
  rw [List.mem_range]
  unfold report_indices
  rw [List.mem_flatten]
  constructor
  · rintro ⟨l, hl, hx⟩
    obtain ⟨m, hm, rfl⟩ := List.mem_map.mp hl
    obtain ⟨hmn, hma⟩ := (hmasters m).mp hm
    obtain ⟨e1, e2⟩ := (mem_block_indices hw hma x).mp hx
    rcases e2 with rfl | hxa
    · exact hmn
    · obtain ⟨_, _, _, t, ht, hxt⟩ := master_of_assoc hw hxa
      exact (master_of_slot hw (master_of_is_master hw x) ht hxt).2.2.2
  · intro hx
    refine ⟨block_indices es (master_of es x), ?_, ?_⟩
    · apply List.mem_map.mpr
      refine ⟨master_of es x, ?_, rfl⟩
      rw [hmasters]
      exact ⟨lt_of_le_of_lt (master_of_le hw x) hx, master_of_is_master hw x⟩
    · rw [mem_block_indices hw (master_of_is_master hw x)]
      refine ⟨rfl, ?_⟩
      by_cases hxa : (es x).associated = true
      · exact Or.inr hxa
      · exact Or.inl (master_of_master (by simpa using hxa)).symm

theorem report_indices_congr (es es1 : table) (is : List Nat)
    (h : ∀ x, unbank (es1 x) = unbank (es x)) :
    report_indices es1 is = report_indices es is := by
  have hb : block_indices es1 = block_indices es := by
    funext i
    unfold block_indices
    rw [unbank_num (h i), unbank_siblings (h i)]
  unfold report_indices
  rw [hb]
  congr 2
  apply List.filter_congr
  intro x _
  rw [unbank_assoc (h x)]

/-- The classification loop leaves every `virt_addr` as it is. -/
theorem classify_virt (i : Nat) (thr : ℚ) : ∀ (js : List Nat) (s : exp_state) (k : Nat)
    (s1 : exp_state) (k1 : Nat), classify i thr js s k = .done (s1, k1) →
    ∀ x, (s1.entries x).virt_addr = (s.entries x).virt_addr := by
  intro js
  induction js with
  | nil =>
    intro s k s1 k1 h x
    simp only [classify] at h
    cases h
    rfl
  | cons j js ih =>
    intro s k s1 k1 h x
    simp only [classify] at h
    by_cases hf : thr ≤ (s.avgs j : ℚ)
    · rw [if_pos hf] at h
      by_cases ha : (s.entries j).associated = true
      · rw [if_pos ha] at h
        cases hp : (s.entries j).siblings 0 with
        | none => rw [hp] at h; cases h
        | some prior =>
          rw [hp] at h
          exact ih _ _ _ _ h x
      · rw [if_neg ha] at h
        rw [ih _ _ _ _ h x]
        show (Function.update (Function.update s.entries i _) j _ x).virt_addr = _
        by_cases hxj : x = j
        · subst hxj
          rw [Function.update_same]
          show (Function.update s.entries i _ x).virt_addr = _
          by_cases hxi : x = i
          · subst hxi; rw [Function.update_same]
          · rw [Function.update_noteq hxi]
        · rw [Function.update_noteq hxj]
          by_cases hxi : x = i
          · subst hxi; rw [Function.update_same]
          · rw [Function.update_noteq hxi]
    · rw [if_neg hf] at h
      exact ih _ _ _ _ h x

/-- The read loop of pass `i` over `j = a .. a+len-1`: entry `j` ends with
the second address of the line read for it, entry `i` with the first address
of the last line read, and the entries outside the range are not touched. -/
theorem read_times_virt (i : Nat) : ∀ (len a : Nat) (s : exp_state) (sum : Int)
    (s1 : exp_state) (sum1 : Int), i < a →
    read_times i (List.range' a len) s sum = .done (s1, sum1) →
    (∀ t, t < len → ∃ r, s.time_fp[t]? = some r ∧ (s1.entries (a + t)).virt_addr = r.b)
      ∧ (0 < len → ∃ r, s.time_fp[len - 1]? = some r ∧ (s1.entries i).virt_addr = r.a)
      ∧ (len = 0 → s1 = s)
      ∧ (∀ x, x ≠ i → (x < a ∨ a + len ≤ x) → s1.entries x = s.entries x) := by
  intro len
  induction len with
  | zero =>
    intro a s sum s1 sum1 _ h
    simp only [List.range'_zero, read_times] at h
    cases h
    exact ⟨fun t ht => absurd ht (by omega), fun h0 => absurd h0 (by omega), fun _ => rfl,
      fun _ _ _ => rfl⟩
  | succ len ih =>
    intro a s sum s1 sum1 hia h
    rw [List.range'_succ] at h
    cases hfp : s.time_fp with
    | nil =>
      simp only [read_times, find_read_time_from_file, hfp] at h
      cases h
    | cons r rest =>
      simp only [read_times, find_read_time_from_file, hfp] at h
      obtain ⟨h1, h2, h3, h4⟩ := ih (a + 1) _ _ s1 sum1 (by omega) h
      dsimp only at h1 h2 h3 h4
      have hai : a ≠ i := by omega
      have hea : (s1.entries a).virt_addr = r.b := by
        rw [h4 a hai (Or.inl (by omega))]
        rw [Function.update_same]
      refine ⟨?_, ?_, fun h0 => absurd h0 (by omega), ?_⟩
      · intro t ht
        cases t with
        | zero => exact ⟨r, by simp, hea⟩
        | succ t =>
          obtain ⟨r1, hr1, hr2⟩ := h1 t (by omega)
          refine ⟨r1, by simpa using hr1, ?_⟩
          rw [← hr2]; congr 2; omega
      · intro _
        by_cases hl : len = 0
        · subst hl
          refine ⟨r, by simp, ?_⟩
          rw [h3 rfl]
          show (Function.update (Function.update s.entries i _) a _ i).virt_addr = _
          rw [Function.update_noteq (Ne.symm hai), Function.update_same]
        · obtain ⟨r1, hr1, hr2⟩ := h2 (by omega)
          refine ⟨r1, ?_, hr2⟩
          have e : len + 1 - 1 = (len - 1) + 1 := by omega
          rw [e]
          simpa using hr1
      · intro x hxi hx
        rw [h4 x hxi (by omega)]
        have hxa : x ≠ a := by omega
        rw [Function.update_noteq hxa, Function.update_noteq hxi]

/-- What a master pass does to `virt_addr`: every `j` of the row ends with
the second address of the line read for it, `i` itself with the first
address of the last line of the row; a pass with an empty row changes no
`virt_addr`. -/
theorem master_pass_virt {thr : Int → Nat → ℚ} {n i : Nat} {s s1 : exp_state}
    (h : master_pass thr n i s = .done s1) :
    (∀ j, i < j → j < n →
        ∃ r, s.time_fp[j - (i + 1)]? = some r ∧ (s1.entries j).virt_addr = r.b)
      ∧ (i + 1 < n →
        ∃ r, s.time_fp[n - (i + 2)]? = some r ∧ (s1.entries i).virt_addr = r.a)
      ∧ (n ≤ i + 1 → ∀ x, (s1.entries x).virt_addr = (s.entries x).virt_addr) := by
  unfold master_pass at h
  cases hr : read_times i (row_indices n i) s 0 with
  | assert_failed p => rw [hr] at h; cases h
  | null_deref => rw [hr] at h; cases h
  | done p =>
    obtain ⟨r1, sum⟩ := p
    rw [hr] at h
    simp only [] at h
    obtain ⟨v1, v2, v3, _⟩ := read_times_virt i (n - (i + 1)) (i + 1) s 0 r1 sum (by omega) hr
    cases hc : classify i (thr sum (n - (i + 1))) (row_indices n i)
        { r1 with entries := (Function.update r1.entries i
            { r1.entries i with associated := false }) } 0 with
    | assert_failed p => rw [hc] at h; cases h
    | null_deref => rw [hc] at h; cases h
    | done p =>
      obtain ⟨s3, k3⟩ := p
      rw [hc] at h
      simp only [] at h
      have hv3 : ∀ x, (s3.entries x).virt_addr = (r1.entries x).virt_addr := by
        intro x
        rw [classify_virt i _ _ _ _ _ _ hc x]
        show (Function.update r1.entries i _ x).virt_addr = _
        by_cases hxi : x = i
        · subst hxi; rw [Function.update_same]
        · rw [Function.update_noteq hxi]
      have hv1 : ∀ x, (s1.entries x).virt_addr = (r1.entries x).virt_addr := by
        intro x
        by_cases ha : (s3.entries i).associated = false
        · rw [if_pos ha] at h
          cases h
          show (Function.update s3.entries i _ x).virt_addr = _
          by_cases hxi : x = i
          · subst hxi; rw [Function.update_same]; exact hv3 x
          · rw [Function.update_noteq hxi]; exact hv3 x
        · rw [if_neg ha] at h
          cases h
          exact hv3 x
      refine ⟨?_, ?_, ?_⟩
      · intro j h1 h2
        obtain ⟨r, hr1, hr2⟩ := v1 (j - (i + 1)) (by omega)
        have e : i + 1 + (j - (i + 1)) = j := by omega
        rw [e] at hr2
        exact ⟨r, hr1, by rw [hv1 j, hr2]⟩
      · intro hlt
        obtain ⟨r, hr1, hr2⟩ := v2 (by omega)
        have e : n - (i + 1) - 1 = n - (i + 2) := by omega
        rw [e] at hr1
        exact ⟨r, hr1, by rw [hv1 i, hr2]⟩
      · intro hle x
        rw [hv1 x, v3 (by omega)]

/-- One turn of the outer loop that returns: the index is associated and the
state is unchanged, or it is not and the master pass returned. -/
theorem turn_cases {thr : Int → Nat → ℚ} {n i : Nat} {s s1 : exp_state}
    (h : run_loop thr n [i] s = .done s1) :
    ((s.entries i).associated = true ∧ s1 = s)
      ∨ ((s.entries i).associated = false ∧ master_pass thr n i s = .done s1) := by
  simp only [run_loop] at h
  by_cases ha : (s.entries i).associated = true
  · rw [if_pos ha] at h
    cases h
    exact Or.inl ⟨ha, rfl⟩
  · rw [if_neg ha] at h
    refine Or.inr ⟨by simpa using ha, ?_⟩
    cases hm : master_pass thr n i s with
    | done s3 => rw [hm] at h; simp only [] at h; rw [h]
    | assert_failed s3 => rw [hm] at h; cases h
    | null_deref => rw [hm] at h; cases h

/-- A run that returns also returns, with the same table, on every initial
part of its input that holds what it read. -/
theorem run_keep (thr : Int → Nat → ℚ) (n : Nat) : ∀ (len k : Nat) (s s1 : exp_state),
    wf n k s.entries → run_loop thr n (List.range' k len) s = .done s1 →
    s1.time_fp.length ≤ s.time_fp.length
      ∧ ∀ q, s.time_fp.length - s1.time_fp.length ≤ q →
        run_loop thr n (List.range' k len) { s with time_fp := s.time_fp.take q }
          = .done { s1 with
              time_fp := s1.time_fp.take (q - (s.time_fp.length - s1.time_fp.length)) } := by
  intro len
  induction len with
  | zero =>
    intro k s s1 _ h
    simp only [List.range'_zero, run_loop] at h
    cases h
    refine ⟨le_refl _, ?_⟩
    intro q _
    simp only [List.range'_zero, run_loop, Nat.sub_self, Nat.sub_zero]
  | succ len ih =>
    intro k s s1 hw h
    rw [List.range'_succ] at h ⊢
    have happ := run_loop_append thr n [k] (List.range' (k + 1) len) s
    rw [List.singleton_append, h] at happ
    cases ht : run_loop thr n [k] s with
    | assert_failed s2 => rw [ht] at happ; cases happ
    | null_deref => rw [ht] at happ; cases happ
    | done s2 =>
      rw [ht] at happ
      simp only [] at happ
      have hw2 := turn_wf hw ht
      obtain ⟨hl, hq⟩ := ih (k + 1) s2 s1 hw2 happ.symm
      rcases turn_done hw ht with ⟨ha, rfl⟩ | ⟨hna, hpost⟩
      · refine ⟨hl, ?_⟩
        intro q hqq
        simp only [run_loop]
        rw [if_pos ha]
        exact hq q hqq
      · have hmp : master_pass thr n k s = .done s2 := by
          rcases turn_cases ht with ⟨ha, _⟩ | ⟨_, hm⟩
          · rw [hna] at ha; cases ha
          · exact hm
        have hlen2 : s2.time_fp.length = s.time_fp.length - (n - (k + 1)) := by
          rw [hpost.time_fp, List.length_drop]
        have henough := hpost.enough
        refine ⟨by omega, ?_⟩
        intro q hqq
        simp only [run_loop]
        rw [if_neg (by rw [hna]; simp)]
        have hst := master_pass_stream (s.time_fp.take q) hpost.enough
          (by rw [List.take_take, Nat.min_eq_left (by omega)]) hmp
        rw [hst]
        simp only []
        have hfp2 : (s.time_fp.take q).drop (n - (k + 1))
            = s2.time_fp.take (q - (n - (k + 1))) := by
          rw [hpost.time_fp, List.drop_take]
        rw [hfp2]
        have e : q - (s.time_fp.length - s1.time_fp.length)
            = q - (n - (k + 1)) - (s2.time_fp.length - s1.time_fp.length) := by omega
        rw [e]
        exact hq (q - (n - (k + 1))) (by omega)

theorem run_exp_keep {thr : Int → Nat → ℚ} {n phy : Nat} {fp : List time_record}
    {s : exp_state} (h : run_exp thr n (start_state n phy fp) = .done s)
    (q : Nat) (hq : consumed n s.entries n ≤ q) :
    ∃ s1, run_exp thr n (start_state n phy (fp.take q)) = .done s1
      ∧ s1.entries = s.entries ∧ s1.err = s.err ∧ s1.avgs = s.avgs := by
  obtain ⟨h1, h2⟩ := run_done_consumed h
  have hlen : fp.length - s.time_fp.length = consumed n s.entries n := by
    rw [h1, List.length_drop]; omega
  have hr := h
  unfold run_exp at hr ⊢
  rw [List.range_eq_range'] at hr ⊢
  obtain ⟨_, hk⟩ := run_keep thr n n 0 (start_state n phy fp) s (wf_init n 0 phy) hr
  exact ⟨_, hk q (by show fp.length - s.time_fp.length ≤ q; omega), rfl, rfl, rfl⟩

/-- The final state of `run_exp` on `example_file`: pass 0 claims index 3,
no other pass claims anything, and no conflict is reported. -/
theorem example_file_state (s : exp_state)
    (h : run_exp exact_threshold 4 (start_state 4 0 example_file) = .done s) :
    s.err = [] ∧ (s.entries 0).associated = false ∧ (s.entries 1).associated = false
      ∧ (s.entries 2).associated = false ∧ (s.entries 3).associated = true
      ∧ (s.entries 0).num_sibling = 1 ∧ (s.entries 0).siblings 0 = some 3 := by
  simp [run_exp, run_loop, List.range_succ, start_state, init_entries_apply, init_entry,
    master_pass, row_indices, read_times, find_read_time_from_file, example_file, classify,
    zero_entry, List.range', Function.update_apply] at h
  norm_num [exact_threshold, exact_threshold_pct, running_threshold, running_avg,
    OUTLIER_PERCENTAGE] at h
  rw [← h]
  simp

/-- The final flags of `run_exp` on `padded_file`: pass 0 claims index 2. -/
theorem padded_file_state (s : exp_state)
    (h : run_exp exact_threshold 4 (start_state 4 0 padded_file) = .done s) :
    (s.entries 0).associated = false ∧ (s.entries 1).associated = false
      ∧ (s.entries 2).associated = true ∧ (s.entries 3).associated = false := by
  simp [run_exp, run_loop, List.range_succ, start_state, init_entries_apply, init_entry,
    master_pass, row_indices, read_times, find_read_time_from_file, padded_file, short_file,
    classify, zero_entry, List.range', Function.update_apply] at h
  norm_num [exact_threshold, exact_threshold_pct, running_threshold, running_avg,
    OUTLIER_PERCENTAGE] at h
  rw [← h]
  simp

theorem padded_file_consumed (s : exp_state)
    (h : run_exp exact_threshold 4 (start_state 4 0 padded_file) = .done s) :
    consumed 4 s.entries 4 = 5 := by
  obtain ⟨f0, f1, f2, f3⟩ := padded_file_state s h
  simp [consumed, List.range_succ, List.filter_cons, f0, f1, f2, f3]

/-- C1, coverage: when `run_exp` returns and the number of entries that are
not associated is at most `MAX_BANKS`, `check_mapping` returns, every entry
has `bank >= 0`, and `stderr` holds no "Entry not assigned any bank" line
(every line on it is a conflict report of `run_exp`). -/
theorem coverage (thr : Int → Nat → ℚ) (n phy : Nat) (fp : List time_record)
    (s : exp_state)
    (hrun : run_exp thr n (start_state n phy fp) = .done s)
    (hbanks : rank s.entries n ≤ MAX_BANKS) :
    ∃ ms, check_mapping n (mapping_start s) = .done ms
      ∧ (∀ x, x < n → 0 ≤ (ms.entries x).bank)
      ∧ (∀ d ∈ ms.err, is_conflict d = true) := by
  have hw := run_done_wf hrun
  obtain ⟨ms, h1, _⟩ := check_mapping_done hw hbanks
  obtain ⟨_, _, h3, _, _, _, h7⟩ := check_mapping_result hw h1
  refine ⟨ms, h1, ?_, ?_⟩
  · intro x hx
    rw [h3 x hx]
    exact Int.natCast_nonneg _
  · rw [h7]
    exact run_done_err hrun

theorem coverage_witness :
    ∃ s, run_exp exact_threshold 4 (start_state 4 0 example_file) = .done s
      ∧ rank s.entries 4 ≤ MAX_BANKS
      ∧ ∃ ms, check_mapping 4 (mapping_start s) = .done ms
        ∧ (∀ x, x < 4 → 0 ≤ (ms.entries x).bank)
        ∧ (∀ d ∈ ms.err, is_conflict d = true) := by
  obtain ⟨s, hs⟩ := run_completes exact_threshold 4 0 example_file (by decide)
  have hr : rank s.entries 4 ≤ MAX_BANKS := le_trans (rank_le _ _) (by decide)
  exact ⟨s, hs, hr, coverage exact_threshold 4 0 example_file s hs hr⟩

/-- C2 as stated fails on its last part: with two entries at physical base
`4096` and the file `moved_file`, the sample of index 1 is below the
threshold of the pass of index 0, yet entry 1 is not left untouched: the
read loop has stored the second address of the line in its `virt_addr`. -/
theorem classification_rule_counterexample :
    ∃ s1, master_pass exact_threshold 2 0 (start_state 2 4096 moved_file) = .done s1
      ∧ (s1.avgs 1 : ℚ) < spec_threshold (spec_avg 2 0 s1.avgs)
      ∧ ((start_state 2 4096 moved_file).entries 1).virt_addr = 2048
      ∧ (s1.entries 1).virt_addr = 6144
      ∧ s1.entries 1 ≠ (start_state 2 4096 moved_file).entries 1 := by
  have key : ∀ s1, master_pass exact_threshold 2 0 (start_state 2 4096 moved_file) = .done s1 →
      s1.avgs 1 = 10 ∧ (s1.entries 1).virt_addr = 6144 := by
    intro s1 h
    simp [start_state, init_entries_apply, init_entry,
      master_pass, row_indices, read_times, find_read_time_from_file, moved_file, classify,
      zero_entry, List.range', Function.update_apply] at h
    norm_num [exact_threshold, exact_threshold_pct, running_threshold, running_avg,
      OUTLIER_PERCENTAGE] at h
    rw [← h]
    simp
  have hinit : ((start_state 2 4096 moved_file).entries 1).virt_addr = 2048 := by
    simp [start_state, init_entries_apply, init_entry, MIN_BANK_SIZE, PAGE_SIZE, PAGE_SHIFT]
  obtain ⟨s1, h1, _⟩ := master_pass_post exact_threshold 2 0 (start_state 2 4096 moved_file)
    (init_entries_fresh 2 0 4096 0).1 (by decide)
    (wf_backrefs_set (wf_init 2 0 4096))
  obtain ⟨k1, k2⟩ := key s1 h1
  refine ⟨s1, h1, ?_, hinit, k2, ?_⟩
  · rw [k1]
    norm_num [spec_threshold, spec_avg, row_indices, List.range', k1]
  · intro heq
    have := congrArg entry.virt_addr heq
    rw [k2, hinit] at this
    omega

/-- C2 amended: in the pass of a non-associated index `i`, `avgs[j]` is the
sample read for `j`, the threshold is `avg * (1 + 30/100)` for the average
`avg` of these samples (exact arithmetic), the sibling list of `i` is the
list, in ascending order, of the `j > i` at or above the threshold that were
not associated, each of them ends associated with `siblings[0]` pointing to
`i`, and every `j` below the threshold keeps all its fields except
`virt_addr`. The read loop overwrites `virt_addr`: every `j` of the row,
flagged or not, ends with the second address of the line whose sample is
`avgs[j]`, and `i` itself, when its row is not empty, with the first address
of the last line of the row. -/
theorem classification_rule_amended (n phy : Nat) (fp : List time_record) (i : Nat)
    (sk s1 : exp_state)
    (hpre : run_loop exact_threshold n (List.range i) (start_state n phy fp) = .done sk)
    (hna : (sk.entries i).associated = false)
    (hpass : master_pass exact_threshold n i sk = .done s1) :
    (∀ j, i < j → j < n → s1.avgs j = row_sample sk.time_fp i j)
    ∧ pass_threshold exact_threshold n i sk.time_fp
        = spec_threshold (spec_avg n i s1.avgs)
    ∧ (List.range (s1.entries i).num_sibling).map (s1.entries i).siblings
        = ((row_indices n i).filter (fun j =>
            decide (spec_threshold (spec_avg n i s1.avgs) ≤ (s1.avgs j : ℚ))
              && !(sk.entries j).associated)).map some
    ∧ (∀ j, i < j → j < n → spec_threshold (spec_avg n i s1.avgs) ≤ (s1.avgs j : ℚ) →
        (sk.entries j).associated = false →
        (s1.entries j).associated = true ∧ (s1.entries j).siblings 0 = some i)
    ∧ (∀ j, i < j → j < n → (s1.avgs j : ℚ) < spec_threshold (spec_avg n i s1.avgs) →
        core (s1.entries j) = core (sk.entries j))
    ∧ (∀ j, i < j → j < n →
        ∃ r, sk.time_fp[j - (i + 1)]? = some r ∧ s1.avgs j = r.c
          ∧ (s1.entries j).virt_addr = r.b)
    ∧ (i + 1 < n →
        ∃ r, sk.time_fp[n - (i + 2)]? = some r ∧ (s1.entries i).virt_addr = r.a) := by
  have hw0 : wf n 0 (start_state n phy fp).entries := wf_init n 0 phy
  have hwk := run_prefix_wf hw0 i hpre
  have hpost := master_pass_done hna (wf_backrefs_set hwk) hpass
  have havg : ∀ j, i < j → j < n → s1.avgs j = row_sample sk.time_fp i j := hpost.avgs
  have hsum : row_sum (n - (i + 1)) sk.time_fp = ((row_indices n i).map s1.avgs).sum := by
    rw [row_sum_eq sk.time_fp i _ hpost.enough]
    congr 1
    apply List.map_congr_left
    intro j hj
    obtain ⟨g1, g2⟩ := mem_row_indices.mp hj
    exact (havg j g1 g2).symm
  have hthr : pass_threshold exact_threshold n i sk.time_fp
      = spec_threshold (spec_avg n i s1.avgs) := by
    unfold pass_threshold spec_avg
    rw [exact_threshold_spec, hsum, Nat.sub_sub]
  have hcl : pass_claimed exact_threshold n i sk
      = (row_indices n i).filter (fun j =>
            decide (spec_threshold (spec_avg n i s1.avgs) ≤ (s1.avgs j : ℚ))
              && !(sk.entries j).associated) := by
    unfold pass_claimed
    apply List.filter_congr
    intro j hj
    obtain ⟨g1, g2⟩ := mem_row_indices.mp hj
    rw [hthr, havg j g1 g2]
  obtain ⟨_, fc, _, fin, fis⟩ := pass_fields hpost.others hpost.claimed hpost.master
  obtain ⟨mv1, mv2, _⟩ := master_pass_virt hpass
  refine ⟨havg, hthr, ?_, ?_, ?_, ?_, mv2⟩
  · rw [← hcl, fin]
    apply List.ext_getElem
    · simp
    · intro t h1 h2
      simp only [List.length_map, List.length_range] at h1
      simp only [List.getElem_map, List.getElem_range]
      rw [fis t h1, List.getElem?_eq_getElem h1]
  · intro j g1 g2 hge hja
    have hmem : j ∈ pass_claimed exact_threshold n i sk :=
      mem_pass_claimed.mpr ⟨⟨g1, g2⟩, by rw [hthr, ← havg j g1 g2]; exact hge, hja⟩
    obtain ⟨c1, c2, _⟩ := fc j hmem
    exact ⟨c1, by rw [c2]; simp⟩
  · intro j g1 g2 hlt
    have hji : j ≠ i := by omega
    have hnot : j ∉ pass_claimed exact_threshold n i sk := by
      intro hmem
      have h := (mem_pass_claimed.mp hmem).2.1
      rw [hthr, ← havg j g1 g2] at h
      exact absurd hlt (not_lt.mpr h)
    exact hpost.others j hji hnot
  · intro j g1 g2
    obtain ⟨r, hr1, hr2⟩ := mv1 j g1 g2
    refine ⟨r, hr1, ?_, hr2⟩
    rw [havg j g1 g2, row_sample, List.getD_eq_getElem?_getD, hr1]
    rfl

theorem classification_rule_amended_witness :
    ∃ s1, master_pass exact_threshold 4 0 (start_state 4 8192 shifted_file) = .done s1
      ∧ pass_threshold exact_threshold 4 0 (start_state 4 8192 shifted_file).time_fp
          = spec_threshold (spec_avg 4 0 s1.avgs)
      ∧ s1.avgs 1 = 100 ∧ (s1.entries 1).virt_addr = 10240
      ∧ s1.avgs 3 = 500 ∧ (s1.entries 3).virt_addr = 14336
      ∧ (s1.entries 0).virt_addr = 8192 := by
  have hna : ((start_state 4 8192 shifted_file).entries 0).associated = false :=
    (init_entries_fresh 4 0 8192 0).1
  obtain ⟨s1, h1, _⟩ := master_pass_post exact_threshold 4 0 (start_state 4 8192 shifted_file)
    hna (by decide) (wf_backrefs_set (wf_init 4 0 8192))
  obtain ⟨_, h2, _, _, _, h6, h7⟩ :=
    classification_rule_amended 4 8192 shifted_file 0 (start_state 4 8192 shifted_file) s1
      rfl hna h1
  obtain ⟨r, hr1, hr2, hr3⟩ := h6 1 (by decide) (by decide)
  have e1 : (start_state 4 8192 shifted_file).time_fp[1 - (0 + 1)]?
      = some ⟨8192, 10240, 100⟩ := rfl
  rw [e1] at hr1
  cases hr1
  obtain ⟨r, hq1, hq2, hq3⟩ := h6 3 (by decide) (by decide)
  have e3 : (start_state 4 8192 shifted_file).time_fp[3 - (0 + 1)]?
      = some ⟨8192, 14336, 500⟩ := rfl
  rw [e3] at hq1
  cases hq1
  obtain ⟨r, hp1, hp2⟩ := h7 (by decide)
  have e0 : (start_state 4 8192 shifted_file).time_fp[4 - (0 + 2)]?
      = some ⟨8192, 14336, 500⟩ := rfl
  rw [e0] at hp1
  cases hp1
  exact ⟨s1, h1, h2, hr2, hr3, hq2, hq3, hp2⟩
/-- C3, disjoint sibling lists: when `run_exp` returns, a slot of the
sibling list of one master and a slot of the sibling list of another never
hold the same entry, and two slots of one list never do; and an entry that
stands in the sibling list of `m` in the state after any number of turns is
still in that slot of that list at the end, associated, with its
`siblings[0]` pointing to `m`. -/
theorem disjoint_sibling_lists (thr : Int → Nat → ℚ) (n phy : Nat)
    (fp : List time_record) (s : exp_state)
    (hrun : run_exp thr n (start_state n phy fp) = .done s) :
    (∀ m m1 t t1 j, (s.entries m).associated = false → (s.entries m1).associated = false →
        t < (s.entries m).num_sibling → t1 < (s.entries m1).num_sibling →
        (s.entries m).siblings t = some j → (s.entries m1).siblings t1 = some j →
        m = m1 ∧ t = t1)
    ∧ (∀ k sk, k ≤ n →
        run_loop thr n (List.range k) (start_state n phy fp) = .done sk →
        ∀ m t j, (sk.entries m).associated = false → t < (sk.entries m).num_sibling →
          (sk.entries m).siblings t = some j →
          (s.entries m).associated = false ∧ t < (s.entries m).num_sibling
            ∧ (s.entries m).siblings t = some j
            ∧ (s.entries j).associated = true ∧ (s.entries j).siblings 0 = some m) := by
  have hw0 : wf n 0 (start_state n phy fp).entries := wf_init n 0 phy
  have hw := run_done_wf hrun
  refine ⟨?_, ?_⟩
  · intro m m1 t t1 j hm hm1 ht ht1 hj hj1
    obtain ⟨_, g2, _⟩ := master_of_slot hw hm ht hj
    obtain ⟨_, g2a, _⟩ := master_of_slot hw hm1 ht1 hj1
    have hmm : m = m1 := by rw [← g2, ← g2a]
    subst hmm
    exact ⟨rfl, slot_injective hw hm ht ht1 hj hj1⟩
  · intro k sk hk hsk m t j hm ht hj
    have hwk := run_prefix_wf hw0 k hsk
    have hmk : m < k := by
      by_contra hge
      have := (hwk.fresh m (by omega) hm).1
      omega
    have heq : s.entries m = sk.entries m :=
      run_prefix_below hw0 hk hsk hrun m hmk
    have hm2 : (s.entries m).associated = false := by rw [heq]; exact hm
    have ht2 : t < (s.entries m).num_sibling := by rw [heq]; exact ht
    have hj2 : (s.entries m).siblings t = some j := by rw [heq]; exact hj
    obtain ⟨j1, e1, _, _, e4, e5⟩ := hw.slots m hm2 t ht2
    rw [hj2] at e1
    cases e1
    exact ⟨hm2, ht2, hj2, e4, e5⟩

theorem disjoint_sibling_lists_witness :
    ∃ s, run_exp exact_threshold 4 (start_state 4 0 example_file) = .done s
      ∧ (∀ m m1 t t1 j, (s.entries m).associated = false → (s.entries m1).associated = false →
        t < (s.entries m).num_sibling → t1 < (s.entries m1).num_sibling →
        (s.entries m).siblings t = some j → (s.entries m1).siblings t1 = some j →
        m = m1 ∧ t = t1) := by
  obtain ⟨s, hs⟩ := run_completes exact_threshold 4 0 example_file (by decide)
  exact ⟨s, hs, (disjoint_sibling_lists exact_threshold 4 0 example_file s hs).1⟩

/-- C4, first claim wins: in the pass of a non-associated index `i` whose
row can be read, for every `j > i` whose sample is at or above the threshold
and that is already associated, the pass returns, `j` stays associated with
the same `siblings[0]`, `j` is in no slot of the sibling list of `i`,
`num_sibling` of `i` is the number of claimed indices (which excludes `j`),
and `stderr` only grows by one conflict line per conflicting index.
Consequently, when `run_exp` returns, the master of an associated entry `j`
is the smallest non-associated index whose pass flagged `j`. -/
theorem first_claim_wins (thr : Int → Nat → ℚ) (n phy : Nat) (fp : List time_record) :
    (∀ i sk j, i < n →
        run_loop thr n (List.range i) (start_state n phy fp) = .done sk →
        (sk.entries i).associated = false → n - (i + 1) ≤ sk.time_fp.length →
        i < j → j < n →
        pass_threshold thr n i sk.time_fp ≤ (row_sample sk.time_fp i j : ℚ) →
        (sk.entries j).associated = true →
        ∃ s1, master_pass thr n i sk = .done s1
          ∧ (s1.entries j).associated = true
          ∧ (s1.entries j).siblings 0 = (sk.entries j).siblings 0
          ∧ (∀ t, t < (s1.entries i).num_sibling → (s1.entries i).siblings t ≠ some j)
          ∧ (s1.entries i).num_sibling = (pass_claimed thr n i sk).length
          ∧ j ∉ pass_claimed thr n i sk
          ∧ j ∈ pass_conflicting thr n i sk
          ∧ ∃ l, s1.err = sk.err ++ l ∧ l.length = (pass_conflicting thr n i sk).length
              ∧ ∀ d ∈ l, is_conflict d = true)
    ∧ (∀ s, run_exp thr n (start_state n phy fp) = .done s →
        ∀ j m, j < n → (s.entries j).associated = true → (s.entries j).siblings 0 = some m →
          (s.entries m).associated = false ∧ m < j
            ∧ pass_flags thr n (start_state n phy fp) m j = true
            ∧ ∀ m1, m1 < m → (s.entries m1).associated = false →
                pass_flags thr n (start_state n phy fp) m1 j = false) := by
  have hw0 : wf n 0 (start_state n phy fp).entries := wf_init n 0 phy
  refine ⟨?_, ?_⟩
  · intro i sk j _ hpre hna hlen hij hjn hflag hja
    have hwk := run_prefix_wf hw0 i hpre
    obtain ⟨s1, h1, hpost⟩ := master_pass_post thr n i sk hna hlen (wf_backrefs_set hwk)
    have hjc : j ∉ pass_claimed thr n i sk := by
      intro hc
      rw [(mem_pass_claimed.mp hc).2.2] at hja
      exact absurd hja (by simp)
    have hji : j ≠ i := by omega
    have hcore := hpost.others j hji hjc
    refine ⟨s1, h1, ?_, ?_, ?_, ?_, hjc,
      mem_pass_conflicting.mpr ⟨⟨hij, hjn⟩, hflag, hja⟩, hpost.err⟩
    · rw [core_assoc hcore]; exact hja
    · rw [core_siblings hcore]
    · intro t ht hjt
      exact hjc ((pass_sibling_iff hpost j).mp ⟨t, ht, hjt⟩)
    · have h := core_num hpost.master
      exact h
  · intro s hrun j m hj hja hjm
    have hw := run_done_wf hrun
    have hh := run_prefix_hist hw0 (fun x => (init_entries_fresh n 0 phy x).1) n s hrun
    obtain ⟨m0, b1, _, b3, b4, _⟩ := hw.backref j hja
    rw [hjm] at b4
    cases b4
    obtain ⟨h1, h2⟩ := hh.claimed j m hj hja hjm
    exact ⟨b3, b1, h1, h2⟩

theorem conflict_file_state (sk : exp_state)
    (h : run_loop exact_threshold 4 (List.range 1) (start_state 4 0 conflict_file) = .done sk) :
    (sk.entries 1).associated = false ∧ (sk.entries 3).associated = true
      ∧ sk.time_fp = [⟨2048, 4096, 50⟩, ⟨2048, 6144, 500⟩, ⟨4096, 6144, 7⟩] := by
  simp [run_loop, List.range_succ, start_state, init_entries_apply, init_entry,
    master_pass, row_indices, read_times, find_read_time_from_file, conflict_file, classify,
    zero_entry, List.range', Function.update_apply] at h
  norm_num [exact_threshold, exact_threshold_pct, running_threshold, running_avg,
    OUTLIER_PERCENTAGE] at h
  rw [← h]
  simp

theorem first_claim_wins_witness :
    ∃ sk s1, run_loop exact_threshold 4 (List.range 1) (start_state 4 0 conflict_file)
        = .done sk
      ∧ (sk.entries 1).associated = false ∧ (sk.entries 3).associated = true
      ∧ pass_threshold exact_threshold 4 1 sk.time_fp ≤ (row_sample sk.time_fp 1 3 : ℚ)
      ∧ master_pass exact_threshold 4 1 sk = .done s1
      ∧ (s1.entries 3).siblings 0 = (sk.entries 3).siblings 0
      ∧ 3 ∉ pass_claimed exact_threshold 4 1 sk := by
  obtain ⟨sk, hsk⟩ := run_prefix_completes exact_threshold (start_state 4 0 conflict_file)
    (wf_init 4 0 0) (by rw [pairs_below_all]; decide) 1 (by decide)
  obtain ⟨h1, h3, hfp⟩ := conflict_file_state sk hsk
  have hflag : pass_threshold exact_threshold 4 1 sk.time_fp
      ≤ (row_sample sk.time_fp 1 3 : ℚ) := by
    rw [hfp]
    norm_num [pass_threshold, row_sum, row_sample, exact_threshold, exact_threshold_pct,
      running_threshold, running_avg, OUTLIER_PERCENTAGE]
  obtain ⟨s1, g1, _, g3, _, _, g6, _⟩ :=
    (first_claim_wins exact_threshold 4 0 conflict_file).1 1 sk 3 (by decide) hsk h1
      (by rw [hfp]; decide) (by decide) (by decide) hflag h3
  exact ⟨sk, s1, hsk, h1, h3, hflag, g1, g3, g6⟩

/-- C5, master / claimed-sibling invariant: in the state after any number
`k <= n` of turns of the outer loop of `run_exp`, every entry is either not
associated, and then each slot of its sibling list points to a later entry
that is associated and points back to it, or associated, and then it has
`num_sibling = 1`, its `siblings[0]` points to an earlier entry that is not
associated and lists it, and its other slots are `NULL`; an entry below `k`
that is not associated stays so in every later state; and the turn of an
associated entry leaves the state as it is. -/
theorem master_or_claimed (thr : Int → Nat → ℚ) (n phy : Nat) (fp : List time_record)
    (k : Nat) (s : exp_state) (_hk : k ≤ n)
    (hrun : run_loop thr n (List.range k) (start_state n phy fp) = .done s) :
    (∀ x, x < n →
      ((s.entries x).associated = false
        ∧ ∀ t, t < (s.entries x).num_sibling →
            ∃ j, (s.entries x).siblings t = some j ∧ x < j ∧ j < n
              ∧ (s.entries j).associated = true ∧ (s.entries j).siblings 0 = some x)
      ∨ ((s.entries x).associated = true ∧ (s.entries x).num_sibling = 1
        ∧ ∃ m, m < x ∧ (s.entries x).siblings 0 = some m
            ∧ (∀ t, 0 < t → (s.entries x).siblings t = none)
            ∧ (s.entries m).associated = false
            ∧ ∃ t, t < (s.entries m).num_sibling ∧ (s.entries m).siblings t = some x))
    ∧ (∀ k1 s1, k ≤ k1 → k1 ≤ n →
        run_loop thr n (List.range k1) (start_state n phy fp) = .done s1 →
        ∀ i, i < k → (s.entries i).associated = false → (s1.entries i).associated = false)
    ∧ ((s.entries k).associated = true →
        run_loop thr n (List.range (k + 1)) (start_state n phy fp) = .done s) := by
  have hw0 : wf n 0 (start_state n phy fp).entries := wf_init n 0 phy
  have hw := run_prefix_wf hw0 k hrun
  refine ⟨?_, ?_, ?_⟩
  · intro x _
    by_cases hx : (s.entries x).associated = true
    · obtain ⟨m, h1, _, h3, h4, h5, h6, h7⟩ := hw.backref x hx
      exact Or.inr ⟨hx, h5, m, h1, h4, h6, h3, h7⟩
    · have hx1 : (s.entries x).associated = false := by simpa using hx
      exact Or.inl ⟨hx1, hw.slots x hx1⟩
  · intro k1 s1 hkk _ h1 i hi hia
    rw [run_prefix_below hw0 hkk hrun h1 i hi]
    exact hia
  · intro ha
    rw [run_succ, hrun]
    simp only [run_loop]
    rw [if_pos ha]

theorem master_or_claimed_witness :
    ∃ s, run_loop exact_threshold 4 (List.range 2) (start_state 4 0 example_file) = .done s
      ∧ ((s.entries 2).associated = true →
          run_loop exact_threshold 4 (List.range (2 + 1)) (start_state 4 0 example_file)
            = .done s) := by
  obtain ⟨s, hs⟩ := run_prefix_completes exact_threshold (start_state 4 0 example_file)
    (wf_init 4 0 0) (by rw [pairs_below_all]; decide) 2 (by decide)
  exact ⟨s, hs,
    (master_or_claimed exact_threshold 4 0 example_file 2 s (by decide) hs).2.2⟩

/-- C6, sequential bank identifiers: when `check_mapping` returns on the
table that `run_exp` produced, the master with `k` masters below it has
`bank = k` and is `banks[k].main_entry`, each entry of its sibling list has
`bank = k`, the bank ids are exactly `0 .. M-1` for `M` masters, they
increase strictly with the index of the master, and two entries have the same
`bank` exactly when they have the same master, where an entry has master `m`
exactly when it is `m` or stands in the sibling list of `m`. -/
theorem sequential_bank_ids (thr : Int → Nat → ℚ) (n phy : Nat) (fp : List time_record)
    (s : exp_state) (ms : map_state)
    (hrun : run_exp thr n (start_state n phy fp) = .done s)
    (hmap : check_mapping n (mapping_start s) = .done ms) :
    (∀ m, m < n → (ms.entries m).associated = false →
        (ms.entries m).bank = (rank ms.entries m : Int)
        ∧ ms.banks (rank ms.entries m) = some m
        ∧ ∀ t, t < (ms.entries m).num_sibling →
            ∃ j, (ms.entries m).siblings t = some j ∧ j < n
              ∧ (ms.entries j).bank = (rank ms.entries m : Int))
    ∧ (∀ x, x < n → 0 ≤ (ms.entries x).bank
        ∧ (ms.entries x).bank < (rank ms.entries n : Int))
    ∧ (∀ q, q < rank ms.entries n →
        ∃ m, m < n ∧ (ms.entries m).associated = false ∧ (ms.entries m).bank = (q : Int))
    ∧ (∀ m m1, m < m1 → m1 < n → (ms.entries m).associated = false →
        (ms.entries m1).associated = false → (ms.entries m).bank < (ms.entries m1).bank)
    ∧ (∀ x y, x < n → y < n →
        ((ms.entries x).bank = (ms.entries y).bank
          ↔ master_of ms.entries x = master_of ms.entries y))
    ∧ (∀ x m, x < n → m < n → (ms.entries m).associated = false →
        (master_of ms.entries x = m
          ↔ x = m ∨ ∃ t, t < (ms.entries m).num_sibling
                ∧ (ms.entries m).siblings t = some x)) := by
  have hw := run_done_wf hrun
  obtain ⟨_, hfr, hbank, hbanks, _, _, _⟩ := check_mapping_result hw hmap
  have hassoc : ∀ x, (ms.entries x).associated = (s.entries x).associated :=
    fun x => unbank_assoc (hfr x)
  have hsib : ∀ x, (ms.entries x).siblings = (s.entries x).siblings :=
    fun x => unbank_siblings (hfr x)
  have hnum : ∀ x, (ms.entries x).num_sibling = (s.entries x).num_sibling :=
    fun x => unbank_num (hfr x)
  have hrank : ∀ p, rank ms.entries p = rank s.entries p := rank_congr _ _ hassoc
  have hmo : ∀ x, master_of ms.entries x = master_of s.entries x :=
    fun x => master_of_congr _ _ x (hassoc x) (hsib x)
  have hmlt : ∀ x, x < n → master_of s.entries x < n :=
    fun x hx => lt_of_le_of_lt (master_of_le hw x) hx
  refine ⟨?_, ?_, ?_, ?_, ?_, ?_⟩
  · intro m hm hma
    rw [hassoc] at hma
    rw [hrank, hnum, hsib]
    refine ⟨?_, hbanks m hm hma, ?_⟩
    · rw [hbank m hm, master_of_master hma]
    · intro t ht
      obtain ⟨j, hj, _⟩ := hw.slots m hma t ht
      obtain ⟨_, g2, _, g4⟩ := master_of_slot hw hma ht hj
      exact ⟨j, hj, g4, by rw [hbank j g4, g2]⟩
  · intro x hx
    rw [hbank x hx, hrank]
    refine ⟨Int.natCast_nonneg _, ?_⟩
    have := rank_lt_of_master s.entries (hmlt x hx) (master_of_is_master hw x)
    exact_mod_cast this
  · intro q hq
    rw [hrank] at hq
    obtain ⟨m, h1, h2, h3⟩ := rank_exists s.entries q n hq
    refine ⟨m, h1, by rw [hassoc]; exact h2, ?_⟩
    rw [hbank m h1, master_of_master h2, h3]
  · intro m m1 hlt hm1 hma hma1
    rw [hassoc] at hma hma1
    rw [hbank m (by omega), hbank m1 hm1, master_of_master hma, master_of_master hma1]
    have := rank_lt_of_master s.entries hlt hma
    exact_mod_cast this
  · intro x y hx hy
    rw [hbank x hx, hbank y hy, hmo, hmo]
    constructor
    · intro h
      have h1 : rank s.entries (master_of s.entries x) = rank s.entries (master_of s.entries y) := by
        exact_mod_cast h
      exact rank_inj_masters s.entries (master_of_is_master hw x) (master_of_is_master hw y) h1
    · intro h; rw [h]
  · intro x m _ _ hma
    rw [hassoc] at hma
    rw [hmo, hnum, hsib]
    constructor
    · intro h
      by_cases hxa : (s.entries x).associated = true
      · obtain ⟨_, _, _, t, ht, hxt⟩ := master_of_assoc hw hxa
        rw [h] at ht hxt
        exact Or.inr ⟨t, ht, hxt⟩
      · rw [master_of_master (by simpa using hxa)] at h
        exact Or.inl h
    · rintro (rfl | ⟨t, ht, hxt⟩)
      · exact master_of_master hma
      · exact (master_of_slot hw hma ht hxt).2.1

theorem sequential_bank_ids_witness :
    ∃ s ms, run_exp exact_threshold 4 (start_state 4 0 example_file) = .done s
      ∧ check_mapping 4 (mapping_start s) = .done ms
      ∧ (∀ x y, x < 4 → y < 4 →
        ((ms.entries x).bank = (ms.entries y).bank
          ↔ master_of ms.entries x = master_of ms.entries y)) := by
  obtain ⟨s, hs⟩ := run_completes exact_threshold 4 0 example_file (by decide)
  have hr : rank s.entries 4 ≤ MAX_BANKS := le_trans (rank_le _ _) (by decide)
  obtain ⟨ms, hms, _⟩ := check_mapping_done (run_done_wf hs) hr
  exact ⟨s, ms, hs, hms,
    (sequential_bank_ids exact_threshold 4 0 example_file s ms hs hms).2.2.2.2.1⟩

/-- C7, partition completeness: for a run of `run_exp` followed by
`check_mapping` that leaves `stderr` empty (no conflict and no unassigned
entry reported), the sum over the entries that are not associated of
`1 + num_sibling` is the number of entries. -/
theorem partition_completeness (thr : Int → Nat → ℚ) (n phy : Nat)
    (fp : List time_record) (s : exp_state) (ms : map_state)
    (hrun : run_exp thr n (start_state n phy fp) = .done s)
    (hmap : check_mapping n (mapping_start s) = .done ms)
    (_hquiet : ms.err = []) :
    ∑ m in (Finset.range n).filter (fun m => (ms.entries m).associated = false),
      (1 + (ms.entries m).num_sibling) = n := by
  have hw := run_done_wf hrun
  obtain ⟨_, hfr, _⟩ := check_mapping_result hw hmap
  have h := wf_partition hw
  have e1 : (Finset.range n).filter (fun m => (ms.entries m).associated = false)
      = (Finset.range n).filter (fun m => (s.entries m).associated = false) := by
    apply Finset.filter_congr
    intro x _
    rw [unbank_assoc (hfr x)]
  rw [e1]
  rw [Finset.sum_congr rfl (fun m _ => by rw [unbank_num (hfr m)])]
  exact h

theorem partition_completeness_witness :
    ∃ s ms, run_exp exact_threshold 4 (start_state 4 0 example_file) = .done s
      ∧ check_mapping 4 (mapping_start s) = .done ms
      ∧ ms.err = []
      ∧ (ms.entries 3).associated = true ∧ (ms.entries 0).num_sibling = 1
      ∧ ∑ m in (Finset.range 4).filter (fun m => (ms.entries m).associated = false),
          (1 + (ms.entries m).num_sibling) = 4 := by
  obtain ⟨s, hs⟩ := run_completes exact_threshold 4 0 example_file (by decide)
  have hr : rank s.entries 4 ≤ MAX_BANKS := le_trans (rank_le _ _) (by decide)
  obtain ⟨ms, hms, _⟩ := check_mapping_done (run_done_wf hs) hr
  obtain ⟨e0, _, _, _, e4, e5, _⟩ := example_file_state s hs
  obtain ⟨_, hfr, _, _, _, _, he⟩ := check_mapping_result (run_done_wf hs) hms
  have herr : ms.err = [] := by rw [he]; exact e0
  exact ⟨s, ms, hs, hms, herr, by rw [unbank_assoc (hfr 3)]; exact e4,
    by rw [unbank_num (hfr 0)]; exact e5,
    partition_completeness exact_threshold 4 0 example_file s ms hs hms herr⟩
theorem is_abort_iff {σ : Type} (o : outcome σ) :
    is_abort o = true ↔ ∃ a, o = .assert_failed a := by
  cases o with
  | done s => simp [is_abort]
  | assert_failed s => simp [is_abort]
  | null_deref => simp [is_abort]

/-- C8, BankOverflow: on the table that `run_exp` produced, the `assert` of
`check_mapping` fails exactly when more than `MAX_BANKS` entries are not
associated; with at most `MAX_BANKS` of them (exactly `MAX_BANKS` included)
`check_mapping` returns and each of them has a `bank` in `0 .. MAX_BANKS-1`. -/
theorem bank_overflow (thr : Int → Nat → ℚ) (n phy : Nat) (fp : List time_record)
    (s : exp_state)
    (hrun : run_exp thr n (start_state n phy fp) = .done s) :
    (is_abort (check_mapping n (mapping_start s)) = true ↔ MAX_BANKS < rank s.entries n)
    ∧ (rank s.entries n ≤ MAX_BANKS →
        ∃ ms, check_mapping n (mapping_start s) = .done ms
          ∧ ∀ m, m < n → (ms.entries m).associated = false →
              0 ≤ (ms.entries m).bank ∧ (ms.entries m).bank < (MAX_BANKS : Int)) := by
  have hw := run_done_wf hrun
  refine ⟨?_, ?_⟩
  · constructor
    · intro h
      by_contra hr
      obtain ⟨ms, h1, _⟩ := check_mapping_done hw (by omega : rank s.entries n ≤ MAX_BANKS)
      rw [h1] at h
      simp [is_abort] at h
    · intro hr
      obtain ⟨ms, q, h1, _⟩ := check_mapping_abort hw hr
      rw [h1]
      rfl
  · intro hr
    obtain ⟨ms, h1, _⟩ := check_mapping_done hw hr
    obtain ⟨_, hfr, hbank, _⟩ := check_mapping_result hw h1
    refine ⟨ms, h1, ?_⟩
    intro m hm hma
    rw [unbank_assoc (hfr m)] at hma
    rw [hbank m hm, master_of_master hma]
    refine ⟨Int.natCast_nonneg _, ?_⟩
    have := rank_lt_of_master s.entries hm hma
    have h2 : rank s.entries m < MAX_BANKS := by omega
    exact_mod_cast h2

theorem bank_overflow_witness :
    ∃ s, run_exp exact_threshold 4 (start_state 4 0 example_file) = .done s
      ∧ (is_abort (check_mapping 4 (mapping_start s)) = true ↔ MAX_BANKS < rank s.entries 4)
      ∧ rank s.entries 4 ≤ MAX_BANKS := by
  obtain ⟨s, hs⟩ := run_completes exact_threshold 4 0 example_file (by decide)
  exact ⟨s, hs, (bank_overflow exact_threshold 4 0 example_file s hs).1,
    le_trans (rank_le _ _) (by decide)⟩

/-- C9 as stated fails: with four entries the file `short_file` holds five
samples, fewer than `4 * 3 / 2 = 6`, and `run_exp` returns on it (pass 0
claims index 2, whose row is then never read). -/
theorem short_stream_counterexample :
    short_file.length < 4 * (4 - 1) / 2
      ∧ is_done (run_exp exact_threshold 4 (start_state 4 0 short_file)) = true := by
  refine ⟨by decide, ?_⟩
  simp [run_exp, run_loop, List.range_succ, start_state, init_entries_apply, init_entry,
    master_pass, row_indices, read_times, find_read_time_from_file, short_file, classify,
    zero_entry, is_done, List.range', Function.update_apply]
  norm_num [exact_threshold, exact_threshold_pct, running_threshold, running_avg,
    OUTLIER_PERCENTAGE]

/-- C9 amended: `run_exp` aborts on every file with fewer than `n - 1`
samples and returns on every file with at least `n * (n - 1) / 2`; and when
it returns on a file, it has read `n - (i + 1)` samples for each index `i`
that was not associated at its turn, at most `n * (n - 1) / 2` in all, it
aborts on every initial part of that file shorter than what it read, and it
returns, with the same table and the same `stderr`, on every initial part
that holds at least what it read. -/
theorem short_stream_amended (thr : Int → Nat → ℚ) (n phy : Nat) (fp : List time_record) :
    (fp.length < n - 1 → is_abort (run_exp thr n (start_state n phy fp)) = true)
    ∧ (∀ s, run_exp thr n (start_state n phy fp) = .done s →
        fp.length - s.time_fp.length = consumed n s.entries n
        ∧ consumed n s.entries n ≤ fp.length
        ∧ consumed n s.entries n ≤ n * (n - 1) / 2
        ∧ ∀ q, q < consumed n s.entries n →
            is_abort (run_exp thr n (start_state n phy (fp.take q))) = true)
    ∧ (n * (n - 1) / 2 ≤ fp.length → ∃ s, run_exp thr n (start_state n phy fp) = .done s)
    ∧ (∀ s, run_exp thr n (start_state n phy fp) = .done s →
        ∀ q, consumed n s.entries n ≤ q →
          ∃ s1, run_exp thr n (start_state n phy (fp.take q)) = .done s1
            ∧ s1.entries = s.entries ∧ s1.err = s.err) := by
  refine ⟨run_exp_short, ?_, run_completes thr n phy fp, ?_⟩
  · intro s h
    obtain ⟨h1, h2⟩ := run_done_consumed h
    have h3 : fp.length - s.time_fp.length = consumed n s.entries n := by
      rw [h1, List.length_drop]; omega
    refine ⟨h3, h2, ?_, ?_⟩
    · rw [← pairs_below_all]
      exact consumed_le_pairs n s.entries n
    · intro q hq
      exact run_exp_take h q (by omega)
  · intro s h q hq
    obtain ⟨s1, g1, g2, g3, _⟩ := run_exp_keep h q hq
    exact ⟨s1, g1, g2, g3⟩

theorem short_stream_amended_witness :
    is_abort (run_exp exact_threshold 4 (start_state 4 0 (short_file.take 2))) = true
    ∧ ∃ s, run_exp exact_threshold 4 (start_state 4 0 padded_file) = .done s
        ∧ consumed 4 s.entries 4 = 5
        ∧ ∃ s1, run_exp exact_threshold 4 (start_state 4 0 short_file) = .done s1
            ∧ s1.entries = s.entries ∧ s1.err = s.err := by
  have T := short_stream_amended exact_threshold 4 0 padded_file
  refine ⟨(short_stream_amended exact_threshold 4 0 (short_file.take 2)).1 (by decide), ?_⟩
  obtain ⟨s, hs⟩ := T.2.2.1 (by decide)
  have hc := padded_file_consumed s hs
  have hk := T.2.2.2 s hs 5 (by rw [hc])
  exact ⟨s, hs, hc, hk⟩
/-- C10 as stated fails: `aligned_file` lists the six pairs of four entries
in nested order; pass 0 claims index 1, the turn of index 1 reads nothing,
and the pass of index 2 then stores in `avgs[3]` the sample 7 of the line of
the pair (1,2), not the sample 9 that the file holds for the pair (2,3). -/
theorem stream_alignment_counterexample :
    aligned_file.length = 4 * (4 - 1) / 2
      ∧ aligned_file.getD (pair_index 4 2 3) ⟨0, 0, 0⟩ = ⟨4096, 6144, 9⟩
      ∧ ∃ s3, run_loop exact_threshold 4 (List.range 3) (start_state 4 0 aligned_file)
            = .done s3
          ∧ (s3.entries 2).associated = false ∧ s3.avgs 3 = 7 := by
  refine ⟨by decide, by decide, ?_⟩
  have key : ∀ s3, run_loop exact_threshold 4 (List.range 3) (start_state 4 0 aligned_file)
      = .done s3 → (s3.entries 2).associated = false ∧ s3.avgs 3 = 7 := by
    intro s3 h
    simp [run_loop, List.range_succ, start_state, init_entries_apply, init_entry,
      master_pass, row_indices, read_times, find_read_time_from_file, aligned_file, classify,
      zero_entry, List.range', Function.update_apply] at h
    norm_num [exact_threshold, exact_threshold_pct, running_threshold, running_avg,
      OUTLIER_PERCENTAGE] at h
    rw [← h]
    simp
  obtain ⟨s3, hs3⟩ := run_prefix_completes exact_threshold (start_state 4 0 aligned_file)
    (wf_init 4 0 0) (by rw [pairs_below_all]; decide) 3 (by decide)
  exact ⟨s3, hs3, key s3 hs3⟩

/-- C10 amended: the pass of a non-associated index `i` stores in `avgs[j]`,
for every `j` in `i+1 .. n-1` whatever the state of `j`, the sample of line
`c + (j - (i+1))` of the file, where `c` is the number of samples read
before (`n - (m+1)` for each non-associated `m < i`); `j` enters the sibling
list of `i` exactly when that value is at or above the threshold and `j` is
not associated; and that line is the line of the pair `(i, j)` of a file in
nested order when no index below `i` is associated. -/
theorem stream_alignment_amended (thr : Int → Nat → ℚ) (n phy : Nat)
    (fp : List time_record) (i : Nat) (sk s1 : exp_state)
    (hpre : run_loop thr n (List.range i) (start_state n phy fp) = .done sk)
    (hna : (sk.entries i).associated = false)
    (hpass : master_pass thr n i sk = .done s1) :
    (∀ j, i < j → j < n →
        s1.avgs j = (fp.getD (consumed n sk.entries i + (j - (i + 1))) ⟨0, 0, 0⟩).c
        ∧ consumed n sk.entries i + (j - (i + 1)) < fp.length
        ∧ ((∃ t, t < (s1.entries i).num_sibling ∧ (s1.entries i).siblings t = some j)
            ↔ (pass_threshold thr n i sk.time_fp ≤ (s1.avgs j : ℚ)
                ∧ (sk.entries j).associated = false)))
    ∧ ((∀ m, m < i → (sk.entries m).associated = false) →
        ∀ j, consumed n sk.entries i + (j - (i + 1)) = pair_index n i j) := by
  have hw0 : wf n 0 (start_state n phy fp).entries := wf_init n 0 phy
  have hwk := run_prefix_wf hw0 i hpre
  have hpost := master_pass_done hna (wf_backrefs_set hwk) hpass
  obtain ⟨hfp, hle⟩ := run_prefix_fp hw0 i sk hpre
  have hfp1 : sk.time_fp = fp.drop (consumed n sk.entries i) := hfp
  refine ⟨?_, ?_⟩
  · intro j h1 h2
    have havg : s1.avgs j = row_sample sk.time_fp i j := hpost.avgs j h1 h2
    refine ⟨?_, ?_, ?_⟩
    · rw [havg, hfp1, row_sample_drop]
    · have hen := hpost.enough
      rw [hfp1, List.length_drop] at hen
      have hle1 : consumed n sk.entries i ≤ fp.length := hle
      omega
    · rw [pass_sibling_iff hpost, mem_pass_claimed, havg]
      constructor
      · rintro ⟨_, h⟩; exact h
      · intro h; exact ⟨⟨h1, h2⟩, h⟩
  · intro hall j
    rw [consumed_all_masters n sk.entries i hall]
    rfl

theorem stream_alignment_amended_witness :
    ∃ s1, master_pass exact_threshold 4 0 (start_state 4 0 aligned_file) = .done s1
      ∧ ∀ j, 0 < j → j < 4 →
          s1.avgs j = (aligned_file.getD (pair_index 4 0 j) ⟨0, 0, 0⟩).c := by
  have hw : wf 4 0 (start_state 4 0 aligned_file).entries := wf_init 4 0 0
  have hna : ((start_state 4 0 aligned_file).entries 0).associated = false :=
    (init_entries_fresh 4 0 0 0).1
  obtain ⟨s1, h1, _⟩ := master_pass_post exact_threshold 4 0 (start_state 4 0 aligned_file)
    hna (by decide) (wf_backrefs_set hw)
  have h := stream_alignment_amended exact_threshold 4 0 aligned_file 0
    (start_state 4 0 aligned_file) s1 rfl hna h1
  refine ⟨s1, h1, ?_⟩
  intro j hj1 hj2
  rw [← h.2 (by intro m hm; omega) j]
  exact (h.1 j hj1 hj2).1

/-- C11 as stated fails: on `mono_file` index 1 is not associated in the run
with percentage 30 and in the run with percentage 40, and its sibling list
has no entry with 30 and one entry with 40 (with 30 index 3 is claimed by
index 0 before, with 40 it is still free when the pass of index 1 flags
it); and on `negative_file`, whose first row has a negative sum, index 0 has
one sibling with percentage 0 and two with percentage 30. -/
theorem threshold_monotone_counterexample :
    (∃ s1 s2, run_exp (exact_threshold_pct 30) 4 (start_state 4 0 mono_file) = .done s1
      ∧ run_exp (exact_threshold_pct 40) 4 (start_state 4 0 mono_file) = .done s2
      ∧ (s1.entries 1).associated = false ∧ (s2.entries 1).associated = false
      ∧ (s1.entries 1).num_sibling = 0 ∧ (s2.entries 1).num_sibling = 1)
    ∧ (∃ s1 s2, run_exp (exact_threshold_pct 0) 3 (start_state 3 0 negative_file) = .done s1
      ∧ run_exp (exact_threshold_pct 30) 3 (start_state 3 0 negative_file) = .done s2
      ∧ (s1.entries 0).associated = false ∧ (s2.entries 0).associated = false
      ∧ (s1.entries 0).num_sibling = 1 ∧ (s2.entries 0).num_sibling = 2) := by
  have key1 : ∀ s, run_exp (exact_threshold_pct 30) 4 (start_state 4 0 mono_file) = .done s →
      (s.entries 1).associated = false ∧ (s.entries 1).num_sibling = 0 := by
    intro s h
    simp [run_exp, run_loop, List.range_succ, start_state, init_entries_apply, init_entry,
      master_pass, row_indices, read_times, find_read_time_from_file, mono_file, classify,
      zero_entry, List.range', Function.update_apply] at h
    norm_num [exact_threshold_pct, running_threshold, running_avg] at h
    rw [← h]
    simp
  have key2 : ∀ s, run_exp (exact_threshold_pct 40) 4 (start_state 4 0 mono_file) = .done s →
      (s.entries 1).associated = false ∧ (s.entries 1).num_sibling = 1 := by
    intro s h
    simp [run_exp, run_loop, List.range_succ, start_state, init_entries_apply, init_entry,
      master_pass, row_indices, read_times, find_read_time_from_file, mono_file, classify,
      zero_entry, List.range', Function.update_apply] at h
    norm_num [exact_threshold_pct, running_threshold, running_avg] at h
    rw [← h]
    simp
  have key3 : ∀ s, run_exp (exact_threshold_pct 0) 3 (start_state 3 0 negative_file) = .done s →
      (s.entries 0).associated = false ∧ (s.entries 0).num_sibling = 1 := by
    intro s h
    simp [run_exp, run_loop, List.range_succ, start_state, init_entries_apply, init_entry,
      master_pass, row_indices, read_times, find_read_time_from_file, negative_file, classify,
      zero_entry, List.range', Function.update_apply] at h
    norm_num [exact_threshold_pct, running_threshold, running_avg] at h
    rw [← h]
    simp
  have key4 : ∀ s, run_exp (exact_threshold_pct 30) 3 (start_state 3 0 negative_file) = .done s →
      (s.entries 0).associated = false ∧ (s.entries 0).num_sibling = 2 := by
    intro s h
    simp [run_exp, run_loop, List.range_succ, start_state, init_entries_apply, init_entry,
      master_pass, row_indices, read_times, find_read_time_from_file, negative_file, classify,
      zero_entry, List.range', Function.update_apply] at h
    norm_num [exact_threshold_pct, running_threshold, running_avg] at h
    rw [← h]
    simp
  obtain ⟨s1, h1⟩ := run_completes (exact_threshold_pct 30) 4 0 mono_file (by decide)
  obtain ⟨s2, h2⟩ := run_completes (exact_threshold_pct 40) 4 0 mono_file (by decide)
  obtain ⟨s3, h3⟩ := run_completes (exact_threshold_pct 0) 3 0 negative_file (by decide)
  obtain ⟨s4, h4⟩ := run_completes (exact_threshold_pct 30) 3 0 negative_file (by decide)
  exact ⟨⟨s1, s2, h1, h2, (key1 s1 h1).1, (key2 s2 h2).1, (key1 s1 h1).2, (key2 s2 h2).2⟩,
    ⟨s3, s4, h3, h4, (key3 s3 h3).1, (key4 s4 h4).1, (key3 s3 h3).2, (key4 s4 h4).2⟩⟩

/-- C11 amended: for percentages `p1 <= p2`, the pass of a non-associated
index `i` started from one and the same state, on a row whose sum is not
negative, gives `i` with `p2` a sibling list that is no longer than with
`p1` and holds only entries that the list with `p1` holds; in whole runs on
one file this applies to index 0. -/
theorem threshold_monotone_amended (n phy : Nat) (fp : List time_record) (p1 p2 : Nat)
    (hp : p1 ≤ p2) :
    (∀ (thr0 : Int → Nat → ℚ) i sk,
        run_loop thr0 n (List.range i) (start_state n phy fp) = .done sk →
        (sk.entries i).associated = false → n - (i + 1) ≤ sk.time_fp.length →
        0 ≤ row_sum (n - (i + 1)) sk.time_fp →
        ∃ s1 s2, master_pass (exact_threshold_pct p1) n i sk = .done s1
          ∧ master_pass (exact_threshold_pct p2) n i sk = .done s2
          ∧ (s2.entries i).num_sibling ≤ (s1.entries i).num_sibling
          ∧ ∀ j, (∃ t, t < (s2.entries i).num_sibling ∧ (s2.entries i).siblings t = some j) →
              ∃ t, t < (s1.entries i).num_sibling ∧ (s1.entries i).siblings t = some j)
    ∧ (∀ s1 s2, run_exp (exact_threshold_pct p1) n (start_state n phy fp) = .done s1 →
        run_exp (exact_threshold_pct p2) n (start_state n phy fp) = .done s2 →
        0 ≤ row_sum (n - 1) fp →
        (s2.entries 0).num_sibling ≤ (s1.entries 0).num_sibling) := by
  have hw0 : wf n 0 (start_state n phy fp).entries := wf_init n 0 phy
  have pass_part : ∀ (sk : exp_state), backrefs_set sk.entries →
      ∀ i, (sk.entries i).associated = false → n - (i + 1) ≤ sk.time_fp.length →
      0 ≤ row_sum (n - (i + 1)) sk.time_fp →
      ∃ s1 s2, (master_pass (exact_threshold_pct p1) n i sk = .done s1
          ∧ pass_post (exact_threshold_pct p1) n i sk s1)
        ∧ (master_pass (exact_threshold_pct p2) n i sk = .done s2
          ∧ pass_post (exact_threshold_pct p2) n i sk s2)
        ∧ (s2.entries i).num_sibling ≤ (s1.entries i).num_sibling
        ∧ ∀ j, (∃ t, t < (s2.entries i).num_sibling ∧ (s2.entries i).siblings t = some j) →
            ∃ t, t < (s1.entries i).num_sibling ∧ (s1.entries i).siblings t = some j := by
    intro sk hb i hna hlen hsum
    obtain ⟨s1, h1, q1⟩ := master_pass_post (exact_threshold_pct p1) n i sk hna hlen hb
    obtain ⟨s2, h2, q2⟩ := master_pass_post (exact_threshold_pct p2) n i sk hna hlen hb
    have hsub := pass_claimed_mono hp n i sk hsum
    refine ⟨s1, s2, ⟨h1, q1⟩, ⟨h2, q2⟩, ?_, ?_⟩
    · have e1 := core_num q1.master
      have e2 := core_num q2.master
      rw [e1, e2]
      exact hsub.length_le
    · intro j hj
      rw [pass_sibling_iff q2] at hj
      rw [pass_sibling_iff q1]
      exact hsub.subset hj
  refine ⟨?_, ?_⟩
  · intro thr0 i sk hpre hna hlen hsum
    obtain ⟨s1, s2, ⟨h1, _⟩, ⟨h2, _⟩, h3, h4⟩ :=
      pass_part sk (wf_backrefs_set (run_prefix_wf hw0 i hpre)) i hna hlen hsum
    exact ⟨s1, s2, h1, h2, h3, h4⟩
  · intro s1 s2 hr1 hr2 hsum
    by_cases hn : n = 0
    · subst hn
      simp only [run_exp, List.range_zero, run_loop] at hr1 hr2
      cases hr1
      cases hr2
      exact le_refl _
    · obtain ⟨a1, g1, _⟩ := run_split hr1 1 (by omega)
      obtain ⟨a2, g2, _⟩ := run_split hr2 1 (by omega)
      have f1 := run_prefix_below hw0 (by omega : 1 ≤ n) g1 hr1 0 (by omega)
      have f2 := run_prefix_below hw0 (by omega : 1 ≤ n) g2 hr2 0 (by omega)
      rw [f1, f2]
      have hna : ((start_state n phy fp).entries 0).associated = false :=
        (init_entries_fresh n 0 phy 0).1
      have t1 := turn_done hw0 g1
      have t2 := turn_done hw0 g2
      rcases t1 with ⟨ha, _⟩ | ⟨_, q1⟩
      · rw [hna] at ha; exact absurd ha (by simp)
      rcases t2 with ⟨ha, _⟩ | ⟨_, q2⟩
      · rw [hna] at ha; exact absurd ha (by simp)
      have e1 := core_num q1.master
      have e2 := core_num q2.master
      rw [e1, e2]
      exact (pass_claimed_mono hp n 0 (start_state n phy fp) hsum).length_le

theorem threshold_monotone_amended_witness :
    ∃ s1 s2, run_exp (exact_threshold_pct 30) 4 (start_state 4 0 mono_file) = .done s1
      ∧ run_exp (exact_threshold_pct 40) 4 (start_state 4 0 mono_file) = .done s2
      ∧ (s2.entries 0).num_sibling ≤ (s1.entries 0).num_sibling := by
  obtain ⟨s1, h1⟩ := run_completes (exact_threshold_pct 30) 4 0 mono_file (by decide)
  obtain ⟨s2, h2⟩ := run_completes (exact_threshold_pct 40) 4 0 mono_file (by decide)
  exact ⟨s1, s2, h1, h2,
    (threshold_monotone_amended 4 0 mono_file 30 40 (by decide)).2 s1 s2 h1 h2 (by decide)⟩

/-- C12, boundary inclusivity: in the pass of a non-associated index `i`, a
candidate `j` that is not associated and whose sample equals the threshold
the pass computed is appended to the sibling list of `i` and marked
associated with `siblings[0]` pointing to `i`; this holds for every way of
computing the threshold, and in exact arithmetic the threshold is
`avg * (1 + 30/100)`. -/
theorem boundary_inclusive (n phy : Nat) (fp : List time_record) (i j : Nat)
    (hij : i < j) (hjn : j < n) :
    (∀ (thr : Int → Nat → ℚ) sk s1,
        run_loop thr n (List.range i) (start_state n phy fp) = .done sk →
        (sk.entries i).associated = false → master_pass thr n i sk = .done s1 →
        (s1.avgs j : ℚ) = pass_threshold thr n i sk.time_fp →
        (sk.entries j).associated = false →
        (∃ t, t < (s1.entries i).num_sibling ∧ (s1.entries i).siblings t = some j)
          ∧ (s1.entries j).associated = true ∧ (s1.entries j).siblings 0 = some i)
    ∧ (∀ sk s1,
        run_loop exact_threshold n (List.range i) (start_state n phy fp) = .done sk →
        (sk.entries i).associated = false → master_pass exact_threshold n i sk = .done s1 →
        (s1.avgs j : ℚ) = spec_threshold (spec_avg n i s1.avgs) →
        (sk.entries j).associated = false →
        (∃ t, t < (s1.entries i).num_sibling ∧ (s1.entries i).siblings t = some j)
          ∧ (s1.entries j).associated = true ∧ (s1.entries j).siblings 0 = some i) := by
  have hw0 : wf n 0 (start_state n phy fp).entries := wf_init n 0 phy
  have gen : ∀ (thr : Int → Nat → ℚ) sk s1,
      run_loop thr n (List.range i) (start_state n phy fp) = .done sk →
      (sk.entries i).associated = false → master_pass thr n i sk = .done s1 →
      (s1.avgs j : ℚ) = pass_threshold thr n i sk.time_fp →
      (sk.entries j).associated = false →
      (∃ t, t < (s1.entries i).num_sibling ∧ (s1.entries i).siblings t = some j)
        ∧ (s1.entries j).associated = true ∧ (s1.entries j).siblings 0 = some i := by
    intro thr sk s1 hpre hna hpass heq hja
    have hpost := master_pass_done hna (wf_backrefs_set (run_prefix_wf hw0 i hpre)) hpass
    have hmem : j ∈ pass_claimed thr n i sk := by
      rw [mem_pass_claimed]
      refine ⟨⟨hij, hjn⟩, ?_, hja⟩
      rw [← hpost.avgs j hij hjn, heq]
    exact pass_claims hpost hmem
  refine ⟨gen, ?_⟩
  intro sk s1 hpre hna hpass heq hja
  have hpost := master_pass_done hna (wf_backrefs_set (run_prefix_wf hw0 i hpre)) hpass
  exact gen exact_threshold sk s1 hpre hna hpass (by rw [heq, pass_threshold_spec hpost]) hja

theorem boundary_inclusive_witness :
    ∃ s1, master_pass exact_threshold 3 0 (start_state 3 0 boundary_file) = .done s1
      ∧ (s1.avgs 2 : ℚ) = spec_threshold (spec_avg 3 0 s1.avgs)
      ∧ (∃ t, t < (s1.entries 0).num_sibling ∧ (s1.entries 0).siblings t = some 2)
      ∧ (s1.entries 2).associated = true ∧ (s1.entries 2).siblings 0 = some 0 := by
  have hna : ((start_state 3 0 boundary_file).entries 0).associated = false :=
    (init_entries_fresh 3 0 0 0).1
  have hna2 : ((start_state 3 0 boundary_file).entries 2).associated = false :=
    (init_entries_fresh 3 0 0 2).1
  obtain ⟨s1, h1, hpost⟩ := master_pass_post exact_threshold 3 0
    (start_state 3 0 boundary_file) hna (by decide) (wf_backrefs_set (wf_init 3 0 0))
  have a1 : s1.avgs 1 = 7 := by rw [hpost.avgs 1 (by decide) (by decide)]; rfl
  have a2 : s1.avgs 2 = 13 := by rw [hpost.avgs 2 (by decide) (by decide)]; rfl
  have heq : (s1.avgs 2 : ℚ) = spec_threshold (spec_avg 3 0 s1.avgs) := by
    norm_num [spec_threshold, spec_avg, row_indices, List.range', a1, a2]
  exact ⟨s1, h1, heq,
    (boundary_inclusive 3 0 boundary_file 0 2 (by decide) (by decide)).2
      (start_state 3 0 boundary_file) s1 rfl hna h1 heq hna2⟩

/-- C13 as stated fails: with the open samples `t(1,3) = 10` and
`t(2,3) = 7`, the pass of index 1 averages both samples of its row, 50 and
10, its threshold is 39, and it claims A2: A2 ends associated to A1 with
bank 1, not as a master with bank 2. -/
theorem worked_example_counterexample :
    ∃ s ms, run_exp exact_threshold 4 (start_state 4 0 (scenario_file 10 7)) = .done s
      ∧ check_mapping 4 (mapping_start s) = .done ms
      ∧ (s.entries 2).associated = true ∧ (s.entries 2).siblings 0 = some 1
      ∧ (ms.entries 1).bank = 1 ∧ (ms.entries 2).bank = 1 := by
  obtain ⟨s, hs⟩ := run_completes exact_threshold 4 0 (scenario_file 10 7) (by decide)
  have hw := run_done_wf hs
  obtain ⟨f0, f1, f2, f3, _, _⟩ := scenario_low s hs
  obtain ⟨ms, hms, _⟩ := check_mapping_done hw (le_trans (rank_le _ _) (by decide))
  obtain ⟨_, _, hbank, _⟩ := check_mapping_result hw hms
  have r1 : rank s.entries 1 = 1 := by
    rw [rank_succ, f0]; simp [rank]
  have m1 : master_of s.entries 1 = 1 := master_of_master f1
  have m2 : master_of s.entries 2 = 1 := by simp [master_of, f2, f3]
  refine ⟨s, ms, hs, hms, f2, f3, ?_, ?_⟩
  · rw [hbank 1 (by decide), m1, r1]; rfl
  · rw [hbank 2 (by decide), m2, r1]; rfl

/-- C13 amended: for `N = 4`, the fixed samples of the scenario, every
`t(1,3) >= 27` and every `t(2,3)`: pass 0 computes `avg = 700/3` and
`threshold = 910/3` and claims exactly A3; pass 1, which averages `t(1,2)`
and `t(1,3)`, claims nothing, so A1 is a master without siblings, and so is
A2; and `check_mapping` gives bank 0 to A0 and A3, bank 1 to A1 and bank 2
to A2. -/
theorem worked_example_amended (x y : Int) (hx : 27 ≤ x) :
    ∃ s1 s ms,
      master_pass exact_threshold 4 0 (start_state 4 0 (scenario_file x y)) = .done s1
      ∧ spec_avg 4 0 s1.avgs = 700 / 3
      ∧ spec_threshold (spec_avg 4 0 s1.avgs) = 910 / 3
      ∧ pass_claimed exact_threshold 4 0 (start_state 4 0 (scenario_file x y)) = [3]
      ∧ run_exp exact_threshold 4 (start_state 4 0 (scenario_file x y)) = .done s
      ∧ (s.entries 0).associated = false ∧ (s.entries 0).num_sibling = 1
      ∧ (s.entries 0).siblings 0 = some 3 ∧ (s.entries 3).associated = true
      ∧ (s.entries 1).associated = false ∧ (s.entries 1).num_sibling = 0
      ∧ (s.entries 2).associated = false ∧ (s.entries 2).num_sibling = 0
      ∧ check_mapping 4 (mapping_start s) = .done ms
      ∧ (ms.entries 0).bank = 0 ∧ (ms.entries 3).bank = 0
      ∧ (ms.entries 1).bank = 1 ∧ (ms.entries 2).bank = 2 := by
  have hna : ((start_state 4 0 (scenario_file x y)).entries 0).associated = false :=
    (init_entries_fresh 4 0 0 0).1
  obtain ⟨s1, h1, hpost⟩ := master_pass_post exact_threshold 4 0
    (start_state 4 0 (scenario_file x y)) hna (by show 3 ≤ 6; decide)
    (wf_backrefs_set (wf_init 4 0 0))
  have a1 : s1.avgs 1 = 100 := by rw [hpost.avgs 1 (by decide) (by decide)]; rfl
  have a2 : s1.avgs 2 = 100 := by rw [hpost.avgs 2 (by decide) (by decide)]; rfl
  have a3 : s1.avgs 3 = 500 := by rw [hpost.avgs 3 (by decide) (by decide)]; rfl
  have havg : spec_avg 4 0 s1.avgs = 700 / 3 := by
    norm_num [spec_avg, row_indices, List.range', a1, a2, a3]
  have hthr : spec_threshold (spec_avg 4 0 s1.avgs) = 910 / 3 := by
    rw [havg]; norm_num [spec_threshold]
  obtain ⟨s, hs⟩ := run_completes exact_threshold 4 0 (scenario_file x y)
    (by show 6 ≤ 6; decide)
  have hw := run_done_wf hs
  obtain ⟨f0, f1, f2, f3, f4, f5, f6, f7, f8⟩ := scenario_final x y hx s hs
  obtain ⟨ms, hms, _⟩ := check_mapping_done hw (le_trans (rank_le _ _) (by decide))
  obtain ⟨_, _, hbank, _⟩ := check_mapping_result hw hms
  have r0 : rank s.entries 0 = 0 := by simp [rank]
  have r1 : rank s.entries 1 = 1 := by rw [rank_succ, f0, r0]; simp
  have r2 : rank s.entries 2 = 2 := by rw [rank_succ, f1, r1]; simp
  have m0 : master_of s.entries 0 = 0 := master_of_master f0
  have m1 : master_of s.entries 1 = 1 := master_of_master f1
  have m2 : master_of s.entries 2 = 2 := master_of_master f2
  have m3 : master_of s.entries 3 = 0 := by simp [master_of, f3, f4]
  refine ⟨s1, s, ms, h1, havg, hthr, scenario_claimed x y, hs, f0, f5, f6, f3, f1, f7, f2, f8,
    hms, ?_, ?_, ?_, ?_⟩
  · rw [hbank 0 (by decide), m0, r0]; rfl
  · rw [hbank 3 (by decide), m3, r0]; rfl
  · rw [hbank 1 (by decide), m1, r1]; rfl
  · rw [hbank 2 (by decide), m2, r2]; rfl

theorem worked_example_amended_witness :
    ∃ s ms, run_exp exact_threshold 4 (start_state 4 0 (scenario_file 60 7)) = .done s
      ∧ check_mapping 4 (mapping_start s) = .done ms
      ∧ (ms.entries 0).bank = 0 ∧ (ms.entries 3).bank = 0
      ∧ (ms.entries 1).bank = 1 ∧ (ms.entries 2).bank = 2 := by
  obtain ⟨_, s, ms, _, _, _, _, h5, _, _, _, _, _, _, _, _, h14, b0, b3, b1, b2⟩ :=
    worked_example_amended 60 7 (by decide)
  exact ⟨s, ms, h5, h14, b0, b3, b1, b2⟩

/-- C14, report format and order: when `check_mapping` returns on the table
of `run_exp`, `stdout` is, for each entry that is not associated in
ascending index order, the line `Bank <id>`, the address of the entry and
the address of each entry of its sibling list in slot order (`report_out`);
the bank ids on it are `0, 1, 2, ..` in this order; the entries whose
address is printed are a permutation of `0 .. n-1`, so each entry is printed
exactly once; and the printed addresses are the `phy_start + x * 2048` of
`init_entries`, pairwise different when they do not wrap around `2^64`. -/
theorem report_format (thr : Int → Nat → ℚ) (n phy : Nat) (fp : List time_record)
    (s : exp_state) (ms : map_state)
    (hrun : run_exp thr n (start_state n phy fp) = .done s)
    (hmap : check_mapping n (mapping_start s) = .done ms) :
    ms.out = report_out ms.entries (List.range n)
    ∧ ms.out.filterMap line_bank = (List.range (rank ms.entries n)).map (fun q : Nat => (q : Int))
    ∧ ms.out.filterMap line_addr
        = (report_indices ms.entries (List.range n)).map (fun x => (ms.entries x).phy_addr)
    ∧ (report_indices ms.entries (List.range n)).Perm (List.range n)
    ∧ (∀ x, x < n → (ms.entries x).phy_addr = (phy + x * MIN_BANK_SIZE) % 2 ^ 64)
    ∧ (n * MIN_BANK_SIZE ≤ 2 ^ 64 → (ms.out.filterMap line_addr).Nodup) := by
  have hw := run_done_wf hrun
  obtain ⟨hr, hfr, hbank, _⟩ := check_mapping_result hw hmap
  obtain ⟨ms1, h1, _, hout, _⟩ := check_mapping_done hw hr
  rw [hmap] at h1
  cases h1
  have hassoc : ∀ x, (ms.entries x).associated = (s.entries x).associated :=
    fun x => unbank_assoc (hfr x)
  have hperm : (report_indices ms.entries (List.range n)).Perm (List.range n) := by
    rw [report_indices_congr s.entries ms.entries _ hfr]
    exact report_indices_perm hw
  have hphy : ∀ x, x < n → (ms.entries x).phy_addr = (phy + x * MIN_BANK_SIZE) % 2 ^ 64 := by
    intro x hx
    rw [unbank_phy (hfr x), (run_done_frame hrun x).1, init_entries_apply, if_pos hx]
    rfl
  have haddr : ms.out.filterMap line_addr
      = (report_indices ms.entries (List.range n)).map (fun x => (ms.entries x).phy_addr) := by
    rw [hout]
    exact report_addr_lines ms.entries (List.range n)
  refine ⟨hout, ?_, haddr, hperm, hphy, ?_⟩
  · rw [hout, report_bank_lines]
    have hmap1 : ((List.range n).filter (fun i => !(ms.entries i).associated)).map
        (fun i => (ms.entries i).bank)
        = (((List.range n).filter (fun i => !(ms.entries i).associated)).map
            (rank ms.entries)).map (fun q : Nat => (q : Int)) := by
      rw [List.map_map]
      apply List.map_congr_left
      intro m hm
      rw [List.mem_filter, List.mem_range] at hm
      have hma : (s.entries m).associated = false := by
        rw [← hassoc m]
        simpa using hm.2
      rw [hbank m hm.1, master_of_master hma, Function.comp_apply,
        rank_congr s.entries ms.entries hassoc]
    rw [hmap1, masters_rank]
  · intro hn
    rw [haddr]
    apply List.Nodup.map_on _ (hperm.nodup_iff.mpr (List.nodup_range n))
    intro x hx y hy heq
    have hx1 : x < n := List.mem_range.mp (hperm.mem_iff.mp hx)
    have hy1 : y < n := List.mem_range.mp (hperm.mem_iff.mp hy)
    rw [hphy x hx1, hphy y hy1] at heq
    have hS : MIN_BANK_SIZE = 2048 := by decide
    rw [hS] at heq hn
    omega

theorem report_format_witness :
    ∃ s ms, run_exp exact_threshold 4 (start_state 4 0 example_file) = .done s
      ∧ check_mapping 4 (mapping_start s) = .done ms
      ∧ ms.out.filterMap line_bank = (List.range (rank ms.entries 4)).map (fun q : Nat => (q : Int))
      ∧ (ms.out.filterMap line_addr).Nodup := by
  obtain ⟨s, hs⟩ := run_completes exact_threshold 4 0 example_file (by decide)
  obtain ⟨ms, hms, _⟩ := check_mapping_done (run_done_wf hs)
    (le_trans (rank_le _ _) (by decide))
  have h := report_format exact_threshold 4 0 example_file s ms hs hms
  exact ⟨s, ms, hs, hms, h.2.1, h.2.2.2.2.2 (by decide)⟩

/-- C15, initialisation: after `init_entries`, entry `i < n` has
`virt_addr = virt_start + i * MIN_BANK_SIZE` and
`phy_addr = phy_start + i * MIN_BANK_SIZE` modulo `2^64` with
`MIN_BANK_SIZE = 2048`, `bank = -1`, `associated = false`, `num_sibling = 0`
and every sibling slot `NULL`; the physical address of a later entry `j` is
that of `i` plus `(j - i) * MIN_BANK_SIZE` modulo `2^64`, and exactly that
when the addresses do not wrap. -/
theorem initialisation (n virt_start phy_start i : Nat) (hi : i < n) :
    (init_entries n virt_start phy_start i).virt_addr
        = (virt_start + i * MIN_BANK_SIZE) % 2 ^ 64
    ∧ (init_entries n virt_start phy_start i).phy_addr
        = (phy_start + i * MIN_BANK_SIZE) % 2 ^ 64
    ∧ MIN_BANK_SIZE = 2048
    ∧ (init_entries n virt_start phy_start i).bank = -1
    ∧ (init_entries n virt_start phy_start i).associated = false
    ∧ (init_entries n virt_start phy_start i).num_sibling = 0
    ∧ (∀ t, (init_entries n virt_start phy_start i).siblings t = none)
    ∧ (∀ j, i ≤ j → j < n →
        (init_entries n virt_start phy_start j).phy_addr
          = ((init_entries n virt_start phy_start i).phy_addr
              + (j - i) * MIN_BANK_SIZE) % 2 ^ 64
        ∧ (phy_start + j * MIN_BANK_SIZE < 2 ^ 64 →
            (init_entries n virt_start phy_start j).phy_addr
              - (init_entries n virt_start phy_start i).phy_addr
              = (j - i) * MIN_BANK_SIZE)) := by
  have hS : MIN_BANK_SIZE = 2048 := by decide
  rw [init_entries_apply, if_pos hi]
  refine ⟨rfl, rfl, hS, rfl, rfl, rfl, fun _ => rfl, ?_⟩
  intro j hij hj
  rw [init_entries_apply, if_pos hj]
  simp only [init_entry, hS]
  constructor
  · omega
  · intro h
    omega

theorem initialisation_witness :
    (init_entries 4 0 4096 3).phy_addr = (4096 + 3 * MIN_BANK_SIZE) % 2 ^ 64
      ∧ (init_entries 4 0 4096 3).bank = -1 := by
  have h := initialisation 4 0 4096 3 (by decide)
  exact ⟨h.2.1, h.2.2.2.1⟩

/-- C17, number of samples consumed: when `run_exp` returns it has read
exactly `consumed`, the sum of `n - (i + 1)` over the indices `i` that are
not associated, and the flag of `i` at its turn is its final flag; the turn
of an associated index leaves the state, so the file, as it is; the pass of a
non-associated index reads exactly `n - (i + 1)` samples; the total is at
most `n * (n - 1) / 2`, so `run_exp` returns on every file of at least that
many samples; and the last index, when it is not associated, reads nothing
and has an empty sibling list. -/
theorem samples_consumed (thr : Int → Nat → ℚ) (n phy : Nat) (fp : List time_record) :
    (∀ s, run_exp thr n (start_state n phy fp) = .done s →
        s.time_fp = fp.drop (consumed n s.entries n)
        ∧ consumed n s.entries n ≤ fp.length
        ∧ consumed n s.entries n ≤ n * (n - 1) / 2
        ∧ (∀ i sk, i < n →
            run_loop thr n (List.range i) (start_state n phy fp) = .done sk →
            (sk.entries i).associated = (s.entries i).associated)
        ∧ (0 < n → (s.entries (n - 1)).associated = false →
            n - ((n - 1) + 1) = 0 ∧ (s.entries (n - 1)).num_sibling = 0))
    ∧ (∀ i sk, i < n →
        run_loop thr n (List.range i) (start_state n phy fp) = .done sk →
        ((sk.entries i).associated = true →
          run_loop thr n (List.range (i + 1)) (start_state n phy fp) = .done sk)
        ∧ ((sk.entries i).associated = false → ∀ sk1,
          run_loop thr n (List.range (i + 1)) (start_state n phy fp) = .done sk1 →
          n - (i + 1) ≤ sk.time_fp.length
            ∧ sk1.time_fp = sk.time_fp.drop (n - (i + 1))))
    ∧ (n * (n - 1) / 2 ≤ fp.length →
        ∃ s, run_exp thr n (start_state n phy fp) = .done s) := by
  have hw0 : wf n 0 (start_state n phy fp).entries := wf_init n 0 phy
  refine ⟨?_, ?_, run_completes thr n phy fp⟩
  · intro s hrun
    obtain ⟨h1, h2⟩ := run_done_consumed hrun
    refine ⟨h1, h2, ?_, ?_, ?_⟩
    · rw [← pairs_below_all]
      exact consumed_le_pairs n s.entries n
    · intro i sk hi hpre
      exact turn_flag_final hw0 hi hpre hrun
    · intro hn hna
      refine ⟨by omega, ?_⟩
      have := wf_num_le (run_done_wf hrun) hna
      omega
  · intro i sk _ hpre
    have hwk := run_prefix_wf hw0 i hpre
    refine ⟨?_, ?_⟩
    · intro ha
      rw [run_succ, hpre]
      simp only [run_loop]
      rw [if_pos ha]
    · intro hna sk1 h1
      rw [run_succ, hpre] at h1
      simp only [] at h1
      rcases turn_done hwk h1 with ⟨ha, _⟩ | ⟨_, hpost⟩
      · rw [hna] at ha; exact absurd ha (by simp)
      · exact ⟨hpost.enough, hpost.time_fp⟩

theorem samples_consumed_witness :
    ∃ s, run_exp exact_threshold 4 (start_state 4 0 example_file) = .done s
      ∧ s.time_fp = example_file.drop (consumed 4 s.entries 4) := by
  have h := samples_consumed exact_threshold 4 0 example_file
  obtain ⟨s, hs⟩ := h.2.2 (by decide)
  exact ⟨s, hs, (h.1 s hs).1⟩

/-- C18, sibling lists are ordered and bounded: in the state after any
number `k <= n` of turns, the sibling list of an entry `m` that is not
associated holds indices in strictly ascending order, all greater than `m`
and below `n`, and has at most `n - m - 1` of them; every slot of a sibling
array that is not `NULL` lies below `num_sibling`, hence below the capacity
`n`; so every reference `check_mapping` reads designates an entry below
`n`. -/
theorem sibling_lists_bounded (thr : Int → Nat → ℚ) (n phy : Nat) (fp : List time_record)
    (k : Nat) (sk : exp_state) (_hk : k ≤ n)
    (hpre : run_loop thr n (List.range k) (start_state n phy fp) = .done sk) :
    (∀ m, (sk.entries m).associated = false →
        (∀ t1 t2 j1 j2, t1 < t2 → t2 < (sk.entries m).num_sibling →
          (sk.entries m).siblings t1 = some j1 → (sk.entries m).siblings t2 = some j2 →
          j1 < j2)
        ∧ (∀ t, t < (sk.entries m).num_sibling →
            ∃ j, (sk.entries m).siblings t = some j ∧ m < j ∧ j < n)
        ∧ (sk.entries m).num_sibling ≤ n - m - 1)
    ∧ (∀ x t j, (sk.entries x).siblings t = some j →
        t < (sk.entries x).num_sibling ∧ t < n ∧ j < n) := by
  have hw0 : wf n 0 (start_state n phy fp).entries := wf_init n 0 phy
  have hw := run_prefix_wf hw0 k hpre
  have hnull := run_prefix_nulls hw0 (fun x t => (init_entries_fresh n 0 phy x).2.2 t) k sk hpre
  refine ⟨?_, ?_⟩
  · intro m hm
    refine ⟨hw.ascending m hm, ?_, wf_num_le hw hm⟩
    intro t ht
    obtain ⟨j, h1, h2, h3, _⟩ := hw.slots m hm t ht
    exact ⟨j, h1, h2, h3⟩
  · intro x t j hj
    have ht : t < (sk.entries x).num_sibling := by
      by_contra hge
      rw [hnull x t (by omega)] at hj
      cases hj
    by_cases hx : (sk.entries x).associated = true
    · obtain ⟨m, h1, _, h3, h4, h5, _, t1, h7, h8⟩ := hw.backref x hx
      obtain ⟨_, _, _, g4⟩ := master_of_slot hw h3 h7 h8
      have ht0 : t = 0 := by omega
      subst ht0
      rw [h4] at hj
      cases hj
      exact ⟨ht, by omega, by omega⟩
    · have hx1 : (sk.entries x).associated = false := by simpa using hx
      obtain ⟨j1, g1, g2, g3, _⟩ := hw.slots x hx1 t ht
      rw [hj] at g1
      cases g1
      have := wf_num_le hw hx1
      exact ⟨ht, by omega, g3⟩

theorem sibling_lists_bounded_witness :
    ∃ s, run_loop exact_threshold 4 (List.range 4) (start_state 4 0 example_file) = .done s
      ∧ (∀ x t j, (s.entries x).siblings t = some j →
          t < (s.entries x).num_sibling ∧ t < 4 ∧ j < 4) := by
  obtain ⟨s, hs⟩ := run_completes exact_threshold 4 0 example_file (by decide)
  exact ⟨s, hs,
    (sibling_lists_bounded exact_threshold 4 0 example_file 4 s (by decide) hs).2⟩

/-- C19, a master never claims everything when timings are positive: in the
pass of a non-associated index `i` with at least one candidate and a
positive row average (exact arithmetic), a candidate with the smallest
sample exists, is below the threshold and is in no slot of the sibling list
of `i`, which therefore has fewer than `n - i - 1` entries; consequently a
run on `n >= 2` entries and a file of positive samples ends with at least
two entries not associated; and a row whose samples are all zero puts every
candidate at or above the threshold, so every candidate that is not
associated is claimed. -/
theorem positive_timings (n phy : Nat) (fp : List time_record) :
    (∀ i sk s1,
        run_loop exact_threshold n (List.range i) (start_state n phy fp) = .done sk →
        (sk.entries i).associated = false → master_pass exact_threshold n i sk = .done s1 →
        i + 1 < n → 0 < spec_avg n i s1.avgs →
        (∃ j0, i < j0 ∧ j0 < n ∧ ∀ j, i < j → j < n → s1.avgs j0 ≤ s1.avgs j)
        ∧ (∀ j0, i < j0 → j0 < n → (∀ j, i < j → j < n → s1.avgs j0 ≤ s1.avgs j) →
            (s1.avgs j0 : ℚ) < spec_threshold (spec_avg n i s1.avgs)
            ∧ ∀ t, t < (s1.entries i).num_sibling → (s1.entries i).siblings t ≠ some j0)
        ∧ (s1.entries i).num_sibling < n - i - 1)
    ∧ (∀ s, 2 ≤ n → (∀ r ∈ fp, 0 < r.c) →
        run_exp exact_threshold n (start_state n phy fp) = .done s →
        2 ≤ rank s.entries n)
    ∧ (∀ i sk s1,
        run_loop exact_threshold n (List.range i) (start_state n phy fp) = .done sk →
        (sk.entries i).associated = false → master_pass exact_threshold n i sk = .done s1 →
        (∀ j, i < j → j < n → s1.avgs j = 0) →
        ∀ j, i < j → j < n →
          spec_threshold (spec_avg n i s1.avgs) ≤ (s1.avgs j : ℚ)
          ∧ ((sk.entries j).associated = false →
              ∃ t, t < (s1.entries i).num_sibling ∧ (s1.entries i).siblings t = some j)) := by
  have hw0 : wf n 0 (start_state n phy fp).entries := wf_init n 0 phy
  -- the smallest sample of a pass with positive average is not claimed
  have not_claimed : ∀ i (sk s1 : exp_state), pass_post exact_threshold n i sk s1 →
      0 < spec_avg n i s1.avgs → ∀ j0, i < j0 → j0 < n →
      (∀ j, i < j → j < n → s1.avgs j0 ≤ s1.avgs j) →
      (s1.avgs j0 : ℚ) < spec_threshold (spec_avg n i s1.avgs)
        ∧ j0 ∉ pass_claimed exact_threshold n i sk := by
    intro i sk s1 hpost hpos j0 h1 h2 hmin
    have hlt := min_below_threshold n i s1.avgs j0 ⟨h1, h2⟩ hmin hpos
    refine ⟨hlt, ?_⟩
    intro hmem
    have h := (mem_pass_claimed.mp hmem).2.1
    rw [pass_threshold_spec hpost, ← hpost.avgs j0 h1 h2] at h
    exact absurd hlt (not_lt.mpr h)
  refine ⟨?_, ?_, ?_⟩
  · intro i sk s1 hpre hna hpass hin hpos
    have hpost := master_pass_done hna (wf_backrefs_set (run_prefix_wf hw0 i hpre)) hpass
    obtain ⟨j0, e1, e2, e3⟩ := exists_row_min n i s1.avgs hin
    refine ⟨⟨j0, e1, e2, e3⟩, ?_, ?_⟩
    · intro j1 g1 g2 g3
      obtain ⟨hlt, hnot⟩ := not_claimed i sk s1 hpost hpos j1 g1 g2 g3
      refine ⟨hlt, ?_⟩
      intro t ht hjt
      exact hnot ((pass_sibling_iff hpost j1).mp ⟨t, ht, hjt⟩)
    · obtain ⟨_, hnot⟩ := not_claimed i sk s1 hpost hpos j0 e1 e2 e3
      have hnum := core_num hpost.master
      rw [hnum]
      have hlt : (pass_claimed exact_threshold n i sk).length < (row_indices n i).length := by
        unfold pass_claimed at hnot ⊢
        rw [List.length_filter_lt_length_iff_exists]
        refine ⟨j0, mem_row_indices.mpr ⟨e1, e2⟩, ?_⟩
        intro hp
        exact hnot (List.mem_filter.mpr ⟨mem_row_indices.mpr ⟨e1, e2⟩, hp⟩)
      rw [row_indices_length] at hlt
      exact hlt
  · intro s hn hfp hrun
    have hw := run_done_wf hrun
    obtain ⟨s1, g1, _⟩ := run_split hrun 1 (by omega)
    have hna : ((start_state n phy fp).entries 0).associated = false :=
      (init_entries_fresh n 0 phy 0).1
    have hpost : pass_post exact_threshold n 0 (start_state n phy fp) s1 := by
      rcases turn_done hw0 g1 with ⟨ha, _⟩ | ⟨_, q⟩
      · rw [hna] at ha; exact absurd ha (by simp)
      · exact q
    have hfrozen : s.entries 0 = s1.entries 0 :=
      run_prefix_below hw0 (by omega : 1 ≤ n) g1 hrun 0 (by omega)
    -- the row of index 0 has a positive average
    have hen : n - (0 + 1) ≤ fp.length := hpost.enough
    have havgpos : 0 < spec_avg n 0 s1.avgs := by
      unfold spec_avg
      apply div_pos
      · have hs : 0 < ((row_indices n 0).map s1.avgs).sum := by
          apply list_sum_pos
          · intro hnil
            have := row_indices_length n 0
            rw [hnil] at this
            simp at this
            omega
          · intro j hj
            obtain ⟨j1, j2⟩ := mem_row_indices.mp hj
            rw [hpost.avgs j j1 j2]
            exact row_sample_pos hfp (by show j - (0 + 1) < fp.length; omega)
        exact_mod_cast hs
      · have : 0 < n - 0 - 1 := by omega
        exact_mod_cast this
    obtain ⟨j0, e1, e2, e3⟩ := exists_row_min n 0 s1.avgs (by omega)
    obtain ⟨_, hnot⟩ := not_claimed 0 _ s1 hpost havgpos j0 e1 e2 e3
    -- some index above 0 is not associated at the end
    have hex : ∃ x, 0 < x ∧ x < n ∧ (s.entries x).associated = false := by
      by_contra hall
      have hj0 : (s.entries j0).associated = true := by
        by_contra hc
        exact hall ⟨j0, e1, e2, by simpa using hc⟩
      obtain ⟨m1, m2, _, t, m4, m5⟩ := master_of_assoc hw hj0
      have hm0 : master_of s.entries j0 = 0 := by
        by_contra hne
        exact hall ⟨master_of s.entries j0, by omega, by omega, m2⟩
      rw [hm0, hfrozen] at m4 m5
      exact hnot ((pass_sibling_iff hpost j0).mp ⟨t, m4, m5⟩)
    obtain ⟨x, x1, x2, x3⟩ := hex
    have hna0 : (s.entries 0).associated = false := by
      rw [hfrozen]
      have h := core_assoc hpost.master
      rw [h]; exact hna
    have r1 : rank s.entries 0 < rank s.entries x := rank_lt_of_master s.entries x1 hna0
    have r2 : rank s.entries x < rank s.entries n := rank_lt_of_master s.entries x2 x3
    omega
  · intro i sk s1 hpre hna hpass hzero j h1 h2
    have hpost := master_pass_done hna (wf_backrefs_set (run_prefix_wf hw0 i hpre)) hpass
    have hthr : spec_threshold (spec_avg n i s1.avgs) = 0 := by
      have hs : ((row_indices n i).map s1.avgs).sum = 0 := by
        apply List.sum_eq_zero
        intro v hv
        obtain ⟨j1, hj1, rfl⟩ := List.mem_map.mp hv
        exact hzero j1 (mem_row_indices.mp hj1).1 (mem_row_indices.mp hj1).2
      unfold spec_threshold spec_avg
      rw [hs]
      simp
    have hflag : spec_threshold (spec_avg n i s1.avgs) ≤ (s1.avgs j : ℚ) := by
      rw [hthr, hzero j h1 h2]
      simp
    refine ⟨hflag, ?_⟩
    intro hja
    rw [pass_sibling_iff hpost, mem_pass_claimed]
    refine ⟨⟨h1, h2⟩, ?_, hja⟩
    rw [pass_threshold_spec hpost, ← hpost.avgs j h1 h2]
    exact hflag

theorem positive_timings_witness :
    ∃ s, run_exp exact_threshold 4 (start_state 4 0 example_file) = .done s
      ∧ 2 ≤ rank s.entries 4 := by
  obtain ⟨s, hs⟩ := run_completes exact_threshold 4 0 example_file (by decide)
  exact ⟨s, hs, (positive_timings 4 0 example_file).2.1 s (by decide) (by decide) hs⟩

/-- C20 fails on the code: with `NUM_ENTRIES` entries and a time file whose
samples are all 100, `run_exp` returns with no entry associated, and
`check_mapping` stores the entry of index `MAX_BANKS` in
`banks[MAX_BANKS]`, a slot outside the array that was `NULL` at the start,
before its `assert` fails with `main_bank = MAX_BANKS + 1`. -/
theorem bank_table_overflow_write :
    ∃ s ms, run_exp exact_threshold NUM_ENTRIES
        (start_state NUM_ENTRIES 0 (flat_file (NUM_ENTRIES * (NUM_ENTRIES - 1) / 2) 100))
        = .done s
      ∧ check_mapping NUM_ENTRIES (mapping_start s) = .assert_failed ms
      ∧ (mapping_start s).banks MAX_BANKS = none
      ∧ ms.banks MAX_BANKS = some MAX_BANKS
      ∧ ms.main_bank = MAX_BANKS + 1 :=
  overflow_on_flat NUM_ENTRIES 0 max_banks_lt_num_entries _ 100 (by decide)
    (flat_file_all _ 100) (le_of_eq (flat_file_length _ 100).symm)

end BankMapper
